import Mathlib

/-!
Verification of the URL-canonicalization and link-graph core of the
ideal-url-organizer repository.

The Python sources under src/ delegate URL parsing to CPython's
urllib.parse.  We therefore embed, first, the relevant fragment of
urllib.parse (CPython 3.11 semantics: urlsplit, urlparse, parse_qs,
urlencode, quote_plus, unquote, urlunparse), and on top of it the
repository code itself: src/core/url_parser.py (ParsedURL, URLParser),
src/analyzers/link_graph_analyzer.py (LinkGraphAnalyzer) and
src/organizers/method_16_canonical_deduplication.py
(CanonicalDeduplicationOrganizer).

Strings are modelled as lists of characters (Python str is a sequence
of code points).  Two deliberate, documented simplifications of the
urllib model, both irrelevant to every theorem below:
* the NFKC check of _checknetloc is modelled as a no-op (it is a no-op
  on every all-ASCII netloc; theorems quantifying over arbitrary inputs
  carry an all-ASCII hypothesis, and all concrete inputs are ASCII);
* int(port, 10) is modelled as plain decimal-digit parsing (Python
  additionally tolerates surrounding whitespace, a sign and inner
  underscores; no theorem below touches such a port).
-/

namespace UrlOrg

abbrev Chars := List Char

/-- Python str.lower, restricted to its ASCII action (all inputs in the
theorems below are ASCII). -/
def lowerStr (s : Chars) : Chars := s.map Char.toLower

/-- The bytes CPython urlsplit removes from the URL before parsing
(_UNSAFE_URL_BYTES_TO_REMOVE = tab, carriage return, newline). -/
def isUnsafeChar (c : Char) : Bool := c == '\t' || c == '\r' || c == '\n'

/-- urlsplit preprocessing: url.replace(b, "") for each unsafe byte. -/
def removeUnsafeBytes (s : Chars) : Chars := s.filter (fun c => !(isUnsafeChar c))

/-- scheme_chars of urllib.parse: letters, digits and "+-.". -/
def isSchemeChar (c : Char) : Bool :=
  c.isAlpha || c.isDigit || c == '+' || c == '-' || c == '.'

/-- Split a list around the first occurrence of c (none if c is absent);
models str.split(c, 1) / str.partition(c). -/
def breakFirst (c : Char) : Chars → Option (Chars × Chars)
  | [] => none
  | d :: rest =>
    if d = c then some ([], rest)
    else
      match breakFirst c rest with
      | some (l, r) => some (d :: l, r)
      | none => none

/-- Split a list around the last occurrence of c; models str.rpartition. -/
def breakLast (c : Char) (s : Chars) : Option (Chars × Chars) :=
  match breakFirst c s.reverse with
  | some (rafter, rbefore) => some (rbefore.reverse, rafter.reverse)
  | none => none

/-- Python str.split(sep) with a one-character separator: always returns
at least one (possibly empty) piece. -/
def splitAll (sep : Char) : Chars → List Chars
  | [] => [[]]
  | c :: rest =>
    if c = sep then [] :: splitAll sep rest
    else
      match splitAll sep rest with
      | h :: t => (c :: h) :: t
      | [] => [[c]]

/-- Python string comparison s < t: lexicographic on code points. -/
def charsLt : Chars → Chars → Bool
  | [], [] => false
  | [], _ :: _ => true
  | _ :: _, [] => false
  | a :: as, b :: bs => if a < b then true else if b < a then false else charsLt as bs

/-- Decimal-digit run to Nat; models the digit action of int(s, 10). -/
def digitsToNat (s : Chars) : Nat :=
  s.foldl (fun acc c => acc * 10 + (c.toNat - 48)) 0

/-- Decimal representation of a Nat; models Python str(int) / f-string
formatting of a port number. -/
def natRepr (n : Nat) : Chars :=
  if h : n < 10 then [Char.ofNat (n + 48)]
  else natRepr (n / 10) ++ [Char.ofNat (n % 10 + 48)]
  decreasing_by exact Nat.div_lt_self (Nat.lt_of_lt_of_le (by omega) (Nat.le_of_not_lt h)) (by omega)

/-! ### urllib.parse: urlsplit / urlparse -/

/-- Result of urlsplit (scheme, netloc, path, query, fragment). -/
structure SplitResult where
  scheme : Chars
  netloc : Chars
  path : Chars
  query : Chars
  fragment : Chars
deriving DecidableEq

/-- The scheme-splitting step of urlsplit: a valid scheme is a nonempty
run of scheme chars starting with an ASCII letter, terminated by the
first colon; it is lowercased.  Otherwise the URL is left whole. -/
def splitScheme (url : Chars) : Chars × Chars :=
  match breakFirst ':' url with
  | some (before, after) =>
    match before with
    | [] => ([], url)
    | c0 :: _ =>
      if c0.isAlpha ∧ before.all isSchemeChar then (lowerStr before, after)
      else ([], url)
  | none => ([], url)

/-- Delimiters ending the netloc in _splitnetloc. -/
def isNetlocDelim (c : Char) : Bool := c == '/' || c == '?' || c == '#'

/-- The scheme part of urlsplit(url) after unsafe-byte removal. -/
def schemeOf (url0 : Chars) : Chars := (splitScheme (removeUnsafeBytes url0)).1

/-- What remains of the URL after the scheme split. -/
def restOf (url0 : Chars) : Chars := (splitScheme (removeUnsafeBytes url0)).2

/-- The netloc part: present only after a leading double slash, ended
by the first slash, question mark or hash (_splitnetloc). -/
def netlocOf (url0 : Chars) : Chars :=
  if (restOf url0).take 2 = ['/', '/']
  then ((restOf url0).drop 2).takeWhile (fun c => !isNetlocDelim c)
  else []

/-- What remains of the URL after the netloc split. -/
def afterNetloc (url0 : Chars) : Chars :=
  if (restOf url0).take 2 = ['/', '/']
  then ((restOf url0).drop 2).dropWhile (fun c => !isNetlocDelim c)
  else restOf url0

/-- Split the fragment at the first hash (allow_fragments=True). -/
def fragSplit (url0 : Chars) : Chars × Chars :=
  match breakFirst '#' (afterNetloc url0) with
  | some (l, r) => (l, r)
  | none => (afterNetloc url0, [])

/-- Split the query at the first question mark of what is left. -/
def querySplit (url0 : Chars) : Chars × Chars :=
  match breakFirst '?' (fragSplit url0).1 with
  | some (l, r) => (l, r)
  | none => ((fragSplit url0).1, [])

/-- urlsplit(url) with allow_fragments=True.  Raises (models ValueError)
exactly on a netloc containing an unmatched square bracket.  The NFKC
_checknetloc test is a no-op on ASCII netlocs and is modelled as a
no-op (see the file comment). -/
def urlsplitCore (url0 : Chars) : Except String SplitResult :=
  if ('[' ∈ netlocOf url0 ∧ ']' ∉ netlocOf url0) ∨
      (']' ∈ netlocOf url0 ∧ '[' ∉ netlocOf url0) then
    .error "Invalid IPv6 URL"
  else
    .ok ⟨schemeOf url0, netlocOf url0, (querySplit url0).1, (querySplit url0).2, (fragSplit url0).2⟩

/-- uses_params from urllib.parse. -/
def usesParamsSchemes : List String :=
  ["", "ftp", "hdl", "prospero", "http", "imap", "https", "shttp", "rtsp",
   "rtspu", "sip", "sips", "mms", "sftp", "tel"]

/-- _splitparams: split path at the first semicolon after the last
slash (or the first semicolon at all when there is no slash). -/
def splitparams (url : Chars) : Chars × Chars :=
  match breakLast '/' url with
  | some (before, after) =>
    match breakFirst ';' after with
    | some (a1, a2) => (before ++ '/' :: a1, a2)
    | none => (url, [])
  | none =>
    match breakFirst ';' url with
    | some (l, r) => (l, r)
    | none => (url, [])

/-- Result of urlparse (scheme, netloc, path, params, query, fragment). -/
structure UrlparseResult where
  scheme : Chars
  netloc : Chars
  path : Chars
  params : Chars
  query : Chars
  fragment : Chars
deriving DecidableEq

/-- urlparse(url): urlsplit plus the params split for schemes in
uses_params. -/
def urlparseCore (url : Chars) : Except String UrlparseResult :=
  match urlsplitCore url with
  | .error e => .error e
  | .ok sr =>
  if String.mk sr.scheme ∈ usesParamsSchemes ∧ ';' ∈ sr.path then
    .ok ⟨sr.scheme, sr.netloc, (splitparams sr.path).1, (splitparams sr.path).2,
         sr.query, sr.fragment⟩
  else
    .ok ⟨sr.scheme, sr.netloc, sr.path, [], sr.query, sr.fragment⟩

/-- _hostinfo of SplitResult: strip userinfo at the last at-sign, then
split host and port (bracketed IPv6 hosts keep the text inside the
brackets).  Returns the raw (not yet lowercased) host and the raw port
text (none when absent or empty). -/
def hostinfo (netloc : Chars) : Chars × Option Chars :=
  let hi := match breakLast '@' netloc with
    | some (_, after) => after
    | none => netloc
  if '[' ∈ hi then
    match breakFirst '[' hi with
    | some (_, bracketed) =>
      match breakFirst ']' bracketed with
      | some (host, rest) =>
        let port := match breakFirst ':' rest with
          | some (_, p) => p
          | none => []
        (host, if port = [] then none else some port)
      | none => (bracketed, none)
    | none => (hi, none)
  else
    match breakFirst ':' hi with
    | some (h, p) => (h, if p = [] then none else some p)
    | none => (hi, none)

/-- The port property of SplitResult: int(port, 10) plus the range
check; raises (models ValueError) on non-digits or a port above
65535. -/
def parsePortStr (s : Chars) : Except String Nat :=
  if s ≠ [] ∧ s.all Char.isDigit then
    if digitsToNat s ≤ 65535 then .ok (digitsToNat s)
    else .error "Port out of range 0-65535"
  else .error "Port could not be cast to integer value"

/-! ### urllib.parse: percent-encoding and query strings -/

/-- always_safe characters of urllib.parse.quote with safe set empty:
letters, digits and the four marks. -/
def alwaysSafe (c : Char) : Bool :=
  c.isAlpha || c.isDigit || c == '_' || c == '.' || c == '-' || c == '~'

/-- Uppercase hex digit, as produced by the percent-encoder. -/
def hexDigit (n : Nat) : Char :=
  if n < 10 then Char.ofNat (n + 48) else Char.ofNat (n + 55)

/-- Two-digit uppercase hex of a byte. -/
def toHex2 (b : Nat) : Chars := [hexDigit (b / 16), hexDigit (b % 16)]

/-- UTF-8 encoding of one code point (Python strings are encoded to
UTF-8 before percent-encoding). -/
def utf8Encode (c : Char) : List Nat :=
  let n := c.toNat
  if n < 0x80 then [n]
  else if n < 0x800 then [0xC0 + n / 64, 0x80 + n % 64]
  else if n < 0x10000 then [0xE0 + n / 4096, 0x80 + (n / 64) % 64, 0x80 + n % 64]
  else [0xF0 + n / 262144, 0x80 + (n / 4096) % 64, 0x80 + (n / 64) % 64, 0x80 + n % 64]

/-- quote_plus on a single character: space becomes plus, safe
characters pass through, everything else is percent-encoded bytewise. -/
def quotePlusChar (c : Char) : Chars :=
  if c = ' ' then ['+']
  else if alwaysSafe c then [c]
  else (utf8Encode c).flatMap (fun b => '%' :: toHex2 b)

/-- urllib.parse.quote_plus with an empty safe set, as used by
urlencode. -/
def quotePlus (s : Chars) : Chars := s.flatMap quotePlusChar

/-- Value of an ASCII hex digit, if it is one. -/
def hexVal : Char → Option Nat := fun c =>
  if '0' ≤ c ∧ c ≤ '9' then some (c.toNat - 48)
  else if 'A' ≤ c ∧ c ≤ 'F' then some (c.toNat - 55)
  else if 'a' ≤ c ∧ c ≤ 'f' then some (c.toNat - 87)
  else none

/-- unquote_to_bytes on an ASCII chunk: each valid %XX becomes one
byte, a percent not followed by two hex digits stays literal, plain
characters contribute their own byte. -/
def percentDecodeBytes : Chars → List Nat
  | [] => []
  | c :: c1 :: c2 :: rest2 =>
    if c = '%' then
      match hexVal c1, hexVal c2 with
      | some h1, some h2 => (h1 * 16 + h2) :: percentDecodeBytes rest2
      | _, _ => 0x25 :: percentDecodeBytes (c1 :: c2 :: rest2)
    else c.toNat % 256 :: percentDecodeBytes (c1 :: c2 :: rest2)
  | c :: rest =>
    if c = '%' then 0x25 :: percentDecodeBytes rest
    else c.toNat % 256 :: percentDecodeBytes rest

/-- The U+FFFD replacement character. -/
def replChar : Char := Char.ofNat 0xFFFD

/-- Is b a UTF-8 continuation byte. -/
def isContByte (b : Nat) : Bool := 0x80 ≤ b && b ≤ 0xBF

/-- One step of UTF-8 decoding with errors="replace": decode one code
point (or one replacement character for a maximal invalid subpart)
starting at lead byte b, returning the decoded character and the
remaining bytes. -/
def utf8Step (b : Nat) (rest : List Nat) : Char × List Nat :=
  if b < 0x80 then (Char.ofNat b, rest)
  else if 0xC2 ≤ b ∧ b ≤ 0xDF then
    match rest with
    | b2 :: rest2 =>
      if isContByte b2 then (Char.ofNat ((b - 0xC0) * 64 + (b2 - 0x80)), rest2)
      else (replChar, rest)
    | [] => (replChar, [])
  else if 0xE0 ≤ b ∧ b ≤ 0xEF then
    match rest with
    | b2 :: rest2 =>
      if (b = 0xE0 → 0xA0 ≤ b2) ∧ (b = 0xED → b2 ≤ 0x9F) ∧ isContByte b2 then
        match rest2 with
        | b3 :: rest3 =>
          if isContByte b3 then
            (Char.ofNat ((b - 0xE0) * 4096 + (b2 - 0x80) * 64 + (b3 - 0x80)), rest3)
          else (replChar, rest2)
        | [] => (replChar, [])
      else (replChar, rest)
    | [] => (replChar, [])
  else if 0xF0 ≤ b ∧ b ≤ 0xF4 then
    match rest with
    | b2 :: rest2 =>
      if (b = 0xF0 → 0x90 ≤ b2) ∧ (b = 0xF4 → b2 ≤ 0x8F) ∧ isContByte b2 then
        match rest2 with
        | b3 :: rest3 =>
          if isContByte b3 then
            match rest3 with
            | b4 :: rest4 =>
              if isContByte b4 then
                (Char.ofNat ((b - 0xF0) * 262144 + (b2 - 0x80) * 4096 +
                  (b3 - 0x80) * 64 + (b4 - 0x80)), rest4)
              else (replChar, rest3)
            | [] => (replChar, [])
          else (replChar, rest2)
        | [] => (replChar, [])
      else (replChar, rest)
    | [] => (replChar, [])
  else (replChar, rest)

theorem utf8Step_length (b : Nat) (rest : List Nat) :
    (utf8Step b rest).2.length ≤ rest.length := by
  unfold utf8Step
  repeat' split
  all_goals simp_all
  all_goals omega

/-- UTF-8 decoding with errors="replace", as
bytes.decode("utf-8", "replace") does. -/
def utf8DecodeReplace : List Nat → Chars
  | [] => []
  | b :: rest =>
    (utf8Step b rest).1 :: utf8DecodeReplace (utf8Step b rest).2
termination_by bs => bs.length
decreasing_by
  exact Nat.lt_succ_of_le (utf8Step_length b rest)

/-- Is c an ASCII character (unquote splits the input into ASCII and
non-ASCII runs and only byte-decodes the ASCII runs). -/
def isAsciiChar (c : Char) : Bool := c.toNat < 128

/-- Worker for unquote: accumulate the current ASCII run (reversed),
flush it through percent-decoding and UTF-8 decoding at each non-ASCII
character and at the end. -/
def unquoteRunsAux : Chars → Chars → Chars
  | acc, [] => utf8DecodeReplace (percentDecodeBytes acc.reverse)
  | acc, c :: rest =>
    if isAsciiChar c then unquoteRunsAux (c :: acc) rest
    else utf8DecodeReplace (percentDecodeBytes acc.reverse) ++ c :: unquoteRunsAux [] rest

/-- urllib.parse.unquote with encoding="utf-8", errors="replace"; the
early return when no percent sign is present is kept from the
source. -/
def unquote (s : Chars) : Chars :=
  if '%' ∈ s then unquoteRunsAux [] s else s

/-- urllib.parse.unquote_plus: plus signs become spaces, then
unquote. -/
def unquotePlus (s : Chars) : Chars :=
  unquote (s.map (fun c => if c = '+' then ' ' else c))

/-- parse_qsl with keep_blank_values=True, separator ampersand: split
on ampersands, skip empty pieces, split each piece at the first equals
sign (a piece without one gets an empty value), unquote_plus both
sides. -/
def parseQsl (qs : Chars) : List (Chars × Chars) :=
  (splitAll '&' qs).foldr
    (fun nv acc =>
      if nv = [] then acc
      else
        match breakFirst '=' nv with
        | some (n, v) => (unquotePlus n, unquotePlus v) :: acc
        | none => (unquotePlus nv, []) :: acc)
    []

/-- Append one value under a key, dict-style: extend the existing entry
in place or append a new key at the end. -/
def addPair (k : Chars) (v : Chars) : List (Chars × List Chars) → List (Chars × List Chars)
  | [] => [(k, [v])]
  | (k', vs) :: rest =>
    if k' = k then (k', vs ++ [v]) :: rest else (k', vs) :: addPair k v rest

/-- parse_qs with keep_blank_values=True: group the parse_qsl pairs
into an insertion-ordered dict of value lists. -/
def parseQs (qs : Chars) : List (Chars × List Chars) :=
  (parseQsl qs).foldl (fun acc kv => addPair kv.1 kv.2 acc) []

/-- urlencode with doseq=True on a dict of string lists: one k=v pair
per value, both sides quote_plus-encoded, joined by ampersands. -/
def urlencode (qd : List (Chars × List Chars)) : Chars :=
  List.intercalate ['&']
    ((qd.map (fun kv => kv.2.map (fun v => quotePlus kv.1 ++ '=' :: quotePlus v))).flatten)

/-! ### urllib.parse: urlunsplit / urlunparse -/

/-- urlunsplit: reassemble scheme, netloc, path, query, fragment. -/
def urlunsplit (scheme netloc path query fragment : Chars) : Chars :=
  let url := path
  let url :=
    if netloc ≠ [] ∨ (url ≠ [] ∧ url.take 2 = ['/', '/']) then
      let url2 := if url ≠ [] ∧ url.take 1 ≠ ['/'] then '/' :: url else url
      '/' :: '/' :: (netloc ++ url2)
    else url
  let url := if scheme ≠ [] then scheme ++ ':' :: url else url
  let url := if query ≠ [] then url ++ '?' :: query else url
  if fragment ≠ [] then url ++ '#' :: fragment else url

/-- urlunparse: glue params back onto the path with a semicolon, then
urlunsplit. -/
def urlunparse (scheme netloc path params query fragment : Chars) : Chars :=
  urlunsplit scheme netloc (if params ≠ [] then path ++ ';' :: params else path) query fragment

/-! ### src/core/url_parser.py -/

/-- ParsedURL of src/core/url_parser.py: the structured representation
produced by URLParser.parse.  query_dict is Python's insertion-ordered
dict of key to value list, modelled as an association list. -/
structure ParsedURL where
  scheme : String
  netloc : String
  hostname : String
  port : Option Nat
  path : String
  params : String
  query : String
  queryDict : List (String × List String)
  fragment : String
  original : String
deriving DecidableEq

/-- URLParser of src/core/url_parser.py; tracker_params is a set of
query keys, membership is all that is used. -/
structure URLParser where
  trackerParams : List String
deriving DecidableEq

/-- The ParsedURL record URLParser.parse builds from an urlparse
result: hostname via the lowercasing hostname property (None replaced
by the empty string), query_dict via
parse_qs(query, keep_blank_values=True). -/
def mkParsed (pr : UrlparseResult) (url : String) (port : Option Nat) : ParsedURL :=
  { scheme := String.mk pr.scheme
    netloc := String.mk pr.netloc
    hostname := String.mk (lowerStr (hostinfo pr.netloc).1)
    port := port
    path := String.mk pr.path
    params := String.mk pr.params
    query := String.mk pr.query
    queryDict := (parseQs pr.query).map (fun kv => (String.mk kv.1, kv.2.map String.mk))
    fragment := String.mk pr.fragment
    original := url }

/-- URLParser.parse: urlparse the string and build the ParsedURL; the
port property may raise on a malformed port. -/
def URLParser.parse (_P : URLParser) (url : String) : Except String ParsedURL :=
  match urlparseCore url.toList with
  | .error e => .error e
  | .ok pr =>
    match (hostinfo pr.netloc).2 with
    | none => .ok (mkParsed pr url none)
    | some s =>
      match parsePortStr s with
      | .error e => .error e
      | .ok n => .ok (mkParsed pr url (some n))

/-- URLParser.remove_tracker_params: drop every query_dict key in the
tracker set; all other fields (including the raw query string) are
kept. -/
def URLParser.removeTrackerParams (P : URLParser) (p : ParsedURL) : ParsedURL :=
  { p with queryDict := p.queryDict.filter (fun kv => !(P.trackerParams.contains kv.1)) }

/-- The seven option flags of URLParser.normalize. -/
structure NormalizeOptions where
  lowercaseHostname : Bool
  removeWww : Bool
  removeTrailingSlash : Bool
  sortQueryParams : Bool
  removeDefaultPorts : Bool
  removeFragments : Bool
  decodePercentEncoding : Bool
deriving DecidableEq

/-- The default option values (every flag defaults to True). -/
def defaultOptions : NormalizeOptions := ⟨true, true, true, true, true, true, true⟩

/-- Insert a pair into a key-sorted list, keeping it sorted (duplicate
keys go after existing ones; the inputs have distinct keys). -/
def insertPair (kv : String × List String) :
    List (String × List String) → List (String × List String)
  | [] => [kv]
  | kv' :: rest =>
    if charsLt kv.1.toList kv'.1.toList then kv :: kv' :: rest
    else kv' :: insertPair kv rest

/-- dict(sorted(d.items())): sort the entries by key (Python compares
the tuples, which on distinct keys is comparison of the keys, by code
point). -/
def sortPairs (l : List (String × List String)) : List (String × List String) :=
  l.foldr insertPair []

/-- Python path.rstrip(sep) for a single character: drop every trailing
occurrence. -/
def rstripChar (sep : Char) (s : Chars) : Chars :=
  (s.reverse.dropWhile (fun c => c = sep)).reverse

/-- URLParser.normalize: lowercase the hostname, strip one leading
www. prefix, drop default ports, rebuild netloc from hostname and port
(Python truthiness: port None or 0 yields a bare hostname), strip
trailing slashes from a path longer than one character, percent-decode
the path, sort the query dict, clear the fragment — each step under
its option flag. -/
def URLParser.normalize (_P : URLParser) (p : ParsedURL) (opts : NormalizeOptions) : ParsedURL :=
  let hostname := if opts.lowercaseHostname then String.mk (lowerStr p.hostname.toList) else p.hostname
  let hostname :=
    if opts.removeWww ∧ hostname.toList.take 4 = "www.".toList
    then String.mk (hostname.toList.drop 4) else hostname
  let port :=
    if opts.removeDefaultPorts ∧
        ((p.scheme = "http" ∧ p.port = some 80) ∨ (p.scheme = "https" ∧ p.port = some 443))
    then none else p.port
  let netloc := match port with
    | some n => if n ≠ 0 then String.mk (hostname.toList ++ ':' :: natRepr n) else hostname
    | none => hostname
  let path :=
    if opts.removeTrailingSlash ∧ p.path.toList.length > 1 ∧ p.path.toList.getLast? = some '/'
    then String.mk (rstripChar '/' p.path.toList) else p.path
  let path := if opts.decodePercentEncoding then String.mk (unquote path.toList) else path
  let qd := if opts.sortQueryParams ∧ p.queryDict ≠ [] then sortPairs p.queryDict else p.queryDict
  let fragment := if opts.removeFragments then "" else p.fragment
  { p with hostname := hostname, port := port, netloc := netloc,
           path := path, queryDict := qd, fragment := fragment }

/-- ParsedURL.__str__: re-encode the query from query_dict when that is
non-empty, else fall back to the raw query string; then urlunparse. -/
def ParsedURL.strUrl (p : ParsedURL) : String :=
  let query :=
    if p.queryDict ≠ [] then urlencode (p.queryDict.map (fun kv => (kv.1.toList, kv.2.map String.toList)))
    else p.query.toList
  String.mk (urlunparse p.scheme.toList p.netloc.toList p.path.toList p.params.toList query p.fragment.toList)

/-- URLParser.clean: parse, optionally remove trackers, optionally
normalize (with the default options), then serialize. -/
def URLParser.clean (P : URLParser) (url : String) (nm rt : Bool) : Except String String :=
  match P.parse url with
  | .error e => .error e
  | .ok p =>
    let p1 := if rt then P.removeTrackerParams p else p
    let p2 := if nm then P.normalize p1 defaultOptions else p1
    .ok p2.strUrl

/-- URLParser.get_canonical_url: clean with normalize=True and
remove_trackers=True. -/
def URLParser.getCanonicalUrl (P : URLParser) (url : String) : Except String String :=
  P.clean url true true

/-- URLParser.get_domain_parts: split the parsed hostname on dots;
three or more labels give (join of all but the last two, second to
last, last), exactly two give an empty subdomain, fewer give only a
domain (the single label, or empty). -/
def URLParser.getDomainParts (P : URLParser) (url : String) :
    Except String (String × String × String) :=
  match P.parse url with
  | .error e => .error e
  | .ok p =>
  if (splitAll '.' p.hostname.toList).length ≥ 3 then
    .ok (String.mk (List.intercalate ['.']
           ((splitAll '.' p.hostname.toList).take ((splitAll '.' p.hostname.toList).length - 2))),
         String.mk ((splitAll '.' p.hostname.toList).getD ((splitAll '.' p.hostname.toList).length - 2) []),
         String.mk ((splitAll '.' p.hostname.toList).getD ((splitAll '.' p.hostname.toList).length - 1) []))
  else if (splitAll '.' p.hostname.toList).length = 2 then
    .ok ("", String.mk ((splitAll '.' p.hostname.toList).getD 0 []),
         String.mk ((splitAll '.' p.hostname.toList).getD 1 []))
  else
    .ok ("", String.mk ((splitAll '.' p.hostname.toList).getD 0 []), "")

/-! ### src/analyzers/link_graph_analyzer.py -/

/-- PageContent of src/core/web_crawler.py, restricted to the fields
the link-graph analyzer reads. -/
structure PageContent where
  url : String
  finalUrl : String
  statusCode : Nat
  title : String
  internalLinks : List String
deriving DecidableEq

/-- A networkx DiGraph: simple directed graph with insertion-ordered
node and edge lists (no duplicates). -/
structure DiGraph where
  nodes : List String
  edges : List (String × String)
deriving DecidableEq

def DiGraph.emptyGraph : DiGraph := ⟨[], []⟩

/-- G.add_node: a repeated add leaves the node set unchanged. -/
def DiGraph.addNode (G : DiGraph) (n : String) : DiGraph :=
  if n ∈ G.nodes then G else ⟨G.nodes ++ [n], G.edges⟩

/-- G.add_edge: endpoints are added as nodes when missing; a repeated
edge collapses. -/
def DiGraph.addEdge (G : DiGraph) (u v : String) : DiGraph :=
  if (u, v) ∈ ((G.addNode u).addNode v).edges then (G.addNode u).addNode v
  else ⟨((G.addNode u).addNode v).nodes, ((G.addNode u).addNode v).edges ++ [(u, v)]⟩

/-- G.in_degree(n): number of edges into n. -/
def DiGraph.inDegree (G : DiGraph) (n : String) : Nat :=
  (G.edges.filter (fun e => e.2 == n)).length

/-- G.out_degree(n): number of edges out of n. -/
def DiGraph.outDegree (G : DiGraph) (n : String) : Nat :=
  (G.edges.filter (fun e => e.1 == n)).length

/-- LinkGraphAnalyzer.build_graph: every page's url becomes a node;
for every internal link of a page, an edge from the page's url to the
raw link string is added when the link is a key of the url/final_url
page map or already a node. -/
def buildGraph (pages : List PageContent) : DiGraph :=
  pages.foldl
    (fun G page =>
      page.internalLinks.foldl
        (fun G link =>
          if link ∈ pages.map (fun p => p.url) ∨ link ∈ pages.map (fun p => p.finalUrl) ∨
              link ∈ G.nodes
          then G.addEdge page.url link else G)
        G)
    (pages.foldl (fun G page => G.addNode page.url) DiGraph.emptyGraph)

/-- The six page-type labels of identify_page_types. -/
inductive PageType where
  | cornerstone
  | hub
  | authority
  | leaf
  | orphan
  | normal
deriving DecidableEq

/-- The ordered predicate chain of identify_page_types, as a function
of the two degrees (first match wins). -/
def classify (inDeg outDeg : Nat) : PageType :=
  if inDeg ≥ 5 ∧ outDeg ≥ 3 then .cornerstone
  else if outDeg ≥ 10 then .hub
  else if inDeg ≥ 5 then .authority
  else if outDeg = 0 then .leaf
  else if inDeg = 0 then .orphan
  else .normal

/-- LinkGraphAnalyzer.identify_page_types: the nodes of each label, in
node order. -/
def identifyPageTypes (G : DiGraph) (t : PageType) : List String :=
  G.nodes.filter (fun n => classify (G.inDegree n) (G.outDegree n) == t)

/-- The six labels in the order the chain tests them. -/
def allPageTypes : List PageType :=
  [.cornerstone, .hub, .authority, .leaf, .orphan, .normal]

/-! Model of networkx pagerank / hits (float arithmetic modelled
exactly over the rationals). -/

/-- PageRank damping factor used by compute_pagerank. -/
def alphaPR : ℚ := 85 / 100

/-- networkx pagerank tolerance (1e-6). -/
def tolPR : ℚ := 1 / 1000000

/-- One power iteration of networkx pagerank: each node receives the
damped stochastic mass of its in-neighbours plus its share of the
dangling mass and of the random-jump mass (uniform personalization). -/
def prStep (G : DiGraph) (x : String → ℚ) : String → ℚ :=
  let N : ℚ := G.nodes.length
  let danglesum := alphaPR * ((G.nodes.filter (fun n => G.outDegree n == 0)).map x).sum
  fun n =>
    alphaPR * ((G.edges.filter (fun e => e.2 == n)).map (fun e => x e.1 / (G.outDegree e.1 : ℚ))).sum
      + danglesum * (1 / N) + (1 - alphaPR) * (1 / N)

/-- The L1 error between successive pagerank iterates over the nodes. -/
def prErr (G : DiGraph) (x xn : String → ℚ) : ℚ :=
  (G.nodes.map (fun n => |xn n - x n|)).sum

/-- The pagerank power-iteration loop with its convergence test
(err < N * tol); the fuel is max_iter = 100, exhaustion models
PowerIterationFailedConvergence. -/
def prLoop (G : DiGraph) : Nat → (String → ℚ) → Except Unit (String → ℚ)
  | 0, _ => .error ()
  | fuel + 1, x =>
    let xn := prStep G x
    if prErr G x xn < G.nodes.length * tolPR then .ok xn else prLoop G fuel xn

/-- nx.pagerank with the default parameters: empty graph gives an
empty map, otherwise power iteration from the uniform vector; raises
on non-convergence. -/
def nxPagerank (G : DiGraph) : Except Unit (List (String × ℚ)) :=
  if G.nodes.length = 0 then .ok []
  else
    match prLoop G 100 (fun _ => 1 / (G.nodes.length : ℚ)) with
    | .ok x => .ok (G.nodes.map (fun n => (n, x n)))
    | .error e => .error e

/-- LinkGraphAnalyzer.compute_pagerank: the bare except turns any
failure into an empty dict. -/
def computePagerank (G : DiGraph) : List (String × ℚ) :=
  match nxPagerank G with
  | .ok m => m
  | .error _ => []

/-- networkx hits tolerance (1e-8). -/
def tolHITS : ℚ := 1 / 100000000

/-- Maximum of a list of rationals (Python max over dict values; only
called on nonempty node sets). -/
def listMax : List ℚ → ℚ
  | [] => 0
  | x :: xs => xs.foldl max x

/-- One full hits iteration: authority scores from hub scores, new hub
scores from authority scores, then max-normalization of both; fails
(ZeroDivisionError) when a maximum is zero. -/
def hitsStep (G : DiGraph) (h : String → ℚ) :
    Except Unit ((String → ℚ) × (String → ℚ)) :=
  let a := fun n => ((G.edges.filter (fun e => e.2 == n)).map (fun e => h e.1)).sum
  let hn := fun n => ((G.edges.filter (fun e => e.1 == n)).map (fun e => a e.2)).sum
  let mh := listMax (G.nodes.map hn)
  let ma := listMax (G.nodes.map a)
  if mh = 0 ∨ ma = 0 then .error ()
  else .ok (fun n => hn n * (1 / mh), fun n => a n * (1 / ma))

/-- The hits iteration loop (max_iter = 100, err < tol on hub
scores). -/
def hitsLoop (G : DiGraph) : Nat → (String → ℚ) → Except Unit ((String → ℚ) × (String → ℚ))
  | 0, _ => .error ()
  | fuel + 1, h =>
    match hitsStep G h with
    | .error e => .error e
    | .ok ha =>
      if (G.nodes.map (fun n => |ha.1 n - h n|)).sum < tolHITS then .ok ha
      else hitsLoop G fuel ha.1

/-- nx.hits with the default parameters (normalized=True): empty graph
gives empty maps, otherwise iterate from the uniform hub vector and
finally normalize both score vectors to sum one. -/
def nxHits (G : DiGraph) : Except Unit (List (String × ℚ) × List (String × ℚ)) :=
  if G.nodes.length = 0 then .ok ([], [])
  else
    match hitsLoop G 100 (fun _ => 1 / (G.nodes.length : ℚ)) with
    | .error e => .error e
    | .ok ha =>
      .ok (G.nodes.map (fun n => (n, ha.1 n * (1 / (G.nodes.map ha.1).sum))),
           G.nodes.map (fun n => (n, ha.2 n * (1 / (G.nodes.map ha.2).sum))))

/-- LinkGraphAnalyzer.compute_hits: the bare except turns any failure
into a pair of empty dicts. -/
def computeHits (G : DiGraph) : List (String × ℚ) × List (String × ℚ) :=
  match nxHits G with
  | .ok p => p
  | .error _ => ([], [])

/-! ### src/organizers/method_16_canonical_deduplication.py -/

/-- URLRecord of src/core/data_loader.py, restricted to the fields the
canonical-deduplication organizer touches (only url is read; the other
fields ride along to show records are carried wholesale). -/
structure URLRecord where
  url : String
  depth : Nat
  parentUrl : Option String
deriving DecidableEq

/-- Append a record to its canonical group, defaultdict-style. -/
def addRecord (k : String) (r : URLRecord) :
    List (String × List URLRecord) → List (String × List URLRecord)
  | [] => [(k, [r])]
  | (k', rs) :: rest =>
    if k' = k then (k', rs ++ [r]) :: rest else (k', rs) :: addRecord k r rest

/-- The result dictionary of CanonicalDeduplicationOrganizer.organize. -/
structure OrganizedData where
  canonicalMap : List (String × List URLRecord)
  unique : List (String × List URLRecord)
  duplicates : List (String × List URLRecord)
deriving DecidableEq

/-- CanonicalDeduplicationOrganizer.organize: group the records by the
canonical form of their url (a parse failure propagates), then split
the groups into unique (one member) and duplicates (more than one). -/
def groupRecords (P : URLParser) :
    List URLRecord → List (String × List URLRecord) →
      Except String (List (String × List URLRecord))
  | [], acc => .ok acc
  | r :: rest, acc =>
    match P.getCanonicalUrl r.url with
    | .error e => .error e
    | .ok cu => groupRecords P rest (addRecord cu r acc)

def organize (P : URLParser) (records : List URLRecord) : Except String OrganizedData :=
  match groupRecords P records [] with
  | .error e => .error e
  | .ok cm =>
    .ok ⟨cm, cm.filter (fun g => g.2.length = 1), cm.filter (fun g => g.2.length > 1)⟩

/-- The deduplication_savings figure of CanonicalDeduplicationOrganizer.save:
sum of (member count - 1) over the duplicate groups. -/
def dedupSavings (o : OrganizedData) : Nat :=
  (o.duplicates.map (fun g => g.2.length - 1)).sum

/-! ### Theorems -/

/-- Claim C7: canonicalizing the worked example of the spec yields
exactly the expected string: hostname lowercased, www stripped,
default port 80 removed, trailing slash stripped, tracker removed,
query keys sorted, fragment cleared. -/
theorem C7_canonical_worked_example :
    URLParser.getCanonicalUrl ⟨["utm_source"]⟩
        "http://WWW.Example.COM:80/Path/?b=2&a=1&utm_source=x#frag"
      = .ok "http://example.com/Path?a=1&b=2" := by
  rfl

/-- Claim C1 (failing input): with tracker set {utm_source}, the URL
whose every query key is a tracker canonicalizes to itself — the
tracker key survives in the canonical query string, because
ParsedURL.__str__ falls back to the raw query string when query_dict
is empty.  The second conjunct evaluates the canonical form's parsed
query keys: the tracker key is there. -/
theorem C1_tracker_survives_all_tracker_query :
    URLParser.getCanonicalUrl ⟨["utm_source"]⟩ "http://example.com/?utm_source=x"
        = .ok "http://example.com/?utm_source=x" ∧
      (URLParser.parse ⟨["utm_source"]⟩ "http://example.com/?utm_source=x").map
          (fun p => p.queryDict.map (fun kv => kv.1))
        = .ok ["utm_source"] := by
  exact ⟨rfl, rfl⟩

/-- The domain-parts contract as the spec words it, computed from the
reversed label list: with at least three labels the last is the tld,
the second to last the domain, and the rest (joined by dots) the
subdomain; with two labels there is no subdomain; otherwise only the
single (possibly empty) label as domain. -/
def domainPartsSpec (hostname : String) : String × String × String :=
  let labels := splitAll '.' hostname.toList
  match labels.reverse with
  | tld :: dom :: more :: rest =>
    (String.mk (List.intercalate ['.'] (more :: rest).reverse), String.mk dom, String.mk tld)
  | [tld, dom] => ("", String.mk dom, String.mk tld)
  | [only] => ("", String.mk only, "")
  | [] => ("", "", "")

theorem exceptBindOk {ε α β : Type} (a : α) (f : α → Except ε β) :
    ((Except.ok a : Except ε α) >>= f) = f a := rfl

theorem okIfBranches {ε α : Type} (c1 c2 : Prop) [Decidable c1] [Decidable c2]
    (X Y Z W : α) (h : (if c1 then X else if c2 then Y else Z) = W) :
    (if c1 then (Except.ok X : Except ε α) else if c2 then .ok Y else .ok Z) = .ok W := by
  by_cases h1 : c1
  · rw [if_pos h1] at h ⊢
    exact congrArg _ h
  · rw [if_neg h1] at h ⊢
    by_cases h2 : c2
    · rw [if_pos h2] at h ⊢
      exact congrArg _ h
    · rw [if_neg h2] at h ⊢
      exact congrArg _ h

theorem okIf {ε α : Type} (c : Prop) [Decidable c] (X Y : α) :
    (if c then (Except.ok X : Except ε α) else .ok Y) = .ok (if c then X else Y) := by
  by_cases h : c
  · rw [if_pos h, if_pos h]
  · rw [if_neg h, if_neg h]

theorem toNat_ofNat_small (n : Nat) (h : n < 55296) : (Char.ofNat n).toNat = n := by
  unfold Char.ofNat
  split
  · rfl
  · rename_i hv
    exact absurd (Or.inl h) hv

theorem splitAll_ne_nil (sep : Char) (s : Chars) : splitAll sep s ≠ [] := by
  induction s with
  | nil => simp [splitAll]
  | cons c rest ih =>
    unfold splitAll
    split
    · simp
    · match h : splitAll sep rest with
      | [] => exact absurd h ih
      | h0 :: t => simp

theorem domainBranch_eq_spec (s : Chars) :
    (if (splitAll '.' s).length ≥ 3 then
       (String.mk (List.intercalate ['.'] ((splitAll '.' s).take ((splitAll '.' s).length - 2))),
        String.mk ((splitAll '.' s).getD ((splitAll '.' s).length - 2) []),
        String.mk ((splitAll '.' s).getD ((splitAll '.' s).length - 1) []))
     else if (splitAll '.' s).length = 2 then
       ("", String.mk ((splitAll '.' s).getD 0 []), String.mk ((splitAll '.' s).getD 1 []))
     else ("", String.mk ((splitAll '.' s).getD 0 []), ""))
    = domainPartsSpec (String.mk s) := by
  have hne : splitAll '.' s ≠ [] := splitAll_ne_nil '.' s
  unfold domainPartsSpec
  simp only [String.toList]
  generalize splitAll '.' s = parts at hne ⊢
  rcases hr : parts.reverse with _ | ⟨tld, _ | ⟨dom, _ | ⟨more, rest⟩⟩⟩
  · exact absurd (by simpa using congrArg List.reverse hr) hne
  · have hp : parts = [tld] := by simpa using congrArg List.reverse hr
    subst hp
    simp
  · have hp : parts = [dom, tld] := by simpa using congrArg List.reverse hr
    subst hp
    simp
  · have hp : parts = (more :: rest).reverse ++ [dom, tld] := by
      have := congrArg List.reverse hr
      simpa using this
    subst hp
    have hlen : ((more :: rest).reverse ++ [dom, tld]).length = rest.length + 3 := by
      simp
    have hq : (more :: rest).reverse.length = rest.length + 1 := by simp
    rw [if_pos (by omega)]
    have h2 : ((more :: rest).reverse ++ [dom, tld]).length - 2 = (more :: rest).reverse.length := by
      omega
    have h1 : ((more :: rest).reverse ++ [dom, tld]).length - 1 = (more :: rest).reverse.length + 1 := by
      omega
    rw [h2, h1, List.take_left, List.getD_append_right _ _ _ _ (Nat.le_refl _),
        List.getD_append_right _ _ _ _ (Nat.le_succ_of_le (Nat.le_refl _))]
    simp

/-- Claim C9: get_domain_parts is, on every successfully parsed URL,
the pure label-split of the parsed hostname the spec describes, and
the worked example splits as expected. -/
theorem C9_domain_parts :
    (∀ (P : URLParser) (url : String) (p : ParsedURL), P.parse url = .ok p →
        P.getDomainParts url = .ok (domainPartsSpec p.hostname)) ∧
      URLParser.getDomainParts ⟨[]⟩ "http://archives.hartford.edu/x"
        = .ok ("archives", "hartford", "edu") := by
  constructor
  · intro P url p hp
    unfold URLParser.getDomainParts
    rw [hp]
    exact okIfBranches _ _ _ _ _ _ (domainBranch_eq_spec p.hostname.toList)
  · rfl

theorem toLower_toLower (c : Char) : c.toLower.toLower = c.toLower := by
  by_cases h : 65 ≤ c.toNat ∧ c.toNat ≤ 90
  · have h1 : c.toLower = Char.ofNat (c.toNat + 32) := by
      simp only [Char.toLower]
      rw [if_pos h]
    rw [h1]
    simp only [Char.toLower]
    rw [toNat_ofNat_small _ (by omega)]
    rw [if_neg (by omega)]
  · have h1 : c.toLower = c := by
      simp only [Char.toLower]
      rw [if_neg h]
    rw [h1, h1]

theorem lowerStr_idem (s : Chars) : lowerStr (lowerStr s) = lowerStr s := by
  induction s with
  | nil => rfl
  | cons c rest ih =>
    simp only [lowerStr, List.map_cons] at ih ⊢
    rw [toLower_toLower]
    exact congrArg _ ih

theorem sum_filter_classify (l : List String) (f : String → PageType) :
    ((allPageTypes.map (fun t => (l.filter (fun n => f n == t)).length)).sum) = l.length := by
  induction l with
  | nil => simp [allPageTypes]
  | cons a l ih =>
    simp only [allPageTypes, List.map_cons, List.map_nil, List.sum_cons, List.sum_nil,
      List.filter_cons] at ih ⊢
    cases h : f a <;> simp [h] <;> omega

/-- Claim C5: page-type classification is a total function of the two
degrees under the fixed priority chain; the six labels partition the
node set (label counts sum to the node count, and a node carries label
t exactly when the chain assigns it t), and the degree-(0,0) node is a
leaf, not an orphan. -/
theorem C5_page_type_partition :
    (∀ G : DiGraph,
        (allPageTypes.map (fun t => (identifyPageTypes G t).length)).sum = G.nodes.length) ∧
      (∀ (G : DiGraph) (t : PageType) (n : String),
        n ∈ identifyPageTypes G t ↔
          n ∈ G.nodes ∧ classify (G.inDegree n) (G.outDegree n) = t) ∧
      classify 0 0 = PageType.leaf := by
  refine ⟨?_, ?_, ?_⟩
  · intro G
    exact sum_filter_classify G.nodes (fun n => classify (G.inDegree n) (G.outDegree n))
  · intro G t n
    simp [identifyPageTypes, List.mem_filter]
  · rfl

/-- Claim C10: normalize rebuilds netloc unconditionally from the
result's own hostname and port fields (Python truthiness: a port of
None or 0 yields a bare hostname), it never reads the input netloc (so
userinfo credentials are dropped), and the hostname parse produces is
already lowercase (the hostname property of urllib lowercases), so the
rebuilt netloc host is lowercase even when lowercase_hostname is
disabled. -/
theorem C10_netloc_rebuilt :
    (∀ (P : URLParser) (p : ParsedURL) (opts : NormalizeOptions),
        (P.normalize p opts).netloc =
          (match (P.normalize p opts).port with
           | some n =>
             if n ≠ 0 then
               String.mk ((P.normalize p opts).hostname.toList ++ ':' :: natRepr n)
             else (P.normalize p opts).hostname
           | none => (P.normalize p opts).hostname)) ∧
      (∀ (P : URLParser) (p : ParsedURL) (opts : NormalizeOptions) (x : String),
        P.normalize { p with netloc := x } opts = P.normalize p opts) ∧
      (∀ (P : URLParser) (url : String) (p : ParsedURL), P.parse url = .ok p →
        String.mk (lowerStr p.hostname.toList) = p.hostname) := by
  refine ⟨?_, ?_, ?_⟩
  · intro P p opts
    rfl
  · intro P p opts x
    rfl
  · intro P url p hp
    unfold URLParser.parse at hp
    split at hp
    · exact Except.noConfusion hp
    · rename_i pr heq
      split at hp
      · cases hp
        show String.mk (lowerStr (lowerStr (hostinfo pr.netloc).1)) = _
        rw [lowerStr_idem]
        rfl
      · rename_i s hs
        split at hp
        · exact Except.noConfusion hp
        · rename_i n hn
          cases hp
          show String.mk (lowerStr (lowerStr (hostinfo pr.netloc).1)) = _
          rw [lowerStr_idem]
          rfl

theorem C9_domain_parts_witness :
    URLParser.getDomainParts ⟨[]⟩ "http://archives.hartford.edu/x"
      = .ok (domainPartsSpec "archives.hartford.edu") :=
  C9_domain_parts.1 ⟨[]⟩ "http://archives.hartford.edu/x"
    ⟨"http", "archives.hartford.edu", "archives.hartford.edu", none, "/x", "", "", [], "",
     "http://archives.hartford.edu/x"⟩ rfl

theorem C10_netloc_rebuilt_witness :
    String.mk (lowerStr ("host.com" : String).toList) = "host.com" :=
  C10_netloc_rebuilt.2.2 ⟨[]⟩ "http://HOST.com:81/x"
    ⟨"http", "HOST.com:81", "host.com", some 81, "/x", "", "", [], "",
     "http://HOST.com:81/x"⟩ rfl

theorem mem_nodes_addNode (G : DiGraph) (m n : String) :
    n ∈ (G.addNode m).nodes ↔ n ∈ G.nodes ∨ n = m := by
  unfold DiGraph.addNode
  split
  · rename_i h
    constructor
    · exact fun hn => Or.inl hn
    · rintro (hn | rfl)
      · exact hn
      · exact h
  · simp

theorem edges_addNode (G : DiGraph) (m : String) : (G.addNode m).edges = G.edges := by
  unfold DiGraph.addNode
  split <;> rfl

theorem mem_nodes_addEdge (G : DiGraph) (u v n : String) :
    n ∈ (G.addEdge u v).nodes ↔ n ∈ G.nodes ∨ n = u ∨ n = v := by
  unfold DiGraph.addEdge
  split <;> simp [mem_nodes_addNode] <;> tauto

theorem mem_edges_addEdge (G : DiGraph) (u v : String) (e : String × String) :
    e ∈ (G.addEdge u v).edges ↔ e ∈ G.edges ∨ e = (u, v) := by
  unfold DiGraph.addEdge
  split
  · rename_i h
    rw [edges_addNode, edges_addNode] at h
    constructor
    · intro he
      exact Or.inl (by simpa [edges_addNode] using he)
    · rintro (he | rfl)
      · simpa [edges_addNode] using he
      · simpa [edges_addNode] using h
  · simp [edges_addNode]

theorem nodePhaseFold (pages : List PageContent) (G : DiGraph) :
    (∀ n, n ∈ (pages.foldl (fun G page => G.addNode page.url) G).nodes ↔
        n ∈ G.nodes ∨ ∃ p ∈ pages, p.url = n) ∧
      (pages.foldl (fun G page => G.addNode page.url) G).edges = G.edges := by
  induction pages generalizing G with
  | nil => simp
  | cons pg rest ih =>
    constructor
    · intro n
      rw [List.foldl_cons, (ih (G.addNode pg.url)).1 n, mem_nodes_addNode]
      simp only [List.mem_cons]
      constructor
      · rintro ((h | rfl) | ⟨p, hp, hu⟩)
        · exact Or.inl h
        · exact Or.inr ⟨pg, Or.inl rfl, rfl⟩
        · exact Or.inr ⟨p, Or.inr hp, hu⟩
      · rintro (h | ⟨p, (rfl | hp), hu⟩)
        · exact Or.inl (Or.inl h)
        · exact Or.inl (Or.inr hu.symm)
        · exact Or.inr ⟨p, hp, hu⟩
    · rw [List.foldl_cons, (ih (G.addNode pg.url)).2, edges_addNode]

theorem linkPhaseFoldInner (urls finals : List String) (su : String) (links : List String)
    (G : DiGraph) (hsuG : su ∈ G.nodes) (hsu : su ∈ urls)
    (hG : ∀ m ∈ G.nodes, m ∈ urls ∨ m ∈ finals) :
    (∀ n, n ∈ (links.foldl
        (fun G link => if link ∈ urls ∨ link ∈ finals ∨ link ∈ G.nodes
          then G.addEdge su link else G) G).nodes ↔
        n ∈ G.nodes ∨ (n ∈ links ∧ (n ∈ urls ∨ n ∈ finals))) ∧
      (∀ e : String × String, e ∈ (links.foldl
        (fun G link => if link ∈ urls ∨ link ∈ finals ∨ link ∈ G.nodes
          then G.addEdge su link else G) G).edges ↔
        e ∈ G.edges ∨ (e.1 = su ∧ e.2 ∈ links ∧ (e.2 ∈ urls ∨ e.2 ∈ finals))) := by
  induction links generalizing G with
  | nil => simp
  | cons l rest ih =>
    rw [List.foldl_cons]
    by_cases hc : l ∈ urls ∨ l ∈ finals ∨ l ∈ G.nodes
    · have hl : l ∈ urls ∨ l ∈ finals := by
        rcases hc with h | h | h
        · exact Or.inl h
        · exact Or.inr h
        · exact hG l h
      rw [if_pos hc]
      have hsuG1 : su ∈ (G.addEdge su l).nodes := by
        rw [mem_nodes_addEdge]
        exact Or.inl hsuG
      have hG1 : ∀ m ∈ (G.addEdge su l).nodes, m ∈ urls ∨ m ∈ finals := by
        intro m hm
        rw [mem_nodes_addEdge] at hm
        rcases hm with hm | rfl | rfl
        · exact hG m hm
        · exact Or.inl hsu
        · exact hl
      obtain ⟨ihn, ihe⟩ := ih (G.addEdge su l) hsuG1 hG1
      constructor
      · intro n
        rw [ihn n, mem_nodes_addEdge]
        simp only [List.mem_cons]
        constructor
        · rintro ((h | rfl | rfl) | ⟨hr, hm⟩)
          · exact Or.inl h
          · exact Or.inl hsuG
          · exact Or.inr ⟨Or.inl rfl, hl⟩
          · exact Or.inr ⟨Or.inr hr, hm⟩
        · rintro (h | ⟨(rfl | hr), hm⟩)
          · exact Or.inl (Or.inl h)
          · exact Or.inl (Or.inr (Or.inr rfl))
          · exact Or.inr ⟨hr, hm⟩
      · intro e
        obtain ⟨e1, e2⟩ := e
        rw [ihe (e1, e2), mem_edges_addEdge]
        simp only [List.mem_cons, Prod.mk.injEq]
        constructor
        · rintro ((h | ⟨rfl, rfl⟩) | ⟨h1, hr, hm⟩)
          · exact Or.inl h
          · exact Or.inr ⟨rfl, Or.inl rfl, hl⟩
          · exact Or.inr ⟨h1, Or.inr hr, hm⟩
        · rintro (h | ⟨rfl, (rfl | hr), hm⟩)
          · exact Or.inl (Or.inl h)
          · exact Or.inl (Or.inr ⟨rfl, rfl⟩)
          · exact Or.inr ⟨rfl, hr, hm⟩
    · have hl : ¬(l ∈ urls ∨ l ∈ finals) := by
        intro h
        rcases h with h | h
        · exact hc (Or.inl h)
        · exact hc (Or.inr (Or.inl h))
      rw [if_neg hc]
      obtain ⟨ihn, ihe⟩ := ih G hsuG hG
      constructor
      · intro n
        rw [ihn n]
        simp only [List.mem_cons]
        constructor
        · rintro (h | ⟨hr, hm⟩)
          · exact Or.inl h
          · exact Or.inr ⟨Or.inr hr, hm⟩
        · rintro (h | ⟨(rfl | hr), hm⟩)
          · exact Or.inl h
          · exact absurd hm hl
          · exact Or.inr ⟨hr, hm⟩
      · intro e
        rw [ihe e]
        simp only [List.mem_cons]
        constructor
        · rintro (h | ⟨h1, hr, hm⟩)
          · exact Or.inl h
          · exact Or.inr ⟨h1, Or.inr hr, hm⟩
        · rintro (h | ⟨h1, (h2 | hr), hm⟩)
          · exact Or.inl h
          · exact absurd (h2 ▸ hm) hl
          · exact Or.inr ⟨h1, hr, hm⟩

theorem linkPhaseFold (urls finals : List String) (pages : List PageContent)
    (G : DiGraph) (hp : ∀ p ∈ pages, p.url ∈ G.nodes ∧ p.url ∈ urls)
    (hG : ∀ m ∈ G.nodes, m ∈ urls ∨ m ∈ finals) :
    (∀ n, n ∈ (pages.foldl
        (fun G page => page.internalLinks.foldl
          (fun G link => if link ∈ urls ∨ link ∈ finals ∨ link ∈ G.nodes
            then G.addEdge page.url link else G) G) G).nodes ↔
        n ∈ G.nodes ∨ ∃ p ∈ pages, n ∈ p.internalLinks ∧ (n ∈ urls ∨ n ∈ finals)) ∧
      (∀ e : String × String, e ∈ (pages.foldl
        (fun G page => page.internalLinks.foldl
          (fun G link => if link ∈ urls ∨ link ∈ finals ∨ link ∈ G.nodes
            then G.addEdge page.url link else G) G) G).edges ↔
        e ∈ G.edges ∨ ∃ p ∈ pages, e.1 = p.url ∧ e.2 ∈ p.internalLinks ∧
          (e.2 ∈ urls ∨ e.2 ∈ finals)) := by
  induction pages generalizing G with
  | nil => simp
  | cons pg rest ih =>
    rw [List.foldl_cons]
    obtain ⟨hpg, hrest⟩ : (pg.url ∈ G.nodes ∧ pg.url ∈ urls) ∧
        ∀ p ∈ rest, p.url ∈ G.nodes ∧ p.url ∈ urls := by
      refine ⟨hp pg (List.mem_cons_self pg rest), fun p hpr => hp p (List.mem_cons_of_mem pg hpr)⟩
    obtain ⟨innN, innE⟩ :=
      linkPhaseFoldInner urls finals pg.url pg.internalLinks G hpg.1 hpg.2 hG
    have hG1 : ∀ m ∈ (pg.internalLinks.foldl
        (fun G link => if link ∈ urls ∨ link ∈ finals ∨ link ∈ G.nodes
          then G.addEdge pg.url link else G) G).nodes, m ∈ urls ∨ m ∈ finals := by
      intro m hm
      rw [innN m] at hm
      rcases hm with hm | ⟨_, hm⟩
      · exact hG m hm
      · exact hm
    have hrest1 : ∀ p ∈ rest, p.url ∈ (pg.internalLinks.foldl
        (fun G link => if link ∈ urls ∨ link ∈ finals ∨ link ∈ G.nodes
          then G.addEdge pg.url link else G) G).nodes ∧ p.url ∈ urls := by
      intro p hpr
      refine ⟨?_, (hrest p hpr).2⟩
      rw [innN p.url]
      exact Or.inl (hrest p hpr).1
    obtain ⟨ihN, ihE⟩ := ih _ hrest1 hG1
    constructor
    · intro n
      rw [ihN n, innN n]
      simp only [List.mem_cons]
      constructor
      · rintro ((h | ⟨hl, hm⟩) | ⟨p, hpr, hl, hm⟩)
        · exact Or.inl h
        · exact Or.inr ⟨pg, Or.inl rfl, hl, hm⟩
        · exact Or.inr ⟨p, Or.inr hpr, hl, hm⟩
      · rintro (h | ⟨p, (rfl | hpr), hl, hm⟩)
        · exact Or.inl (Or.inl h)
        · exact Or.inl (Or.inr ⟨hl, hm⟩)
        · exact Or.inr ⟨p, hpr, hl, hm⟩
    · intro e
      rw [ihE e, innE e]
      simp only [List.mem_cons]
      constructor
      · rintro ((h | ⟨h1, hl, hm⟩) | ⟨p, hpr, h1, hl, hm⟩)
        · exact Or.inl h
        · exact Or.inr ⟨pg, Or.inl rfl, h1, hl, hm⟩
        · exact Or.inr ⟨p, Or.inr hpr, h1, hl, hm⟩
      · rintro (h | ⟨p, (rfl | hpr), h1, hl, hm⟩)
        · exact Or.inl (Or.inl h)
        · exact Or.inl (Or.inr ⟨h1, hl, hm⟩)
        · exact Or.inr ⟨p, hpr, h1, hl, hm⟩

/-- Claim C2 (amended): the graph build_graph produces, characterized.
A node is a page's raw request url, or a raw link-target string that
equals some page's url or final_url; an edge runs from a page's raw
url to a raw link string exactly when that string equals some page's
url or final_url.  No canonicalization is applied anywhere, and node
identity for a page is page.url, not the canonical final_url. -/
theorem C2_buildGraph_membership (pages : List PageContent) :
    (∀ n, n ∈ (buildGraph pages).nodes ↔
        n ∈ pages.map (fun p => p.url) ∨
          (n ∈ pages.map (fun p => p.finalUrl) ∧ ∃ p ∈ pages, n ∈ p.internalLinks)) ∧
      (∀ u v, (u, v) ∈ (buildGraph pages).edges ↔
        ∃ p ∈ pages, u = p.url ∧ v ∈ p.internalLinks ∧
          (v ∈ pages.map (fun p => p.url) ∨ v ∈ pages.map (fun p => p.finalUrl))) := by
  obtain ⟨n0, e0⟩ := nodePhaseFold pages DiGraph.emptyGraph
  have hG0nodes : ∀ m, m ∈ (pages.foldl (fun G page => G.addNode page.url)
      DiGraph.emptyGraph).nodes ↔ m ∈ pages.map (fun p => p.url) := by
    intro m
    rw [n0 m]
    simp [DiGraph.emptyGraph, List.mem_map]
  obtain ⟨lN, lE⟩ := linkPhaseFold (pages.map (fun p => p.url))
    (pages.map (fun p => p.finalUrl)) pages
    (pages.foldl (fun G page => G.addNode page.url) DiGraph.emptyGraph)
    (by
      intro p hpm
      constructor
      · rw [hG0nodes p.url]
        exact List.mem_map_of_mem _ hpm
      · exact List.mem_map_of_mem _ hpm)
    (by
      intro m hm
      rw [hG0nodes m] at hm
      exact Or.inl hm)
  constructor
  · intro n
    unfold buildGraph
    rw [lN n, hG0nodes n]
    constructor
    · rintro (h | ⟨p, hpm, hl, hm⟩)
      · exact Or.inl h
      · rcases hm with hm | hm
        · exact Or.inl hm
        · exact Or.inr ⟨hm, p, hpm, hl⟩
    · rintro (h | ⟨hm, p, hpm, hl⟩)
      · exact Or.inl h
      · exact Or.inr ⟨p, hpm, hl, Or.inr hm⟩
  · intro u v
    unfold buildGraph
    rw [lE (u, v), e0]
    simp only [DiGraph.emptyGraph, List.not_mem_nil, false_or]

/-- Claim C2 (counterexample to the claim as stated): for a single
page with request url a.com and final url b.com, the node set is the
raw request url only; the canonical form of the final url (which is
b.com itself) is not a node, so node identity is not the canonical
final_url. -/
theorem C2_counterexample :
    (buildGraph [⟨"http://a.com", "http://b.com", 200, "t", []⟩]).nodes = ["http://a.com"] ∧
      URLParser.getCanonicalUrl ⟨[]⟩ "http://b.com" = .ok "http://b.com" ∧
      "http://a.com" ≠ "http://b.com" := by
  exact ⟨rfl, rfl, by decide⟩

theorem addRecord_values (k : String) (r : URLRecord) (acc : List (String × List URLRecord)) :
    ((addRecord k r acc).map (fun g => g.2)).flatten.Perm
      (((acc.map (fun g => g.2)).flatten) ++ [r]) := by
  induction acc with
  | nil => simp [addRecord]
  | cons g rest ih =>
    obtain ⟨k', vs⟩ := g
    unfold addRecord
    split
    · simp only [List.map_cons, List.flatten_cons, List.append_assoc]
      exact List.Perm.append_left vs List.perm_append_comm
    · simp only [List.map_cons, List.flatten_cons, List.append_assoc]
      exact List.Perm.append_left vs ih

theorem addRecord_keys (k : String) (r : URLRecord) (acc : List (String × List URLRecord)) :
    (addRecord k r acc).map (fun g => g.1) =
      if k ∈ acc.map (fun g => g.1) then acc.map (fun g => g.1)
      else acc.map (fun g => g.1) ++ [k] := by
  induction acc with
  | nil => simp [addRecord]
  | cons g rest ih =>
    obtain ⟨k', vs⟩ := g
    unfold addRecord
    split
    · rename_i he
      subst he
      simp
    · rename_i he
      simp only [List.map_cons, ih, List.mem_cons]
      by_cases hk : k ∈ rest.map (fun g => g.1)
      · rw [if_pos hk, if_pos (Or.inr hk)]
      · rw [if_neg hk, if_neg ?_]
        · simp
        · rintro (h | h)
          · exact he h.symm
          · exact hk h

theorem addRecord_keys_nodup (k : String) (r : URLRecord)
    (acc : List (String × List URLRecord)) (h : (acc.map (fun g => g.1)).Nodup) :
    ((addRecord k r acc).map (fun g => g.1)).Nodup := by
  rw [addRecord_keys]
  split
  · exact h
  · rename_i hk
    simp [List.nodup_append, h, hk]

theorem addRecord_keyed (P : URLParser) (k : String) (r : URLRecord)
    (acc : List (String × List URLRecord)) (hk : P.getCanonicalUrl r.url = .ok k)
    (h : ∀ g ∈ acc, (∀ x ∈ g.2, P.getCanonicalUrl x.url = .ok g.1) ∧ g.2 ≠ []) :
    ∀ g ∈ addRecord k r acc, (∀ x ∈ g.2, P.getCanonicalUrl x.url = .ok g.1) ∧ g.2 ≠ [] := by
  induction acc with
  | nil =>
    intro g hg
    simp only [addRecord, List.mem_singleton] at hg
    subst hg
    constructor
    · intro x hx
      simp only [List.mem_singleton] at hx
      subst hx
      exact hk
    · simp
  | cons g0 rest ih =>
    obtain ⟨k', vs⟩ := g0
    intro g hg
    have hred : addRecord k r ((k', vs) :: rest) =
        if k' = k then (k', vs ++ [r]) :: rest else (k', vs) :: addRecord k r rest := rfl
    rw [hred] at hg
    by_cases he : k' = k
    · rw [if_pos he] at hg
      subst he
      rw [List.mem_cons] at hg
      rcases hg with hg | hg
      · subst hg
        have h0 := h (k', vs) (List.mem_cons_self _ _)
        constructor
        · intro x hx
          rcases List.mem_append.1 hx with hx | hx
          · exact h0.1 x hx
          · rw [List.mem_singleton] at hx
            subst hx
            exact hk
        · simp
      · exact h g (List.mem_cons_of_mem _ hg)
    · rw [if_neg he] at hg
      rw [List.mem_cons] at hg
      rcases hg with hg | hg
      · subst hg
        exact h (k', vs) (List.mem_cons_self _ _)
      · exact ih (fun g' hg' => h g' (List.mem_cons_of_mem _ hg')) g hg

theorem groupRecords_ok (P : URLParser) (records : List URLRecord)
    (acc cm : List (String × List URLRecord)) (h : groupRecords P records acc = .ok cm) :
    ((cm.map (fun g => g.2)).flatten.Perm ((acc.map (fun g => g.2)).flatten ++ records)) ∧
      ((acc.map (fun g => g.1)).Nodup → (cm.map (fun g => g.1)).Nodup) ∧
      ((∀ g ∈ acc, (∀ x ∈ g.2, P.getCanonicalUrl x.url = .ok g.1) ∧ g.2 ≠ []) →
        ∀ g ∈ cm, (∀ x ∈ g.2, P.getCanonicalUrl x.url = .ok g.1) ∧ g.2 ≠ []) := by
  induction records generalizing acc with
  | nil =>
    unfold groupRecords at h
    cases h
    exact ⟨by simp, fun h => h, fun h => h⟩
  | cons r rest ih =>
    unfold groupRecords at h
    split at h
    · exact Except.noConfusion h
    · rename_i cu hcu
      obtain ⟨ihP, ihN, ihK⟩ := ih (addRecord cu r acc) h
      refine ⟨?_, ?_, ?_⟩
      · have h1 := ihP.trans ((addRecord_values cu r acc).append_right rest)
        have e : ((acc.map (fun g => g.2)).flatten ++ [r]) ++ rest =
            (acc.map (fun g => g.2)).flatten ++ (r :: rest) := by simp
        rw [e] at h1
        exact h1
      · intro hn
        exact ihN (addRecord_keys_nodup cu r acc hn)
      · intro hkd
        exact ihK (addRecord_keyed P cu r acc hcu hkd)

theorem sum_sub_one_add_length (l : List (String × List URLRecord))
    (h : ∀ g ∈ l, 1 ≤ g.2.length) :
    (l.map (fun g => g.2.length - 1)).sum + l.length = (l.map (fun g => g.2.length)).sum := by
  induction l with
  | nil => simp
  | cons g rest ih =>
    have h1 := h g (List.mem_cons_self _ _)
    have h2 := ih (fun g' hg' => h g' (List.mem_cons_of_mem _ hg'))
    simp only [List.map_cons, List.sum_cons, List.length_cons]
    omega

/-- Claim C6: partitioning by canonical form is lossless.  Under a
successful organize run: the group members, concatenated, are a
permutation of the input records (no record dropped or duplicated);
the group keys are pairwise distinct (each record is in exactly one
group) and every member of a group canonicalizes to the group key;
unique is exactly the one-member groups and duplicates exactly the
larger ones; and the deduplication savings equals the sum over
duplicate groups of (member count - 1), equivalently total duplicate
members minus group count. -/
theorem C6_canonical_partition_lossless (P : URLParser) (records : List URLRecord)
    (o : OrganizedData) (h : organize P records = .ok o) :
    ((o.canonicalMap.map (fun g => g.2)).flatten.Perm records) ∧
      ((o.canonicalMap.map (fun g => g.1)).Nodup) ∧
      (∀ g ∈ o.canonicalMap, (∀ x ∈ g.2, P.getCanonicalUrl x.url = .ok g.1) ∧ g.2 ≠ []) ∧
      o.unique = o.canonicalMap.filter (fun g => g.2.length = 1) ∧
      o.duplicates = o.canonicalMap.filter (fun g => g.2.length > 1) ∧
      dedupSavings o + o.duplicates.length = (o.duplicates.map (fun g => g.2.length)).sum := by
  unfold organize at h
  split at h
  · exact Except.noConfusion h
  · rename_i cm hcm
    cases h
    obtain ⟨hP, hN, hK⟩ := groupRecords_ok P records [] cm hcm
    refine ⟨by simpa using hP, hN (by simp), hK (by simp), rfl, rfl, ?_⟩
    refine sum_sub_one_add_length _ ?_
    intro g hg
    have := List.of_mem_filter hg
    simp only [decide_eq_true_eq] at this
    omega

theorem C6_canonical_partition_lossless_witness :
    ((⟨[("http://x.com/a", [⟨"http://x.com/a", 0, none⟩, ⟨"http://x.com/a#f", 1, none⟩])],
        [],
        [("http://x.com/a", [⟨"http://x.com/a", 0, none⟩, ⟨"http://x.com/a#f", 1, none⟩])]⟩ :
        OrganizedData).canonicalMap.map (fun g => g.2)).flatten.Perm
      [⟨"http://x.com/a", 0, none⟩, ⟨"http://x.com/a#f", 1, none⟩] :=
  (C6_canonical_partition_lossless ⟨[]⟩
    [⟨"http://x.com/a", 0, none⟩, ⟨"http://x.com/a#f", 1, none⟩] _ rfl).1

theorem outDegree_edgeless (G : DiGraph) (hE : G.edges = []) (n : String) :
    G.outDegree n = 0 := by
  unfold DiGraph.outDegree
  rw [hE]
  rfl

theorem prStep_edgeless (G : DiGraph) (hE : G.edges = []) (hlen : G.nodes.length ≠ 0)
    (n : String) :
    prStep G (fun _ => 1 / (G.nodes.length : ℚ)) n = 1 / (G.nodes.length : ℚ) := by
  have hNQ : ((G.nodes.length : ℚ)) ≠ 0 := Nat.cast_ne_zero.2 hlen
  unfold prStep
  have hfun : (fun n => G.outDegree n == 0) = fun (_ : String) => true := by
    funext m
    rw [outDegree_edgeless G hE m]
    rfl
  rw [hE, hfun]
  have hfil : G.nodes.filter (fun _ => true) = G.nodes := by
    apply List.filter_eq_self.2
    intro a _
    rfl
  rw [hfil]
  have hmap : G.nodes.map (fun _ => 1 / (G.nodes.length : ℚ))
      = List.replicate G.nodes.length (1 / (G.nodes.length : ℚ)) := List.map_const _ _
  rw [hmap, List.sum_replicate, nsmul_eq_mul]
  simp only [List.filter_nil, List.map_nil, List.sum_nil, mul_zero, zero_add]
  rw [mul_one_div_cancel hNQ]
  ring

theorem prLoop_edgeless (G : DiGraph) (hE : G.edges = []) (hlen : G.nodes.length ≠ 0) :
    prLoop G 100 (fun _ => 1 / (G.nodes.length : ℚ))
      = .ok (prStep G (fun _ => 1 / (G.nodes.length : ℚ))) := by
  have hNpos : (0 : ℚ) < (G.nodes.length : ℚ) := by
    exact_mod_cast Nat.pos_of_ne_zero hlen
  show prLoop G (99 + 1) _ = _
  unfold prLoop
  rw [if_pos]
  have herr : prErr G (fun _ => 1 / (G.nodes.length : ℚ))
      (prStep G (fun _ => 1 / (G.nodes.length : ℚ))) = 0 := by
    unfold prErr
    refine List.sum_eq_zero ?_
    intro x hx
    rw [List.mem_map] at hx
    obtain ⟨n, _, rfl⟩ := hx
    rw [prStep_edgeless G hE hlen n]
    simp
  rw [herr]
  have : (0 : ℚ) < tolPR := by norm_num [tolPR]
  exact mul_pos hNpos this

/-- Claim C8: compute_pagerank and compute_hits never surface an
exception: any failure of the underlying networkx computation becomes
an empty map (pair of empty maps for hits); a zero-node graph gives an
empty map; and on an N-node zero-edge graph pagerank converges in one
iteration to the uniform score 1/N per node (float arithmetic modelled
exactly over the rationals). -/
theorem C8_metrics_error_policy :
    (∀ G : DiGraph, computePagerank G = ((nxPagerank G).toOption.getD [])) ∧
      (∀ G : DiGraph, computeHits G = ((nxHits G).toOption.getD ([], []))) ∧
      (∀ (G : DiGraph) (e : Unit), nxHits G = .error e → computeHits G = ([], [])) ∧
      (∀ G : DiGraph, G.nodes = [] → computePagerank G = []) ∧
      (∀ G : DiGraph, G.edges = [] → G.nodes ≠ [] →
        computePagerank G = G.nodes.map (fun n => (n, 1 / (G.nodes.length : ℚ)))) := by
  refine ⟨?_, ?_, ?_, ?_, ?_⟩
  · intro G
    unfold computePagerank
    cases h : nxPagerank G <;> simp [Except.toOption]
  · intro G
    unfold computeHits
    cases h : nxHits G <;> simp [Except.toOption]
  · intro G e h
    unfold computeHits
    rw [h]
  · intro G h
    unfold computePagerank nxPagerank
    rw [if_pos (by simp [h])]
  · intro G hE hN
    have hlen : G.nodes.length ≠ 0 := fun h => hN (List.eq_nil_of_length_eq_zero h)
    unfold computePagerank nxPagerank
    rw [if_neg hlen, prLoop_edgeless G hE hlen]
    show List.map (fun n => (n, prStep G (fun _ => 1 / (G.nodes.length : ℚ)) n)) G.nodes
      = List.map (fun n => (n, 1 / (G.nodes.length : ℚ))) G.nodes
    refine List.map_congr_left ?_
    intro n _
    rw [prStep_edgeless G hE hlen n]

theorem C8_metrics_error_policy_witness :
    computeHits ⟨["a", "b"], []⟩ = ([], []) ∧
      computePagerank ⟨[], []⟩ = [] ∧
      computePagerank ⟨["a", "b"], []⟩ = [("a", 1 / 2), ("b", 1 / 2)] := by
  refine ⟨C8_metrics_error_policy.2.2.1 ⟨["a", "b"], []⟩ () rfl, ?_, ?_⟩
  · exact C8_metrics_error_policy.2.2.2.1 ⟨[], []⟩ rfl
  · have h := C8_metrics_error_policy.2.2.2.2 ⟨["a", "b"], []⟩ rfl (by simp)
    rw [h]
    norm_num

theorem breakFirst_some (c : Char) (l before after : Chars)
    (h : breakFirst c l = some (before, after)) : l = before ++ c :: after ∧ c ∉ before := by
  induction l generalizing before with
  | nil => exact Option.noConfusion h
  | cons d rest ih =>
    unfold breakFirst at h
    split at h
    · rename_i hd
      subst hd
      cases h
      exact ⟨rfl, by simp⟩
    · rename_i hd
      cases hbf : breakFirst c rest with
      | none => rw [hbf] at h; exact Option.noConfusion h
      | some pr =>
        obtain ⟨l1, r1⟩ := pr
        rw [hbf] at h
        cases h
        obtain ⟨he, hm⟩ := ih l1 hbf
        constructor
        · rw [he]
          rfl
        · intro hmem
          rcases List.mem_cons.1 hmem with hmem | hmem
          · exact hd hmem.symm
          · exact hm hmem

theorem breakFirst_none (c : Char) (l : Chars) (h : breakFirst c l = none) : c ∉ l := by
  induction l with
  | nil => simp
  | cons d rest ih =>
    unfold breakFirst at h
    split at h
    · exact Option.noConfusion h
    · rename_i hd
      cases hbf : breakFirst c rest with
      | none =>
        intro hmem
        rcases List.mem_cons.1 hmem with hmem | hmem
        · exact hd hmem.symm
        · exact ih hbf hmem
      | some pr =>
        obtain ⟨l1, r1⟩ := pr
        rw [hbf] at h
        exact Option.noConfusion h

theorem restOf_eq_or (url0 : Chars) :
    restOf url0 = removeUnsafeBytes url0 ∨
      ∃ before, removeUnsafeBytes url0 = before ++ ':' :: restOf url0 := by
  unfold restOf splitScheme
  split
  · rename_i before after heq
    split
    · exact Or.inl rfl
    · rename_i c0 btl
      split
      · obtain ⟨he, _⟩ := breakFirst_some ':' _ _ _ heq
        exact Or.inr ⟨c0 :: btl, he⟩
      · exact Or.inl rfl
  · exact Or.inl rfl

theorem restOf_subset (url0 : Chars) : ∀ c ∈ restOf url0, c ∈ url0 := by
  intro c hc
  rcases restOf_eq_or url0 with he | ⟨before, he⟩
  · exact List.mem_of_mem_filter (he ▸ hc)
  · have h2 : c ∈ removeUnsafeBytes url0 := by
      rw [he]
      simp only [List.mem_append, List.mem_cons]
      exact Or.inr (Or.inr hc)
    exact List.mem_of_mem_filter h2

theorem netlocOf_subset (url0 : Chars) : ∀ c ∈ netlocOf url0, c ∈ url0 := by
  intro c hc
  unfold netlocOf at hc
  split at hc
  · exact restOf_subset url0 c
      ((List.drop_subset 2 (restOf url0)) ((List.takeWhile_subset _) hc))
  · exact absurd hc (List.not_mem_nil c)

/-- The port text the hostname/port extraction finds in the given URL
is empty or a decimal number at most 65535 (decidable test used in the
amended claim C3). -/
def portOkB (url : String) : Bool :=
  match (hostinfo (netlocOf url.toList)).2 with
  | none => true
  | some s => !s.isEmpty && s.all Char.isDigit && decide (digitsToNat s ≤ 65535)

/-- Claim C3 (counterexamples to the claim as stated): parse raises a
ValueError for a netloc with an unmatched square bracket and for an
out-of-range port. -/
theorem C3_counterexample :
    URLParser.parse ⟨[]⟩ "http://[x" = .error "Invalid IPv6 URL" ∧
      URLParser.parse ⟨[]⟩ "http://h:70000/" = .error "Port out of range 0-65535" :=
  ⟨rfl, rfl⟩

/-- Claim C3 (amended): parse returns a ParsedURL without raising for
every input string with no square bracket whose port text, if present,
is a decimal number at most 65535 (stated for ASCII inputs, where the
model is exact); unparseable components default to empty: the empty
string parses to the all-empty ParsedURL, a URL with no scheme yields
an empty scheme, a URL with no path yields an empty path. -/
theorem C3_parse_totality :
    (∀ (P : URLParser) (url : String), (∀ c ∈ url.toList, c.toNat < 128) →
        '[' ∉ url.toList → ']' ∉ url.toList → portOkB url = true →
        (P.parse url).isOk = true) ∧
      URLParser.parse ⟨[]⟩ "" = .ok ⟨"", "", "", none, "", "", "", [], "", ""⟩ ∧
      (URLParser.parse ⟨[]⟩ "example.com/x").map (fun p => p.scheme) = .ok "" ∧
      (URLParser.parse ⟨[]⟩ "http://h?a=1").map (fun p => p.path) = .ok "" := by
  refine ⟨?_, rfl, rfl, rfl⟩
  intro P url _ hlb hrb hport
  have hbra : ¬(('[' ∈ netlocOf url.toList ∧ ']' ∉ netlocOf url.toList) ∨
      (']' ∈ netlocOf url.toList ∧ '[' ∉ netlocOf url.toList)) := by
    rintro (⟨h1, _⟩ | ⟨h1, _⟩)
    · exact hlb (netlocOf_subset url.toList '[' h1)
    · exact hrb (netlocOf_subset url.toList ']' h1)
  have hsplit : urlsplitCore url.toList = .ok
      ⟨schemeOf url.toList, netlocOf url.toList, (querySplit url.toList).1,
       (querySplit url.toList).2, (fragSplit url.toList).2⟩ := by
    unfold urlsplitCore
    rw [if_neg hbra]
  have hpr : urlparseCore url.toList = .ok (if String.mk (schemeOf url.toList) ∈ usesParamsSchemes ∧
        ';' ∈ (querySplit url.toList).1
      then ⟨schemeOf url.toList, netlocOf url.toList, (splitparams (querySplit url.toList).1).1,
            (splitparams (querySplit url.toList).1).2, (querySplit url.toList).2,
            (fragSplit url.toList).2⟩
      else ⟨schemeOf url.toList, netlocOf url.toList, (querySplit url.toList).1, [],
            (querySplit url.toList).2, (fragSplit url.toList).2⟩) := by
    unfold urlparseCore
    rw [hsplit]
    exact okIf _ _ _
  generalize hpreq : (if String.mk (schemeOf url.toList) ∈ usesParamsSchemes ∧
        ';' ∈ (querySplit url.toList).1
      then (⟨schemeOf url.toList, netlocOf url.toList, (splitparams (querySplit url.toList).1).1,
            (splitparams (querySplit url.toList).1).2, (querySplit url.toList).2,
            (fragSplit url.toList).2⟩ : UrlparseResult)
      else ⟨schemeOf url.toList, netlocOf url.toList, (querySplit url.toList).1, [],
            (querySplit url.toList).2, (fragSplit url.toList).2⟩) = pr at hpr
  have hnleq : pr.netloc = netlocOf url.toList := by
    rw [← hpreq]
    split <;> rfl
  unfold URLParser.parse
  rw [hpr]
  show (match (hostinfo pr.netloc).2 with
    | none => Except.ok (mkParsed pr url none)
    | some s =>
      match parsePortStr s with
      | .error e => .error e
      | .ok n => .ok (mkParsed pr url (some n))).isOk = true
  cases hpp : (hostinfo pr.netloc).2 with
  | none => rfl
  | some s =>
    rw [hnleq] at hpp
    unfold portOkB at hport
    rw [hpp] at hport
    rw [Bool.and_eq_true, Bool.and_eq_true] at hport
    obtain ⟨⟨hne', hdig⟩, hle'⟩ := hport
    have hne : s ≠ [] := by
      intro hnil
      subst hnil
      simp at hne'
    have hle : digitsToNat s ≤ 65535 := of_decide_eq_true hle'
    have hps : parsePortStr s = .ok (digitsToNat s) := by
      unfold parsePortStr
      rw [if_pos ⟨hne, hdig⟩, if_pos hle]
    show (match parsePortStr s with
      | .error e => (Except.error e : Except String ParsedURL)
      | .ok n => .ok (mkParsed pr url (some n))).isOk = true
    rw [hps]
    rfl

theorem C3_parse_totality_witness :
    ((⟨[]⟩ : URLParser).parse "http://h:80/x?a=1#f").isOk = true :=
  C3_parse_totality.1 ⟨[]⟩ "http://h:80/x?a=1#f" (by decide) (by decide) (by decide) (by decide)

/-! ### List infrastructure for the canonicalization idempotence proof -/

theorem breakFirst_append_self (c : Char) (l1 l2 : Chars) (h : c ∉ l1) :
    breakFirst c (l1 ++ c :: l2) = some (l1, l2) := by
  induction l1 with
  | nil =>
    rw [List.nil_append]
    unfold breakFirst
    rw [if_pos rfl]
  | cons d rest ih =>
    have hd : d ≠ c := fun he => h (he ▸ List.mem_cons_self d rest)
    have hr : c ∉ rest := fun hm => h (List.mem_cons_of_mem d hm)
    show breakFirst c (d :: (rest ++ c :: l2)) = _
    unfold breakFirst
    rw [if_neg hd, ih hr]

theorem breakFirst_eq_none (c : Char) (l : Chars) (h : c ∉ l) : breakFirst c l = none := by
  induction l with
  | nil => rfl
  | cons d rest ih =>
    have hd : d ≠ c := fun he => h (he ▸ List.mem_cons_self d rest)
    have hr : c ∉ rest := fun hm => h (List.mem_cons_of_mem d hm)
    unfold breakFirst
    rw [if_neg hd, ih hr]

theorem breakFirst_append_left (c : Char) (l1 l2 b a : Chars)
    (h : breakFirst c l1 = some (b, a)) :
    breakFirst c (l1 ++ l2) = some (b, a ++ l2) := by
  obtain ⟨he, hnb⟩ := breakFirst_some c l1 b a h
  rw [he, List.append_assoc]
  show breakFirst c (b ++ c :: (a ++ l2)) = _
  exact breakFirst_append_self c b (a ++ l2) hnb

theorem breakFirst_append_right (c : Char) (l1 l2 : Chars) (h : c ∉ l1) :
    breakFirst c (l1 ++ l2) =
      match breakFirst c l2 with
      | some (b, a) => some (l1 ++ b, a)
      | none => none := by
  cases hbf : breakFirst c l2 with
  | none =>
    have : c ∉ l1 ++ l2 := by
      rw [List.mem_append]
      rintro (hm | hm)
      · exact h hm
      · exact breakFirst_none c l2 hbf hm
    exact breakFirst_eq_none c _ this
  | some pr =>
    obtain ⟨b, a⟩ := pr
    obtain ⟨he, hnb⟩ := breakFirst_some c l2 b a hbf
    rw [he, ← List.append_assoc]
    exact breakFirst_append_self c (l1 ++ b) a (by
      rw [List.mem_append]
      rintro (hm | hm)
      · exact h hm
      · exact hnb hm)

theorem mem_takeWhile_pred (p : Char → Bool) (l : Chars) :
    ∀ c ∈ l.takeWhile p, p c = true := by
  induction l with
  | nil => simp
  | cons d rest ih =>
    intro c hc
    rw [List.takeWhile_cons] at hc
    by_cases hd : p d
    · rw [if_pos hd] at hc
      rcases List.mem_cons.1 hc with rfl | hc
      · exact hd
      · exact ih c hc
    · rw [if_neg hd] at hc
      exact absurd hc (List.not_mem_nil c)

theorem takeWhile_append_all (p : Char → Bool) (l1 l2 : Chars) (h : ∀ c ∈ l1, p c = true) :
    (l1 ++ l2).takeWhile p = l1 ++ l2.takeWhile p ∧
      (l1 ++ l2).dropWhile p = l2.dropWhile p := by
  induction l1 with
  | nil => simp
  | cons d rest ih =>
    have hd : p d = true := h d (List.mem_cons_self d rest)
    obtain ⟨iht, ihd⟩ := ih (fun c hc => h c (List.mem_cons_of_mem d hc))
    constructor
    · show ((d :: (rest ++ l2)).takeWhile p) = _
      rw [List.takeWhile_cons, if_pos hd, iht]
      rfl
    · show ((d :: (rest ++ l2)).dropWhile p) = _
      rw [List.dropWhile_cons, if_pos hd, ihd]

theorem takeWhile_head_false (p : Char → Bool) (d : Char) (l : Chars) (h : p d = false) :
    (d :: l).takeWhile p = [] ∧ (d :: l).dropWhile p = d :: l := by
  constructor
  · rw [List.takeWhile_cons, h]
    rfl
  · rw [List.dropWhile_cons, h]
    rfl

theorem rstripChar_decomp (c : Char) (s : Chars) :
    ∃ k, s = rstripChar c s ++ List.replicate k c := by
  unfold rstripChar
  obtain ⟨k, hk⟩ : ∃ k, s.reverse.takeWhile (fun d => d = c) = List.replicate k c := by
    refine ⟨(s.reverse.takeWhile (fun d => d = c)).length, ?_⟩
    refine List.eq_replicate_of_mem ?_
    intro b hb
    exact of_decide_eq_true (mem_takeWhile_pred _ _ b hb)
  refine ⟨k, ?_⟩
  conv_lhs => rw [← List.reverse_reverse s,
    ← List.takeWhile_append_dropWhile (fun d => decide (d = c)) s.reverse]
  rw [List.reverse_append, hk, List.reverse_replicate]

theorem dropWhile_head_false (p : Char → Bool) (l : Chars) :
    l.dropWhile p = [] ∨ ∃ d t, l.dropWhile p = d :: t ∧ p d = false := by
  induction l with
  | nil => exact Or.inl rfl
  | cons a rest ih =>
    rw [List.dropWhile_cons]
    by_cases ha : p a
    · rw [if_pos ha]
      exact ih
    · rw [if_neg ha]
      exact Or.inr ⟨a, rest, rfl, by simpa using ha⟩

theorem rstripChar_getLast (c : Char) (s : Chars) :
    rstripChar c s = [] ∨ ∃ d t, rstripChar c s = t ++ [d] ∧ d ≠ c := by
  unfold rstripChar
  rcases dropWhile_head_false (fun d => d = c) s.reverse with h | ⟨d, t, h, hd⟩
  · rw [h]
    exact Or.inl rfl
  · rw [h]
    refine Or.inr ⟨d, t.reverse, by simp, ?_⟩
    simpa using hd

theorem removeUnsafeBytes_eq_self (l : Chars) (h : ∀ c ∈ l, isUnsafeChar c = false) :
    removeUnsafeBytes l = l := by
  unfold removeUnsafeBytes
  refine List.filter_eq_self.2 ?_
  intro a ha
  rw [h a ha]
  rfl

theorem unquote_no_percent (s : Chars) (h : '%' ∉ s) : unquote s = s := by
  unfold unquote
  rw [if_neg h]

/-! ### Character-code arithmetic -/

theorem uint32_le_iff (a b : UInt32) : a ≤ b ↔ a.toNat ≤ b.toNat := UInt32.le_def

theorem char_eq_iff (a b : Char) : a = b ↔ a.toNat = b.toNat := by
  constructor
  · intro h
    rw [h]
  · intro h
    apply Char.ext
    apply UInt32.ext
    exact h

theorem isUpper_iff (c : Char) : c.isUpper = true ↔ 65 ≤ c.toNat ∧ c.toNat ≤ 90 := by
  show (decide (65 ≤ c.val) && decide (c.val ≤ 90)) = true ↔ _
  rw [Bool.and_eq_true, decide_eq_true_eq, decide_eq_true_eq, uint32_le_iff, uint32_le_iff]
  exact Iff.rfl

theorem isLower_iff (c : Char) : c.isLower = true ↔ 97 ≤ c.toNat ∧ c.toNat ≤ 122 := by
  show (decide (97 ≤ c.val) && decide (c.val ≤ 122)) = true ↔ _
  rw [Bool.and_eq_true, decide_eq_true_eq, decide_eq_true_eq, uint32_le_iff, uint32_le_iff]
  exact Iff.rfl

theorem isDigit_iff (c : Char) : c.isDigit = true ↔ 48 ≤ c.toNat ∧ c.toNat ≤ 57 := by
  show (decide (48 ≤ c.val) && decide (c.val ≤ 57)) = true ↔ _
  rw [Bool.and_eq_true, decide_eq_true_eq, decide_eq_true_eq, uint32_le_iff, uint32_le_iff]
  exact Iff.rfl

theorem isAlpha_iff (c : Char) :
    c.isAlpha = true ↔ (65 ≤ c.toNat ∧ c.toNat ≤ 90) ∨ (97 ≤ c.toNat ∧ c.toNat ≤ 122) := by
  show (c.isUpper || c.isLower) = true ↔ _
  rw [Bool.or_eq_true, isUpper_iff, isLower_iff]

theorem isSchemeChar_iff (c : Char) :
    isSchemeChar c = true ↔ (65 ≤ c.toNat ∧ c.toNat ≤ 90) ∨ (97 ≤ c.toNat ∧ c.toNat ≤ 122) ∨
      (48 ≤ c.toNat ∧ c.toNat ≤ 57) ∨ c.toNat = 43 ∨ c.toNat = 45 ∨ c.toNat = 46 := by
  unfold isSchemeChar
  simp only [Bool.or_eq_true, beq_iff_eq, isAlpha_iff, isDigit_iff, char_eq_iff,
    show ('+' : Char).toNat = 43 from rfl, show ('-' : Char).toNat = 45 from rfl,
    show ('.' : Char).toNat = 46 from rfl]
  tauto

theorem isNetlocDelim_iff (c : Char) :
    isNetlocDelim c = true ↔ c.toNat = 47 ∨ c.toNat = 63 ∨ c.toNat = 35 := by
  unfold isNetlocDelim
  simp only [Bool.or_eq_true, beq_iff_eq, char_eq_iff,
    show ('/' : Char).toNat = 47 from rfl, show ('?' : Char).toNat = 63 from rfl,
    show ('#' : Char).toNat = 35 from rfl]
  tauto

theorem isUnsafeChar_iff (c : Char) :
    isUnsafeChar c = true ↔ c.toNat = 9 ∨ c.toNat = 13 ∨ c.toNat = 10 := by
  unfold isUnsafeChar
  simp only [Bool.or_eq_true, beq_iff_eq, char_eq_iff,
    show ('\t' : Char).toNat = 9 from rfl, show ('\r' : Char).toNat = 13 from rfl,
    show ('\n' : Char).toNat = 10 from rfl]
  tauto

theorem toNat_toLower (c : Char) :
    c.toLower.toNat = if 65 ≤ c.toNat ∧ c.toNat ≤ 90 then c.toNat + 32 else c.toNat := by
  simp only [Char.toLower]
  split
  · rename_i h
    exact toNat_ofNat_small _ (by omega)
  · rfl

theorem toLower_eq_iff (c x : Char) (hx1 : ¬(65 ≤ x.toNat ∧ x.toNat ≤ 90))
    (hx2 : ¬(97 ≤ x.toNat ∧ x.toNat ≤ 122)) : c.toLower = x ↔ c = x := by
  rw [char_eq_iff, char_eq_iff, toNat_toLower]
  split
  · rename_i h
    constructor
    · intro he
      omega
    · intro he
      omega
  · exact Iff.rfl

theorem not_mem_lowerStr (x : Char) (l : Chars) (hx1 : ¬(65 ≤ x.toNat ∧ x.toNat ≤ 90))
    (hx2 : ¬(97 ≤ x.toNat ∧ x.toNat ≤ 122)) (h : x ∉ l) : x ∉ lowerStr l := by
  intro hm
  rw [lowerStr, List.mem_map] at hm
  obtain ⟨d, hd, he⟩ := hm
  rw [toLower_eq_iff d x hx1 hx2] at he
  exact h (he ▸ hd)

theorem lowerStr_drop (l : Chars) (k : Nat) : lowerStr (l.drop k) = (lowerStr l).drop k := by
  unfold lowerStr
  rw [List.map_drop]

/-! ### Decimal representation lemmas -/

theorem natRepr_shape (n : Nat) :
    ∀ c ∈ natRepr n, ∃ m, m < 10 ∧ c = Char.ofNat (m + 48) := by
  induction n using Nat.strong_induction_on with
  | _ n ih =>
    intro c hc
    unfold natRepr at hc
    split at hc
    · rename_i h
      rw [List.mem_singleton] at hc
      exact ⟨n, h, hc⟩
    · rename_i h
      rw [List.mem_append] at hc
      rcases hc with hc | hc
      · exact ih (n / 10) (Nat.div_lt_self (by omega) (by omega)) c hc
      · rw [List.mem_singleton] at hc
        exact ⟨n % 10, Nat.mod_lt n (by omega), hc⟩

theorem digitChar_toNat (m : Nat) (hm : m < 10) : (Char.ofNat (m + 48)).toNat = m + 48 :=
  toNat_ofNat_small _ (by omega)

theorem natRepr_toNat_range (n : Nat) :
    ∀ c ∈ natRepr n, 48 ≤ c.toNat ∧ c.toNat ≤ 57 := by
  intro c hc
  obtain ⟨m, hm, rfl⟩ := natRepr_shape n c hc
  rw [digitChar_toNat m hm]
  omega

theorem natRepr_ne_nil (n : Nat) : natRepr n ≠ [] := by
  unfold natRepr
  split
  · simp
  · simp

theorem digitsToNat_append_one (a : Chars) (d : Char) :
    digitsToNat (a ++ [d]) = digitsToNat a * 10 + (d.toNat - 48) := by
  unfold digitsToNat
  rw [List.foldl_append]
  rfl

theorem digitsToNat_natRepr (n : Nat) : digitsToNat (natRepr n) = n := by
  induction n using Nat.strong_induction_on with
  | _ n ih =>
    unfold natRepr
    split
    · rename_i h
      show digitsToNat ([] ++ [Char.ofNat (n + 48)]) = n
      rw [digitsToNat_append_one, digitChar_toNat n h]
      simp only [digitsToNat, List.foldl_nil]
      omega
    · rename_i h
      rw [digitsToNat_append_one, ih (n / 10) (Nat.div_lt_self (by omega) (by omega)),
        digitChar_toNat (n % 10) (Nat.mod_lt n (by omega))]
      omega

theorem parsePortStr_natRepr (n : Nat) (h : n ≤ 65535) :
    parsePortStr (natRepr n) = .ok n := by
  unfold parsePortStr
  rw [if_pos, digitsToNat_natRepr, if_pos h]
  constructor
  · exact natRepr_ne_nil n
  · rw [List.all_eq_true]
    intro c hc
    rw [isDigit_iff]
    exact natRepr_toNat_range n c hc

theorem parsePortStr_ok_inv (s : Chars) (n : Nat) (h : parsePortStr s = .ok n) :
    n ≤ 65535 ∧ digitsToNat s = n := by
  unfold parsePortStr at h
  split at h
  · split at h
    · cases h
      rename_i h2
      exact ⟨h2, rfl⟩
    · exact Except.noConfusion h
  · exact Except.noConfusion h

/-! ### Lexicographic order lemmas for query-key sorting -/

theorem charsLt_nil_nil : charsLt [] [] = false := rfl

theorem charsLt_trans (a : Chars) : ∀ b c : Chars,
    charsLt a b = true → charsLt b c = true → charsLt a c = true := by
  induction a with
  | nil =>
    intro b c hab hbc
    cases b with
    | nil => exact absurd hab (by rw [charsLt_nil_nil]; simp)
    | cons bb bt =>
      cases c with
      | nil => exact absurd hbc (by unfold charsLt; simp)
      | cons cc ct => rfl
  | cons aa as' ih =>
    intro b c hab hbc
    cases b with
    | nil => exact absurd hab (by unfold charsLt; simp)
    | cons bb bt =>
      cases c with
      | nil => exact absurd hbc (by unfold charsLt; simp)
      | cons cc ct =>
        unfold charsLt at hab hbc ⊢
        by_cases h1 : aa < bb
        · rw [if_pos h1] at hab
          by_cases h2 : bb < cc
          · rw [if_pos (lt_trans h1 h2)]
          · rw [if_neg h2] at hbc
            by_cases h3 : cc < bb
            · rw [if_pos h3] at hbc
              exact absurd hbc (by simp)
            · have hbc' : bb = cc := le_antisymm (le_of_not_lt h3) (le_of_not_lt h2)
              rw [if_pos (hbc' ▸ h1)]
        · rw [if_neg h1] at hab
          by_cases h1' : bb < aa
          · rw [if_pos h1'] at hab
            exact absurd hab (by simp)
          · have hab' : aa = bb := le_antisymm (le_of_not_lt h1') (le_of_not_lt h1)
            rw [if_neg h1'] at hab
            by_cases h2 : bb < cc
            · rw [if_pos h2] at hbc
              rw [if_pos (hab' ▸ h2)]
            · rw [if_neg h2] at hbc
              by_cases h3 : cc < bb
              · rw [if_pos h3] at hbc
                exact absurd hbc (by simp)
              · have hbc' : bb = cc := le_antisymm (le_of_not_lt h3) (le_of_not_lt h2)
                rw [if_neg h3] at hbc
                rw [if_neg (hab' ▸ h2), if_neg (by rw [hab', hbc']; exact lt_irrefl cc)]
                exact ih bt ct hab hbc

theorem charsLt_not_both (a : Chars) : ∀ b : Chars,
    charsLt a b = true → charsLt b a = false := by
  induction a with
  | nil =>
    intro b hab
    cases b with
    | nil => rfl
    | cons bb bt => unfold charsLt; rfl
  | cons aa as' ih =>
    intro b hab
    cases b with
    | nil => exact absurd hab (by unfold charsLt; simp)
    | cons bb bt =>
      unfold charsLt at hab ⊢
      by_cases h1 : aa < bb
      · rw [if_neg (asymm h1), if_pos h1]
      · rw [if_neg h1] at hab
        by_cases h1' : bb < aa
        · rw [if_pos h1'] at hab
          exact absurd hab (by simp)
        · rw [if_neg h1'] at hab
          rw [if_neg h1', if_neg h1]
          exact ih bt hab

theorem charsLt_eq_of_not_both (a : Chars) : ∀ b : Chars,
    charsLt a b = false → charsLt b a = false → a = b := by
  induction a with
  | nil =>
    intro b hab _
    cases b with
    | nil => rfl
    | cons bb bt => exact absurd hab (by unfold charsLt; simp)
  | cons aa as' ih =>
    intro b hab hba
    cases b with
    | nil => exact absurd hba (by unfold charsLt; simp)
    | cons bb bt =>
      unfold charsLt at hab hba
      by_cases h1 : aa < bb
      · rw [if_pos h1] at hab
        exact absurd hab (by simp)
      · by_cases h1' : bb < aa
        · rw [if_pos h1'] at hba
          exact absurd hba (by simp)
        · have he : aa = bb := le_antisymm (le_of_not_lt h1') (le_of_not_lt h1)
          rw [if_neg h1, if_neg h1'] at hab
          rw [if_neg (he ▸ h1'), if_neg (he ▸ h1)] at hba
          rw [he, ih bt hab hba]

theorem string_toList_inj (a b : String) (h : a.toList = b.toList) : a = b := by
  cases a
  cases b
  exact congrArg String.mk (by simpa [String.toList] using h)

/-! ### Insertion sort (dict(sorted(...))) lemmas -/

theorem insertPair_perm (kv : String × List String) (l : List (String × List String)) :
    (insertPair kv l).Perm (kv :: l) := by
  induction l with
  | nil => exact List.Perm.refl _
  | cons kv' rest ih =>
    unfold insertPair
    split
    · exact List.Perm.refl _
    · exact (ih.cons kv').trans (List.Perm.swap kv kv' rest)

theorem sortPairs_perm (l : List (String × List String)) : (sortPairs l).Perm l := by
  induction l with
  | nil => exact List.Perm.refl _
  | cons kv rest ih =>
    show (insertPair kv (sortPairs rest)).Perm _
    exact (insertPair_perm kv (sortPairs rest)).trans (ih.cons kv)

theorem insertPair_pairwise (kv : String × List String) (l : List (String × List String))
    (h : l.Pairwise (fun x y => charsLt y.1.toList x.1.toList = false)) :
    (insertPair kv l).Pairwise (fun x y => charsLt y.1.toList x.1.toList = false) := by
  induction l with
  | nil => simp [insertPair]
  | cons kv' rest ih =>
    rw [List.pairwise_cons] at h
    obtain ⟨h1, h2⟩ := h
    unfold insertPair
    split
    · rename_i hc
      rw [List.pairwise_cons]
      refine ⟨?_, List.pairwise_cons.2 ⟨h1, h2⟩⟩
      intro y hy
      rcases List.mem_cons.1 hy with rfl | hy
      · exact charsLt_not_both _ _ hc
      · by_contra hcon
        rw [Bool.not_eq_false] at hcon
        have h3 := charsLt_trans _ _ _ hcon hc
        rw [h1 y hy] at h3
        exact Bool.noConfusion h3
    · rename_i hc
      rw [List.pairwise_cons]
      refine ⟨?_, ih h2⟩
      intro y hy
      rcases List.mem_cons.1 ((insertPair_perm kv rest).mem_iff.1 hy) with rfl | hy
      · rw [Bool.not_eq_true] at hc
        exact hc
      · exact h1 y hy

theorem sortPairs_pairwise (l : List (String × List String)) :
    (sortPairs l).Pairwise (fun x y => charsLt y.1.toList x.1.toList = false) := by
  induction l with
  | nil => simp [sortPairs]
  | cons kv rest ih =>
    show (insertPair kv (sortPairs rest)).Pairwise _
    exact insertPair_pairwise kv (sortPairs rest) ih

theorem sortPairs_eq_self_of_strict (l : List (String × List String))
    (h : l.Pairwise (fun x y => charsLt x.1.toList y.1.toList = true)) :
    sortPairs l = l := by
  induction l with
  | nil => rfl
  | cons kv rest ih =>
    rw [List.pairwise_cons] at h
    obtain ⟨h1, h2⟩ := h
    show insertPair kv (sortPairs rest) = kv :: rest
    rw [ih h2]
    cases rest with
    | nil => rfl
    | cons kv' t =>
      unfold insertPair
      rw [if_pos (h1 kv' (List.mem_cons_self kv' t))]

theorem pairwise_strict_of_nodup (l : List (String × List String))
    (hp : l.Pairwise (fun x y => charsLt y.1.toList x.1.toList = false))
    (hn : (l.map (fun g => g.1)).Nodup) :
    l.Pairwise (fun x y => charsLt x.1.toList y.1.toList = true) := by
  rw [List.Nodup, List.pairwise_map] at hn
  have hcomb := hp.and hn
  refine hcomb.imp ?_
  rintro a b ⟨hle, hne⟩
  by_contra hcon
  rw [Bool.not_eq_true] at hcon
  exact hne (string_toList_inj _ _ (charsLt_eq_of_not_both _ _ hcon hle))

/-! ### Percent-encoding roundtrip lemmas -/

theorem alwaysSafe_iff (c : Char) :
    alwaysSafe c = true ↔ (65 ≤ c.toNat ∧ c.toNat ≤ 90) ∨ (97 ≤ c.toNat ∧ c.toNat ≤ 122) ∨
      (48 ≤ c.toNat ∧ c.toNat ≤ 57) ∨ c.toNat = 95 ∨ c.toNat = 46 ∨ c.toNat = 45 ∨
      c.toNat = 126 := by
  unfold alwaysSafe
  simp only [Bool.or_eq_true, beq_iff_eq, isAlpha_iff, isDigit_iff, char_eq_iff,
    show ('_' : Char).toNat = 95 from rfl, show ('.' : Char).toNat = 46 from rfl,
    show ('-' : Char).toNat = 45 from rfl, show ('~' : Char).toNat = 126 from rfl]
  tauto

theorem hexDigit_toNat (m : Nat) (hm : m < 16) :
    (hexDigit m).toNat = if m < 10 then m + 48 else m + 55 := by
  unfold hexDigit
  split
  · exact toNat_ofNat_small _ (by omega)
  · exact toNat_ofNat_small _ (by omega)

theorem hexVal_hexDigit (m : Nat) (hm : m < 16) : hexVal (hexDigit m) = some m := by
  interval_cases m <;> decide

theorem utf8Encode_ascii (c : Char) (h : c.toNat < 128) : utf8Encode c = [c.toNat] := by
  unfold utf8Encode
  rw [if_pos (by omega)]

theorem pd_cons_ne (c : Char) (rest : Chars) (h : c ≠ '%') :
    percentDecodeBytes (c :: rest) = c.toNat % 256 :: percentDecodeBytes rest := by
  match rest with
  | [] => simp only [percentDecodeBytes, if_neg h]
  | [c1] => simp only [percentDecodeBytes, if_neg h]
  | c1 :: c2 :: r => simp only [percentDecodeBytes, if_neg h]

theorem pd_percent_valid (c1 c2 : Char) (h1 h2 : Nat) (r : Chars)
    (hc1 : hexVal c1 = some h1) (hc2 : hexVal c2 = some h2) :
    percentDecodeBytes ('%' :: c1 :: c2 :: r) = (h1 * 16 + h2) :: percentDecodeBytes r := by
  simp only [percentDecodeBytes, if_pos rfl, hc1, hc2]
  rw [if_pos trivial]

theorem utf8Step_ascii (b : Nat) (rest : List Nat) (h : b < 128) :
    utf8Step b rest = (Char.ofNat b, rest) := by
  unfold utf8Step
  rw [if_pos h]

theorem utf8DecodeReplace_cons (b : Nat) (rest : List Nat) :
    utf8DecodeReplace (b :: rest)
      = (utf8Step b rest).1 :: utf8DecodeReplace (utf8Step b rest).2 := by
  rw [utf8DecodeReplace]

theorem utf8DecodeReplace_ascii (bs : List Nat) (h : ∀ b ∈ bs, b < 128) :
    utf8DecodeReplace bs = bs.map Char.ofNat := by
  induction bs with
  | nil =>
    rw [utf8DecodeReplace]
    rfl
  | cons b rest ih =>
    rw [utf8DecodeReplace_cons, utf8Step_ascii b rest (h b (List.mem_cons_self b rest))]
    rw [ih (fun x hx => h x (List.mem_cons_of_mem b hx))]
    rfl

theorem quotePlusChar_token (c : Char) (hA : c.toNat < 128) (rest : Chars) :
    percentDecodeBytes ((quotePlusChar c).map (fun d => if d = '+' then ' ' else d) ++ rest)
      = c.toNat :: percentDecodeBytes rest := by
  unfold quotePlusChar
  by_cases hsp : c = ' '
  · rw [if_pos hsp]
    show percentDecodeBytes (' ' :: rest) = _
    rw [pd_cons_ne ' ' rest (by decide), hsp]
    rfl
  · rw [if_neg hsp]
    by_cases hsafe : alwaysSafe c
    · rw [if_pos hsafe]
      have hplus : c ≠ '+' := by
        intro he
        rw [alwaysSafe_iff] at hsafe
        rw [he] at hsafe
        revert hsafe
        decide
      show percentDecodeBytes ((if c = '+' then ' ' else c) :: rest) = _
      rw [if_neg hplus, pd_cons_ne c rest (by
        intro he
        rw [alwaysSafe_iff] at hsafe
        rw [he] at hsafe
        revert hsafe
        decide), Nat.mod_eq_of_lt (by omega)]
    · rw [if_neg hsafe, utf8Encode_ascii c hA]
      have hq : c.toNat / 16 < 16 := by omega
      have hr : c.toNat % 16 < 16 := Nat.mod_lt _ (by omega)
      have hd1 : hexDigit (c.toNat / 16) ≠ '+' := by
        intro he
        have := hexDigit_toNat (c.toNat / 16) hq
        rw [he] at this
        revert this
        split <;> simp
      have hd2 : hexDigit (c.toNat % 16) ≠ '+' := by
        intro he
        have := hexDigit_toNat (c.toNat % 16) hr
        rw [he] at this
        revert this
        split <;> simp
      show percentDecodeBytes
          (((['%', hexDigit (c.toNat / 16), hexDigit (c.toNat % 16)] ++ []).map
            (fun d => if d = '+' then ' ' else d)) ++ rest) = _
      simp only [List.append_nil, List.map_cons, List.map_nil]
      rw [if_neg (by decide), if_neg hd1, if_neg hd2]
      show percentDecodeBytes ('%' :: hexDigit (c.toNat / 16) :: hexDigit (c.toNat % 16) :: rest)
        = _
      rw [pd_percent_valid _ _ _ _ rest (hexVal_hexDigit _ hq) (hexVal_hexDigit _ hr)]
      have : c.toNat / 16 * 16 + c.toNat % 16 = c.toNat := by omega
      rw [this]

theorem decode_quotePlus (s : Chars) (h : ∀ c ∈ s, c.toNat < 128) :
    percentDecodeBytes ((quotePlus s).map (fun d => if d = '+' then ' ' else d))
      = s.map Char.toNat := by
  induction s with
  | nil => rfl
  | cons c rest ih =>
    show percentDecodeBytes (((quotePlusChar c ++ quotePlus rest).map
      (fun d => if d = '+' then ' ' else d))) = _
    rw [List.map_append,
      quotePlusChar_token c (h c (List.mem_cons_self c rest)) _,
      ih (fun x hx => h x (List.mem_cons_of_mem c hx))]
    rfl

theorem char_toNat_lt (c : Char) : c.toNat < 1114112 := by
  rcases c.valid with h | ⟨_, h⟩
  · exact Nat.lt_trans h (by norm_num)
  · exact h

theorem utf8Encode_lt256 (c : Char) : ∀ b ∈ utf8Encode c, b < 256 := by
  intro b hb
  have hcv := char_toNat_lt c
  unfold utf8Encode at hb
  simp only at hb
  split at hb
  · rw [List.mem_singleton] at hb
    omega
  · split at hb
    · rcases List.mem_cons.1 hb with rfl | hb
      · omega
      · rw [List.mem_singleton] at hb
        have := Nat.mod_lt (c.toNat) (show 0 < 64 by norm_num)
        omega
    · split at hb
      · rcases List.mem_cons.1 hb with rfl | hb
        · omega
        · rcases List.mem_cons.1 hb with rfl | hb
          · have := Nat.mod_lt (c.toNat / 64) (show 0 < 64 by norm_num)
            omega
          · rw [List.mem_singleton] at hb
            have := Nat.mod_lt (c.toNat) (show 0 < 64 by norm_num)
            omega
      · rcases List.mem_cons.1 hb with rfl | hb
        · omega
        · rcases List.mem_cons.1 hb with rfl | hb
          · have := Nat.mod_lt (c.toNat / 4096) (show 0 < 64 by norm_num)
            omega
          · rcases List.mem_cons.1 hb with rfl | hb
            · have := Nat.mod_lt (c.toNat / 64) (show 0 < 64 by norm_num)
              omega
            · rw [List.mem_singleton] at hb
              have := Nat.mod_lt (c.toNat) (show 0 < 64 by norm_num)
              omega

theorem quotePlus_char_class (s : Chars) :
    ∀ x ∈ quotePlus s, (48 ≤ x.toNat ∧ x.toNat ≤ 57) ∨ (65 ≤ x.toNat ∧ x.toNat ≤ 90) ∨
      (97 ≤ x.toNat ∧ x.toNat ≤ 122) ∨
      x.toNat = 95 ∨ x.toNat = 46 ∨ x.toNat = 45 ∨ x.toNat = 126 ∨
      x.toNat = 43 ∨ x.toNat = 37 := by
  intro x hx
  rw [quotePlus, List.mem_flatMap] at hx
  obtain ⟨c, _, hx⟩ := hx
  unfold quotePlusChar at hx
  split at hx
  · rw [List.mem_singleton] at hx
    subst hx
    right; right; right; right; right; right; right
    exact Or.inl rfl
  · split at hx
    · rename_i hsafe
      rw [List.mem_singleton] at hx
      subst hx
      rw [alwaysSafe_iff] at hsafe
      tauto
    · rw [List.mem_flatMap] at hx
      obtain ⟨b, hbmem, hx⟩ := hx
      have hb256 : b < 256 := utf8Encode_lt256 c b hbmem
      rcases List.mem_cons.1 hx with rfl | hx
      · right; right; right; right; right; right; right
        exact Or.inr rfl
      · unfold toHex2 at hx
        rcases List.mem_cons.1 hx with rfl | hx
        · rw [hexDigit_toNat (b / 16) (by omega)]
          split <;> omega
        · rcases List.mem_cons.1 hx with rfl | hx
          · rw [hexDigit_toNat (b % 16) (Nat.mod_lt _ (by omega))]
            split <;> omega
          · exact absurd hx (List.not_mem_nil x)

theorem unquoteRunsAux_ascii (l : Chars) (h : ∀ c ∈ l, isAsciiChar c = true) :
    ∀ acc, unquoteRunsAux acc l = utf8DecodeReplace (percentDecodeBytes (acc.reverse ++ l)) := by
  induction l with
  | nil =>
    intro acc
    show utf8DecodeReplace (percentDecodeBytes acc.reverse) = _
    rw [List.append_nil]
  | cons c rest ih =>
    intro acc
    show (if isAsciiChar c then unquoteRunsAux (c :: acc) rest else _) = _
    rw [if_pos (h c (List.mem_cons_self c rest)),
      ih (fun x hx => h x (List.mem_cons_of_mem c hx)) (c :: acc)]
    simp only [List.reverse_cons, List.append_assoc, List.singleton_append]

theorem utf8Encode_ne_nil (c : Char) : utf8Encode c ≠ [] := by
  unfold utf8Encode
  simp only
  split
  · exact List.cons_ne_nil _ _
  · split
    · exact List.cons_ne_nil _ _
    · split
      · exact List.cons_ne_nil _ _
      · exact List.cons_ne_nil _ _

theorem quotePlus_map_no_percent (s : Chars) (hnp : '%' ∉ quotePlus s) :
    (quotePlus s).map (fun c => if c = '+' then ' ' else c) = s := by
  induction s with
  | nil => rfl
  | cons c rest ih =>
    have hsplit : quotePlus (c :: rest) = quotePlusChar c ++ quotePlus rest := rfl
    have h1 : '%' ∉ quotePlusChar c := by
      intro hm
      exact hnp (by rw [hsplit]; exact List.mem_append_left _ hm)
    have h2 : '%' ∉ quotePlus rest := by
      intro hm
      exact hnp (by rw [hsplit]; exact List.mem_append_right _ hm)
    rw [hsplit, List.map_append, ih h2]
    have hchar : (quotePlusChar c).map (fun d => if d = '+' then ' ' else d) = [c] := by
      unfold quotePlusChar
      by_cases hsp : c = ' '
      · rw [if_pos hsp, hsp]
        rfl
      · rw [if_neg hsp]
        by_cases hsafe : alwaysSafe c
        · rw [if_pos hsafe]
          have hplus : c ≠ '+' := by
            intro he
            rw [alwaysSafe_iff] at hsafe
            rw [he] at hsafe
            revert hsafe
            decide
          simp only [List.map_cons, List.map_nil, if_neg hplus]
        · exfalso
          apply h1
          unfold quotePlusChar
          rw [if_neg hsp, if_neg hsafe]
          rw [List.mem_flatMap]
          obtain ⟨b, rest', hb⟩ := List.exists_cons_of_ne_nil (utf8Encode_ne_nil c)
          exact ⟨b, by rw [hb]; exact List.mem_cons_self b rest', List.mem_cons_self _ _⟩
    rw [hchar]
    rfl

theorem unquotePlus_quotePlus (s : Chars) (h : ∀ c ∈ s, c.toNat < 128) :
    unquotePlus (quotePlus s) = s := by
  unfold unquotePlus unquote
  by_cases hp : '%' ∈ (quotePlus s).map (fun c => if c = '+' then ' ' else c)
  · rw [if_pos hp]
    have hall : ∀ x ∈ (quotePlus s).map (fun c => if c = '+' then ' ' else c),
        isAsciiChar x = true := by
      intro x hx
      rw [List.mem_map] at hx
      obtain ⟨y, hy, rfl⟩ := hx
      have hcls := quotePlus_char_class s y hy
      unfold isAsciiChar
      by_cases hy' : y = '+'
      · rw [if_pos hy']
        decide
      · rw [if_neg hy']
        simp only [decide_eq_true_eq]
        omega
    rw [unquoteRunsAux_ascii _ hall []]
    simp only [List.reverse_nil, List.nil_append]
    rw [decode_quotePlus s h]
    rw [utf8DecodeReplace_ascii _ (by
      intro b hb
      rw [List.mem_map] at hb
      obtain ⟨y, hy, rfl⟩ := hb
      exact h y hy)]
    rw [List.map_map]
    rw [List.map_congr_left (fun x _ => show (Char.ofNat ∘ Char.toNat) x = id x
      from Char.ofNat_toNat x)]
    exact List.map_id s
  · rw [if_neg hp]
    apply quotePlus_map_no_percent
    intro hm
    apply hp
    rw [List.mem_map]
    exact ⟨'%', hm, by decide⟩

/-! ### splitAll / intercalate lemmas -/

theorem splitAll_no_sep (sep : Char) (p : Chars) (hp : sep ∉ p) : splitAll sep p = [p] := by
  induction p with
  | nil => rfl
  | cons c rest ih =>
    have hc : c ≠ sep := fun he => hp (he ▸ List.mem_cons_self c rest)
    have hr : sep ∉ rest := fun hm => hp (List.mem_cons_of_mem c hm)
    unfold splitAll
    rw [if_neg hc, ih hr]

theorem splitAll_cons_sep (sep : Char) (l : Chars) :
    splitAll sep (sep :: l) = [] :: splitAll sep l := by
  simp only [splitAll]
  rw [if_pos trivial]

theorem splitAll_cons_ne (sep c : Char) (l : Chars) (hc : c ≠ sep) (h : Chars)
    (t : List Chars) (hsa : splitAll sep l = h :: t) :
    splitAll sep (c :: l) = (c :: h) :: t := by
  simp only [splitAll]
  rw [if_neg hc, hsa]

theorem splitAll_append_sep (sep : Char) (p : Chars) (hp : sep ∉ p) (rest : Chars) :
    splitAll sep (p ++ sep :: rest) = p :: splitAll sep rest := by
  induction p with
  | nil =>
    rw [List.nil_append]
    exact splitAll_cons_sep sep rest
  | cons c p' ih =>
    have hc : c ≠ sep := fun he => hp (he ▸ List.mem_cons_self c p')
    have hp' : sep ∉ p' := fun hm => hp (List.mem_cons_of_mem c hm)
    show splitAll sep (c :: (p' ++ sep :: rest)) = _
    exact splitAll_cons_ne sep c _ hc p' (splitAll sep rest) (ih hp')

theorem intercalate_sep_cons₂ (sep : Char) (a b : Chars) (l : List Chars) :
    List.intercalate [sep] (a :: b :: l) = a ++ sep :: List.intercalate [sep] (b :: l) := by
  simp [List.intercalate, List.intersperse_cons_cons]

theorem splitAll_intercalate (sep : Char) (ps : List Chars) (hps : ps ≠ [])
    (h : ∀ p ∈ ps, sep ∉ p) :
    splitAll sep (List.intercalate [sep] ps) = ps := by
  induction ps with
  | nil => exact absurd rfl hps
  | cons p ps' ih =>
    cases ps' with
    | nil =>
      rw [show List.intercalate [sep] [p] = p from by simp [List.intercalate]]
      exact splitAll_no_sep sep p (h p (List.mem_cons_self p []))
    | cons q qs =>
      rw [intercalate_sep_cons₂]
      rw [splitAll_append_sep sep p (h p (List.mem_cons_self p _)) _]
      rw [ih (List.cons_ne_nil q qs) (fun x hx => h x (List.mem_cons_of_mem p hx))]

theorem mem_of_mem_splitAll (sep : Char) (l p : Chars) (hp : p ∈ splitAll sep l) :
    ∀ c ∈ p, c ∈ l := by
  induction l generalizing p with
  | nil =>
    intro c hc
    rw [show splitAll sep [] = [[]] from rfl, List.mem_singleton] at hp
    subst hp
    exact absurd hc (List.not_mem_nil c)
  | cons d rest ih =>
    intro c hc
    by_cases hd : d = sep
    · subst hd
      rw [splitAll_cons_sep] at hp
      rcases List.mem_cons.1 hp with rfl | hp
      · exact absurd hc (List.not_mem_nil c)
      · exact List.mem_cons_of_mem d (ih p hp c hc)
    · obtain ⟨hh, tt, hsa⟩ : ∃ hh tt, splitAll sep rest = hh :: tt := by
        cases hx : splitAll sep rest with
        | nil => exact absurd hx (splitAll_ne_nil sep rest)
        | cons hh tt => exact ⟨hh, tt, rfl⟩
      rw [splitAll_cons_ne sep d rest hd hh tt hsa] at hp
      rcases List.mem_cons.1 hp with rfl | hp
      · rcases List.mem_cons.1 hc with rfl | hc
        · exact List.mem_cons_self c rest
        · exact List.mem_cons_of_mem d (ih hh (hsa ▸ List.mem_cons_self hh tt) c hc)
      · exact List.mem_cons_of_mem d
          (ih p (hsa ▸ List.mem_cons_of_mem hh hp) c hc)

/-! ### urlencode / parse_qsl roundtrip -/

theorem quotePlus_excl (s : Chars) (x : Char) (hx : x ∈ quotePlus s) :
    x ≠ '&' ∧ x ≠ '=' ∧ x ≠ '#' ∧ x ≠ '?' ∧ x ≠ '/' ∧ x ≠ ';' ∧ x ≠ ':' ∧
      x ≠ '@' ∧ x ≠ '[' ∧ x ≠ ']' := by
  have hcls := quotePlus_char_class s x hx
  refine ⟨?_, ?_, ?_, ?_, ?_, ?_, ?_, ?_, ?_, ?_⟩ <;>
    (intro he; rw [he] at hcls; revert hcls; decide)

theorem qsPiece_ne_nil (k v : Chars) : quotePlus k ++ '=' :: quotePlus v ≠ [] := by
  cases hq : quotePlus k with
  | nil => exact List.cons_ne_nil _ _
  | cons a t => exact List.cons_ne_nil _ _

theorem breakFirst_qsPiece (k v : Chars) :
    breakFirst '=' (quotePlus k ++ '=' :: quotePlus v) = some (quotePlus k, quotePlus v) :=
  breakFirst_append_self '=' (quotePlus k) (quotePlus v)
    (fun hm => (quotePlus_excl k '=' hm).2.1 rfl)

theorem parseQslBody_pieces (pairs : List (Chars × Chars))
    (h : ∀ kv ∈ pairs, (∀ c ∈ kv.1, c.toNat < 128) ∧ ∀ c ∈ kv.2, c.toNat < 128) :
    ((pairs.map (fun kv => quotePlus kv.1 ++ '=' :: quotePlus kv.2)).foldr
      (fun nv acc =>
        if nv = [] then acc
        else
          match breakFirst '=' nv with
          | some (n, v) => (unquotePlus n, unquotePlus v) :: acc
          | none => (unquotePlus nv, []) :: acc)
      []) = pairs := by
  induction pairs with
  | nil => rfl
  | cons kv rest ih =>
    obtain ⟨k, v⟩ := kv
    rw [List.map_cons, List.foldr_cons,
      ih (fun x hx => h x (List.mem_cons_of_mem _ hx))]
    rw [if_neg (qsPiece_ne_nil k v), breakFirst_qsPiece k v]
    have hk := (h (k, v) (List.mem_cons_self _ rest)).1
    have hv := (h (k, v) (List.mem_cons_self _ rest)).2
    show (unquotePlus (quotePlus k), unquotePlus (quotePlus v)) :: rest = (k, v) :: rest
    rw [unquotePlus_quotePlus k hk, unquotePlus_quotePlus v hv]

theorem urlencode_pieces (d : List (Chars × List Chars)) :
    (d.map (fun kv => kv.2.map (fun v => quotePlus kv.1 ++ '=' :: quotePlus v))).flatten
      = (d.flatMap (fun kv => kv.2.map (fun v => (kv.1, v)))).map
          (fun kv => quotePlus kv.1 ++ '=' :: quotePlus kv.2) := by
  induction d with
  | nil => rfl
  | cons kv rest ih =>
    simp only [List.map_cons, List.flatten_cons, List.flatMap_cons, List.map_append,
      List.map_map, ih]
    rfl

theorem parseQsl_urlencode (d : List (Chars × List Chars))
    (hk : ∀ kv ∈ d, ∀ c ∈ kv.1, c.toNat < 128)
    (hv : ∀ kv ∈ d, ∀ v ∈ kv.2, ∀ c ∈ v, c.toNat < 128) :
    parseQsl (urlencode d) = d.flatMap (fun kv => kv.2.map (fun v => (kv.1, v))) := by
  have hpairs : ∀ kv ∈ d.flatMap (fun kv => kv.2.map (fun v => (kv.1, v))),
      (∀ c ∈ kv.1, c.toNat < 128) ∧ ∀ c ∈ kv.2, c.toNat < 128 := by
    intro kv hkv
    rw [List.mem_flatMap] at hkv
    obtain ⟨e, he, hkv⟩ := hkv
    rw [List.mem_map] at hkv
    obtain ⟨v, hvmem, rfl⟩ := hkv
    exact ⟨hk e he, fun c hc => hv e he v hvmem c hc⟩
  by_cases hnil : d.flatMap (fun kv => kv.2.map (fun v => (kv.1, v))) = []
  · rw [hnil]
    have henc : urlencode d = [] := by
      unfold urlencode
      rw [urlencode_pieces, hnil]
      rfl
    rw [henc]
    rfl
  · unfold parseQsl urlencode
    rw [urlencode_pieces]
    rw [splitAll_intercalate '&' _
      (fun hmapnil => hnil (List.map_eq_nil_iff.1 hmapnil))
      (by
        intro p hp
        rw [List.mem_map] at hp
        obtain ⟨kv, hkv, rfl⟩ := hp
        intro hm
        rcases List.mem_append.1 hm with hm | hm
        · exact (quotePlus_excl _ _ hm).1 rfl
        · rcases List.mem_cons.1 hm with he | hm
          · exact absurd he (by decide)
          · exact (quotePlus_excl _ _ hm).1 rfl)]
    exact parseQslBody_pieces _ hpairs

/-! ### addPair grouping lemmas -/

theorem addPair_not_mem (k v : Chars) (acc : List (Chars × List Chars))
    (h : k ∉ acc.map Prod.fst) : addPair k v acc = acc ++ [(k, [v])] := by
  induction acc with
  | nil => rfl
  | cons e rest ih =>
    obtain ⟨k', vs'⟩ := e
    have hk' : k' ≠ k := by
      intro he
      exact h (by rw [List.map_cons]; exact he ▸ List.mem_cons_self _ _)
    show (if k' = k then (k', vs' ++ [v]) :: rest else (k', vs') :: addPair k v rest) = _
    rw [if_neg hk', ih (fun hm => h (by rw [List.map_cons]; exact List.mem_cons_of_mem _ hm))]
    rfl

theorem addPair_last (k v : Chars) (w : List Chars) (acc : List (Chars × List Chars))
    (h : k ∉ acc.map Prod.fst) :
    addPair k v (acc ++ [(k, w)]) = acc ++ [(k, w ++ [v])] := by
  induction acc with
  | nil =>
    show (if k = k then (k, w ++ [v]) :: [] else (k, w) :: addPair k v []) = _
    rw [if_pos rfl]
    rfl
  | cons e rest ih =>
    obtain ⟨k', vs'⟩ := e
    have hk' : k' ≠ k := by
      intro he
      exact h (by rw [List.map_cons]; exact he ▸ List.mem_cons_self _ _)
    show (if k' = k then (k', vs' ++ [v]) :: (rest ++ [(k, w)])
      else (k', vs') :: addPair k v (rest ++ [(k, w)])) = _
    rw [if_neg hk', ih (fun hm => h (by rw [List.map_cons]; exact List.mem_cons_of_mem _ hm))]
    rfl

theorem foldl_addPair_run (k : Chars) (vs : List Chars) (acc : List (Chars × List Chars))
    (h : k ∉ acc.map Prod.fst) :
    ∀ w, List.foldl (fun a kv => addPair kv.1 kv.2 a) (acc ++ [(k, w)])
        (vs.map (fun v => (k, v))) = acc ++ [(k, w ++ vs)] := by
  induction vs with
  | nil =>
    intro w
    rw [List.map_nil, List.foldl_nil, List.append_nil]
  | cons v vs' ih =>
    intro w
    rw [List.map_cons, List.foldl_cons]
    show List.foldl _ (addPair k v (acc ++ [(k, w)])) _ = _
    rw [addPair_last k v w acc h, ih (w ++ [v])]
    simp only [List.append_assoc, List.singleton_append]

theorem foldl_addPair_flat (d : List (Chars × List Chars)) :
    ∀ acc : List (Chars × List Chars), (acc.map Prod.fst ++ d.map Prod.fst).Nodup →
      (∀ kv ∈ d, kv.2 ≠ []) →
      List.foldl (fun a kv => addPair kv.1 kv.2 a) acc
        (d.flatMap (fun kv => kv.2.map (fun v => (kv.1, v)))) = acc ++ d := by
  induction d with
  | nil =>
    intro acc _ _
    rw [List.flatMap_nil, List.foldl_nil, List.append_nil]
  | cons kv rest ih =>
    intro acc hnodup hne
    obtain ⟨k, vs⟩ := kv
    rw [List.flatMap_cons, List.foldl_append]
    have hknotin : k ∉ acc.map Prod.fst := by
      rw [List.map_cons] at hnodup
      have hdisj := (List.nodup_append.1 hnodup).2.2
      intro hm
      exact hdisj hm (List.mem_cons_self _ _)
    obtain ⟨v, vs', rfl⟩ := List.exists_cons_of_ne_nil (hne (k, vs) (List.mem_cons_self _ rest))
    have hstep : List.foldl (fun a kv => addPair kv.1 kv.2 a) acc
        ((v :: vs').map (fun x => (k, x))) = acc ++ [(k, v :: vs')] := by
      rw [List.map_cons, List.foldl_cons]
      show List.foldl _ (addPair k v acc) _ = _
      rw [addPair_not_mem k v acc hknotin, foldl_addPair_run k vs' acc hknotin [v]]
      rfl
    rw [hstep]
    rw [ih (acc ++ [(k, v :: vs')])
      (by
        rw [List.map_cons] at hnodup
        simpa [List.append_assoc] using hnodup)
      (fun x hx => hne x (List.mem_cons_of_mem _ hx))]
    rw [List.append_assoc]
    rfl

theorem parseQs_urlencode (d : List (Chars × List Chars))
    (hnodup : (d.map Prod.fst).Nodup) (hne : ∀ kv ∈ d, kv.2 ≠ [])
    (hk : ∀ kv ∈ d, ∀ c ∈ kv.1, c.toNat < 128)
    (hv : ∀ kv ∈ d, ∀ v ∈ kv.2, ∀ c ∈ v, c.toNat < 128) :
    parseQs (urlencode d) = d := by
  unfold parseQs
  rw [parseQsl_urlencode d hk hv]
  have hres := foldl_addPair_flat d [] (by simpa using hnodup) hne
  simpa using hres

/-! ### parseQs invariants: distinct keys, nonempty value lists -/

theorem addPair_keys (k v : Chars) (acc : List (Chars × List Chars)) :
    (addPair k v acc).map Prod.fst
      = if k ∈ acc.map Prod.fst then acc.map Prod.fst else acc.map Prod.fst ++ [k] := by
  induction acc with
  | nil => rfl
  | cons e rest ih =>
    obtain ⟨k', vs'⟩ := e
    by_cases he : k' = k
    · subst he
      have hred : addPair k' v ((k', vs') :: rest) = (k', vs' ++ [v]) :: rest := by
        show (if k' = k' then (k', vs' ++ [v]) :: rest else (k', vs') :: addPair k' v rest) = _
        rw [if_pos rfl]
      rw [hred, List.map_cons, List.map_cons,
        if_pos (List.mem_cons_self k' (rest.map Prod.fst))]
    · have hred : addPair k v ((k', vs') :: rest) = (k', vs') :: addPair k v rest := by
        show (if k' = k then (k', vs' ++ [v]) :: rest else (k', vs') :: addPair k v rest) = _
        rw [if_neg he]
      rw [hred, List.map_cons, ih, List.map_cons]
      by_cases hm : k ∈ rest.map Prod.fst
      · rw [if_pos hm, if_pos (List.mem_cons_of_mem _ hm)]
      · rw [if_neg hm, if_neg (by
          intro hmm
          rcases List.mem_cons.1 hmm with he2 | hm2
          · exact he he2.symm
          · exact hm hm2)]
        rfl

theorem addPair_values (k v : Chars) (acc : List (Chars × List Chars))
    (h : ∀ kv ∈ acc, kv.2 ≠ []) : ∀ kv ∈ addPair k v acc, kv.2 ≠ [] := by
  induction acc with
  | nil =>
    intro kv hkv
    rw [show addPair k v [] = [(k, [v])] from rfl, List.mem_singleton] at hkv
    subst hkv
    exact List.cons_ne_nil _ _
  | cons e rest ih =>
    obtain ⟨k', vs'⟩ := e
    intro kv hkv
    by_cases he : k' = k
    · subst he
      have hred : addPair k' v ((k', vs') :: rest) = (k', vs' ++ [v]) :: rest := by
        show (if k' = k' then (k', vs' ++ [v]) :: rest else (k', vs') :: addPair k' v rest) = _
        rw [if_pos rfl]
      rw [hred] at hkv
      rcases List.mem_cons.1 hkv with rfl | hkv
      · show vs' ++ [v] ≠ []
        intro hnil
        exact List.cons_ne_nil v [] (List.append_eq_nil.1 hnil).2
      · exact h kv (List.mem_cons_of_mem _ hkv)
    · have hred : addPair k v ((k', vs') :: rest) = (k', vs') :: addPair k v rest := by
        show (if k' = k then (k', vs' ++ [v]) :: rest else (k', vs') :: addPair k v rest) = _
        rw [if_neg he]
      rw [hred] at hkv
      rcases List.mem_cons.1 hkv with rfl | hkv
      · exact h (k', vs') (List.mem_cons_self _ _)
      · exact ih (fun x hx => h x (List.mem_cons_of_mem _ hx)) kv hkv

theorem foldl_addPair_keys_nodup (l : List (Chars × Chars)) :
    ∀ acc : List (Chars × List Chars), (acc.map Prod.fst).Nodup →
      ((List.foldl (fun a kv => addPair kv.1 kv.2 a) acc l).map Prod.fst).Nodup := by
  induction l with
  | nil => intro acc h; exact h
  | cons kv rest ih =>
    intro acc h
    rw [List.foldl_cons]
    apply ih
    rw [addPair_keys]
    split
    · exact h
    · rename_i hnotin
      rw [List.nodup_append]
      exact ⟨h, List.nodup_singleton _, by
        intro a ha hb
        rw [List.mem_singleton] at hb
        subst hb
        exact hnotin ha⟩

theorem foldl_addPair_values_ne_nil (l : List (Chars × Chars)) :
    ∀ acc : List (Chars × List Chars), (∀ kv ∈ acc, kv.2 ≠ []) →
      ∀ kv ∈ List.foldl (fun a kv => addPair kv.1 kv.2 a) acc l, kv.2 ≠ [] := by
  induction l with
  | nil => intro acc h; exact h
  | cons kv rest ih =>
    intro acc h
    rw [List.foldl_cons]
    exact ih _ (addPair_values kv.1 kv.2 acc h)

theorem parseQs_keys_nodup (qs : Chars) : ((parseQs qs).map Prod.fst).Nodup :=
  foldl_addPair_keys_nodup (parseQsl qs) [] (by simp)

theorem parseQs_values_ne_nil (qs : Chars) : ∀ kv ∈ parseQs qs, kv.2 ≠ [] :=
  foldl_addPair_values_ne_nil (parseQsl qs) [] (by simp)

/-! ### Split characterizations of the embedded urlsplit components -/

/-- The one-shot www-prefix strip performed by normalize (used to state
the idempotence hypothesis of the amended C4). -/
def wwwStrip (h : Chars) : Chars :=
  if h.take 4 = ['w', 'w', 'w', '.'] then h.drop 4 else h

theorem string_mk_toList (s : String) : String.mk s.toList = s := by
  cases s
  rfl

theorem string_mk_inj (a b : Chars) (h : String.mk a = String.mk b) : a = b := by
  exact congrArg String.toList h

theorem afterNetloc_cases (url0 : Chars) :
    ((restOf url0).take 2 = ['/', '/'] ∧
      afterNetloc url0 = ((restOf url0).drop 2).dropWhile (fun c => !isNetlocDelim c)) ∨
    ((restOf url0).take 2 ≠ ['/', '/'] ∧ afterNetloc url0 = restOf url0) := by
  unfold afterNetloc
  by_cases h : (restOf url0).take 2 = ['/', '/']
  · exact Or.inl ⟨h, by rw [if_pos h]⟩
  · exact Or.inr ⟨h, by rw [if_neg h]⟩

theorem netlocOf_cases (url0 : Chars) :
    ((restOf url0).take 2 = ['/', '/'] ∧
      netlocOf url0 = ((restOf url0).drop 2).takeWhile (fun c => !isNetlocDelim c)) ∨
    ((restOf url0).take 2 ≠ ['/', '/'] ∧ netlocOf url0 = []) := by
  unfold netlocOf
  by_cases h : (restOf url0).take 2 = ['/', '/']
  · exact Or.inl ⟨h, by rw [if_pos h]⟩
  · exact Or.inr ⟨h, by rw [if_neg h]⟩

theorem afterNetloc_subset (url0 : Chars) : ∀ c ∈ afterNetloc url0, c ∈ restOf url0 := by
  intro c hc
  rcases afterNetloc_cases url0 with ⟨_, he⟩ | ⟨_, he⟩
  · rw [he] at hc
    exact List.drop_subset 2 (restOf url0) ((List.dropWhile_suffix _).subset hc)
  · rw [he] at hc
    exact hc

theorem afterNetloc_head_delim (url0 : Chars) (h : (restOf url0).take 2 = ['/', '/']) :
    afterNetloc url0 = [] ∨
      ∃ d t, afterNetloc url0 = d :: t ∧ isNetlocDelim d = true := by
  rcases afterNetloc_cases url0 with ⟨_, he⟩ | ⟨hne, _⟩
  · rw [he]
    rcases dropWhile_head_false (fun c => !isNetlocDelim c) ((restOf url0).drop 2) with
      hd | ⟨d, t, hd, hpd⟩
    · exact Or.inl hd
    · refine Or.inr ⟨d, t, hd, ?_⟩
      simpa using hpd
  · exact absurd h hne

theorem fragSplit_cases (url0 : Chars) :
    (breakFirst '#' (afterNetloc url0) = none ∧ fragSplit url0 = (afterNetloc url0, [])) ∨
    (∃ b a, breakFirst '#' (afterNetloc url0) = some (b, a) ∧ fragSplit url0 = (b, a)) := by
  unfold fragSplit
  cases hbf : breakFirst '#' (afterNetloc url0) with
  | none => exact Or.inl ⟨rfl, rfl⟩
  | some ba =>
    obtain ⟨b, a⟩ := ba
    exact Or.inr ⟨b, a, rfl, rfl⟩

theorem querySplit_cases (url0 : Chars) :
    (breakFirst '?' (fragSplit url0).1 = none ∧ querySplit url0 = ((fragSplit url0).1, [])) ∨
    (∃ b a, breakFirst '?' (fragSplit url0).1 = some (b, a) ∧ querySplit url0 = (b, a)) := by
  unfold querySplit
  cases hbf : breakFirst '?' (fragSplit url0).1 with
  | none => exact Or.inl ⟨rfl, rfl⟩
  | some ba =>
    obtain ⟨b, a⟩ := ba
    exact Or.inr ⟨b, a, rfl, rfl⟩

theorem fragSplit_fst_prefix (url0 : Chars) :
    (fragSplit url0).1 <+: afterNetloc url0 ∧ '#' ∉ (fragSplit url0).1 := by
  rcases fragSplit_cases url0 with ⟨hbf, he⟩ | ⟨b, a, hbf, he⟩
  · rw [he]
    exact ⟨List.prefix_refl _, breakFirst_none '#' _ hbf⟩
  · obtain ⟨hd, hnb⟩ := breakFirst_some '#' _ _ _ hbf
    rw [he]
    exact ⟨⟨'#' :: a, hd.symm⟩, hnb⟩

theorem querySplit_fst_prefix (url0 : Chars) :
    (querySplit url0).1 <+: (fragSplit url0).1 ∧ '?' ∉ (querySplit url0).1 := by
  rcases querySplit_cases url0 with ⟨hbf, he⟩ | ⟨b, a, hbf, he⟩
  · rw [he]
    exact ⟨List.prefix_refl _, breakFirst_none '?' _ hbf⟩
  · obtain ⟨hd, hnb⟩ := breakFirst_some '?' _ _ _ hbf
    rw [he]
    exact ⟨⟨'?' :: a, hd.symm⟩, hnb⟩

theorem querySplit_snd_subset (url0 : Chars) :
    ∀ c ∈ (querySplit url0).2, c ∈ (fragSplit url0).1 := by
  intro c hc
  rcases querySplit_cases url0 with ⟨_, he⟩ | ⟨b, a, hbf, he⟩
  · rw [he] at hc
    exact absurd hc (List.not_mem_nil c)
  · obtain ⟨hd, _⟩ := breakFirst_some '?' _ _ _ hbf
    rw [he] at hc
    rw [hd]
    simp only [List.mem_append, List.mem_cons]
    exact Or.inr (Or.inr hc)

theorem path_subset_url (url0 : Chars) : ∀ c ∈ (querySplit url0).1, c ∈ url0 := by
  intro c hc
  exact restOf_subset url0 c
    (afterNetloc_subset url0 c
      (( fragSplit_fst_prefix url0).1.subset (( querySplit_fst_prefix url0).1.subset hc)))

theorem query_subset_url (url0 : Chars) : ∀ c ∈ (querySplit url0).2, c ∈ url0 := by
  intro c hc
  exact restOf_subset url0 c
    (afterNetloc_subset url0 c
      (( fragSplit_fst_prefix url0).1.subset (querySplit_snd_subset url0 c hc)))

theorem prefix_head (p l : Chars) (hp : p <+: l) (d : Char) (t : Chars) (he : p = d :: t) :
    ∃ t', l = d :: t' := by
  obtain ⟨r, hr⟩ := hp
  subst he
  exact ⟨t ++ r, by rw [← hr]; rfl⟩

theorem prefix_take_two (p l : Chars) (hp : p <+: l) (hlen : 2 ≤ p.length) :
    p.take 2 = l.take 2 := by
  obtain ⟨r, hr⟩ := hp
  rw [← hr, List.take_append_eq_append_take]
  rw [show 2 - p.length = 0 from by omega, List.take_zero, List.append_nil]

theorem rstripChar_prefix (c : Char) (s : Chars) : rstripChar c s <+: s := by
  obtain ⟨k, hk⟩ := rstripChar_decomp c s
  exact ⟨List.replicate k c, hk.symm⟩

theorem breakLast_some (c : Char) (s b a : Chars) (h : breakLast c s = some (b, a)) :
    s = b ++ c :: a ∧ c ∉ a := by
  unfold breakLast at h
  cases hbf : breakFirst c s.reverse with
  | none =>
    rw [hbf] at h
    exact Option.noConfusion h
  | some ra =>
    obtain ⟨rafter, rbefore⟩ := ra
    rw [hbf] at h
    have h' : some (rbefore.reverse, rafter.reverse) = some (b, a) := h
    obtain ⟨he1, hnm⟩ := breakFirst_some c s.reverse rafter rbefore hbf
    injection h' with h''
    obtain ⟨hb, ha⟩ := Prod.mk.injEq _ _ _ _ ▸ h''
    have hb : rbefore.reverse = b := congrArg Prod.fst h''
    have ha : rafter.reverse = a := congrArg Prod.snd h''
    constructor
    · rw [← hb, ← ha]
      rw [← List.reverse_reverse s, he1]
      simp
    · rw [← ha]
      intro hm
      exact hnm (List.mem_reverse.1 hm)

theorem breakLast_none (c : Char) (s : Chars) (h : breakLast c s = none) : c ∉ s := by
  unfold breakLast at h
  cases hbf : breakFirst c s.reverse with
  | none =>
    intro hm
    exact breakFirst_none c s.reverse hbf (List.mem_reverse.2 hm)
  | some ra =>
    obtain ⟨rafter, rbefore⟩ := ra
    rw [hbf] at h
    exact Option.noConfusion h

theorem hostinfo_props (nl : Chars) (hnb : '[' ∉ nl) :
    ':' ∉ (hostinfo nl).1 ∧ '@' ∉ (hostinfo nl).1 ∧
      (∀ x ∈ (hostinfo nl).1, x ∈ nl) ∧
      (∀ ps, (hostinfo nl).2 = some ps → ∀ x ∈ ps, x ∈ nl) := by
  unfold hostinfo
  cases hbl : breakLast '@' nl with
  | none =>
    have hna : '@' ∉ nl := breakLast_none '@' nl hbl
    simp only
    rw [if_neg hnb]
    cases hbf : breakFirst ':' nl with
    | none =>
      exact ⟨breakFirst_none ':' nl hbf, hna, fun x hx => hx, fun ps hps => Option.noConfusion hps⟩
    | some hp =>
      obtain ⟨h, p⟩ := hp
      obtain ⟨hd, hnc⟩ := breakFirst_some ':' nl h p hbf
      refine ⟨hnc, ?_, ?_, ?_⟩
      · intro hm
        exact hna (by rw [hd]; exact List.mem_append_left _ hm)
      · intro x hx
        rw [hd]
        exact List.mem_append_left _ hx
      · intro ps hps
        have hps' : (if p = [] then (none : Option Chars) else some p) = some ps := hps
        by_cases hpe : p = []
        · rw [if_pos hpe] at hps'
          exact Option.noConfusion hps'
        · rw [if_neg hpe] at hps'
          injection hps' with hps'
          subst hps'
          intro x hx
          rw [hd]
          simp only [List.mem_append, List.mem_cons]
          exact Or.inr (Or.inr hx)
  | some ba =>
    obtain ⟨bf, hi⟩ := ba
    obtain ⟨hd0, hna⟩ := breakLast_some '@' nl bf hi hbl
    have hsub : ∀ x ∈ hi, x ∈ nl := by
      intro x hx
      rw [hd0]
      simp only [List.mem_append, List.mem_cons]
      exact Or.inr (Or.inr hx)
    have hnbhi : '[' ∉ hi := fun hm => hnb (hsub _ hm)
    simp only
    rw [if_neg hnbhi]
    cases hbf : breakFirst ':' hi with
    | none =>
      exact ⟨breakFirst_none ':' hi hbf, hna, hsub, fun ps hps => Option.noConfusion hps⟩
    | some hp =>
      obtain ⟨h, p⟩ := hp
      obtain ⟨hd, hnc⟩ := breakFirst_some ':' hi h p hbf
      refine ⟨hnc, ?_, ?_, ?_⟩
      · intro hm
        exact hna (by rw [hd]; exact List.mem_append_left _ hm)
      · intro x hx
        exact hsub x (by rw [hd]; exact List.mem_append_left _ hx)
      · intro ps hps
        have hps' : (if p = [] then (none : Option Chars) else some p) = some ps := hps
        by_cases hpe : p = []
        · rw [if_pos hpe] at hps'
          exact Option.noConfusion hps'
        · rw [if_neg hpe] at hps'
          injection hps' with hps'
          subst hps'
          intro x hx
          refine hsub x ?_
          rw [hd]
          simp only [List.mem_append, List.mem_cons]
          exact Or.inr (Or.inr hx)

/-! ### Scheme-split lemmas -/

theorem toLower_toNat_cases (c : Char) :
    c.toLower.toNat = c.toNat ∨
      (65 ≤ c.toNat ∧ c.toNat ≤ 90 ∧ c.toLower.toNat = c.toNat + 32) := by
  rw [toNat_toLower]
  by_cases h : 65 ≤ c.toNat ∧ c.toNat ≤ 90
  · rw [if_pos h]
    exact Or.inr ⟨h.1, h.2, rfl⟩
  · rw [if_neg h]
    exact Or.inl rfl

theorem lowerStr_ascii (l : Chars) (h : ∀ c ∈ l, c.toNat < 128) :
    ∀ c ∈ lowerStr l, c.toNat < 128 := by
  intro c hc
  rw [lowerStr, List.mem_map] at hc
  obtain ⟨d, hd, rfl⟩ := hc
  have hda := h d hd
  rcases toLower_toNat_cases d with he | ⟨h1, h2, he⟩ <;> omega

theorem lowerStr_not_unsafe (l : Chars) (h : ∀ c ∈ l, isUnsafeChar c = false) :
    ∀ c ∈ lowerStr l, isUnsafeChar c = false := by
  intro c hc
  rw [lowerStr, List.mem_map] at hc
  obtain ⟨d, hd, rfl⟩ := hc
  have hdu := h d hd
  by_contra hcon
  rw [Bool.not_eq_false, isUnsafeChar_iff] at hcon
  have hdu2 : ¬isUnsafeChar d = true := by
    rw [hdu]
    exact Bool.false_ne_true
  rw [isUnsafeChar_iff] at hdu2
  rcases toLower_toNat_cases d with he | ⟨h1, h2, he⟩ <;> omega

theorem splitScheme_cases (l : Chars) :
    splitScheme l = ([], l) ∨
    (∃ raw rest, breakFirst ':' l = some (raw, rest) ∧ l = raw ++ ':' :: rest ∧ raw ≠ [] ∧
      (∃ c0 tl, raw = c0 :: tl ∧ c0.isAlpha = true) ∧ raw.all isSchemeChar = true ∧
      ':' ∉ raw ∧ splitScheme l = (lowerStr raw, rest)) := by
  unfold splitScheme
  cases hbf : breakFirst ':' l with
  | none => exact Or.inl rfl
  | some ba =>
    obtain ⟨before, after⟩ := ba
    obtain ⟨hd, hnc⟩ := breakFirst_some ':' l before after hbf
    cases before with
    | nil => exact Or.inl rfl
    | cons c0 btl =>
      by_cases hv : c0.isAlpha = true ∧ (c0 :: btl).all isSchemeChar = true
      · refine Or.inr ⟨c0 :: btl, after, rfl, hd, List.cons_ne_nil _ _,
          ⟨c0, btl, rfl, hv.1⟩, hv.2, hnc, ?_⟩
        show (if c0.isAlpha ∧ (c0 :: btl).all isSchemeChar
          then (lowerStr (c0 :: btl), after) else ([], l)) = (lowerStr (c0 :: btl), after)
        rw [if_pos hv]
      · refine Or.inl ?_
        show (if c0.isAlpha ∧ (c0 :: btl).all isSchemeChar
          then (lowerStr (c0 :: btl), after) else ([], l)) = ([], l)
        rw [if_neg hv]

theorem isSchemeChar_toLower (c : Char) (h : isSchemeChar c = true) :
    isSchemeChar c.toLower = true := by
  rw [isSchemeChar_iff] at h ⊢
  rcases toLower_toNat_cases c with he | ⟨h1, h2, he⟩ <;> omega

theorem isAlpha_toLower (c : Char) (h : c.isAlpha = true) : c.toLower.isAlpha = true := by
  rw [isAlpha_iff] at h ⊢
  rcases toLower_toNat_cases c with he | ⟨h1, h2, he⟩ <;> omega

theorem lowerStr_all_scheme (l : Chars) (h : l.all isSchemeChar = true) :
    (lowerStr l).all isSchemeChar = true := by
  rw [List.all_eq_true] at h ⊢
  intro c hc
  rw [lowerStr, List.mem_map] at hc
  obtain ⟨d, hd, rfl⟩ := hc
  exact isSchemeChar_toLower d (h d hd)

theorem splitScheme_forward (sch rest : Chars) (hne : sch ≠ [])
    (hhead : ∃ c0 tl, sch = c0 :: tl ∧ c0.isAlpha = true)
    (hall : sch.all isSchemeChar = true) :
    splitScheme (sch ++ ':' :: rest) = (lowerStr sch, rest) := by
  have hnc : ':' ∉ sch := by
    intro hm
    have := List.all_eq_true.1 hall ':' hm
    exact absurd this (by decide)
  unfold splitScheme
  rw [breakFirst_append_self ':' sch rest hnc]
  obtain ⟨c0, tl, he, ha⟩ := hhead
  subst he
  show (if c0.isAlpha ∧ (c0 :: tl).all isSchemeChar
    then (lowerStr (c0 :: tl), rest) else ([], (c0 :: tl) ++ ':' :: rest))
    = (lowerStr (c0 :: tl), rest)
  rw [if_pos ⟨ha, hall⟩]

/-! ### Reparsing a serialized URL: component recovery -/

theorem serialized_splits (sch nl2 pa3 Q qtail : Chars)
    (hhead : ∃ c0 tl, sch = c0 :: tl ∧ c0.isAlpha = true)
    (hall : sch.all isSchemeChar = true) (hlow : lowerStr sch = sch)
    (hnl : ∀ c ∈ nl2, isNetlocDelim c = false)
    (hpa : pa3 = [] ∨ ∃ t, pa3 = '/' :: t)
    (hpa_nohash : '#' ∉ pa3) (hpa_noq : '?' ∉ pa3)
    (hQ_nohash : '#' ∉ Q)
    (hqt : (qtail = [] ∧ Q = []) ∨ qtail = '?' :: Q)
    ( hunsafe : ∀ c ∈ sch ++ ':' :: '/' :: '/' :: ((nl2 ++ pa3) ++ qtail),
      isUnsafeChar c = false) :
    schemeOf (sch ++ ':' :: '/' :: '/' :: ((nl2 ++ pa3) ++ qtail)) = sch ∧
    netlocOf (sch ++ ':' :: '/' :: '/' :: ((nl2 ++ pa3) ++ qtail)) = nl2 ∧
    (querySplit (sch ++ ':' :: '/' :: '/' :: ((nl2 ++ pa3) ++ qtail))).1 = pa3 ∧
    (querySplit (sch ++ ':' :: '/' :: '/' :: ((nl2 ++ pa3) ++ qtail))).2 = Q ∧
    (fragSplit (sch ++ ':' :: '/' :: '/' :: ((nl2 ++ pa3) ++ qtail))).2 = [] := by
  have hne : sch ≠ [] := by
    obtain ⟨c0, tl, he, _⟩ := hhead
    rw [he]
    exact List.cons_ne_nil _ _
  have hclean : removeUnsafeBytes (sch ++ ':' :: '/' :: '/' :: ((nl2 ++ pa3) ++ qtail))
      = sch ++ ':' :: '/' :: '/' :: ((nl2 ++ pa3) ++ qtail) :=
    removeUnsafeBytes_eq_self _ hunsafe
  have hss : splitScheme (sch ++ ':' :: '/' :: '/' :: ((nl2 ++ pa3) ++ qtail))
      = (sch, '/' :: '/' :: ((nl2 ++ pa3) ++ qtail)) := by
    rw [splitScheme_forward sch _ hne hhead hall, hlow]
  have hsch : schemeOf (sch ++ ':' :: '/' :: '/' :: ((nl2 ++ pa3) ++ qtail)) = sch := by
    unfold schemeOf
    rw [hclean, hss]
  have hrest : restOf (sch ++ ':' :: '/' :: '/' :: ((nl2 ++ pa3) ++ qtail))
      = '/' :: '/' :: ((nl2 ++ pa3) ++ qtail) := by
    unfold restOf
    rw [hclean, hss]
  have htail_shape : pa3 ++ qtail = [] ∨
      ∃ d t, pa3 ++ qtail = d :: t ∧ isNetlocDelim d = true := by
    rcases hpa with hpa0 | ⟨t, hpat⟩
    · subst hpa0
      rcases hqt with ⟨hq0, _⟩ | hq1
      · subst hq0
        exact Or.inl rfl
      · rw [hq1]
        exact Or.inr ⟨'?', Q, rfl, by decide⟩
    · rw [hpat]
      exact Or.inr ⟨'/', t ++ qtail, rfl, by decide⟩
  have hsplitn := takeWhile_append_all (fun c => !isNetlocDelim c) nl2 (pa3 ++ qtail)
    (by
      intro c hc
      show (!isNetlocDelim c) = true
      rw [hnl c hc]
      rfl)
  have htw : (pa3 ++ qtail).takeWhile (fun c => !isNetlocDelim c) = [] ∧
      (pa3 ++ qtail).dropWhile (fun c => !isNetlocDelim c) = pa3 ++ qtail := by
    rcases htail_shape with h0 | ⟨d, t, hdt, hdd⟩
    · rw [h0]
      exact ⟨rfl, rfl⟩
    · rw [hdt]
      exact takeWhile_head_false _ d t (by rw [hdd]; rfl)
  have hnetloc : netlocOf (sch ++ ':' :: '/' :: '/' :: ((nl2 ++ pa3) ++ qtail)) = nl2 := by
    unfold netlocOf
    rw [hrest]
    rw [if_pos (show ('/' :: '/' :: ((nl2 ++ pa3) ++ qtail)).take 2 = ['/', '/'] from rfl)]
    show ((nl2 ++ pa3) ++ qtail).takeWhile (fun c => !isNetlocDelim c) = nl2
    rw [List.append_assoc, hsplitn.1, htw.1, List.append_nil]
  have hafter : afterNetloc (sch ++ ':' :: '/' :: '/' :: ((nl2 ++ pa3) ++ qtail))
      = pa3 ++ qtail := by
    unfold afterNetloc
    rw [hrest]
    rw [if_pos (show ('/' :: '/' :: ((nl2 ++ pa3) ++ qtail)).take 2 = ['/', '/'] from rfl)]
    show ((nl2 ++ pa3) ++ qtail).dropWhile (fun c => !isNetlocDelim c) = pa3 ++ qtail
    rw [List.append_assoc, hsplitn.2, htw.2]
  have hnohash : '#' ∉ pa3 ++ qtail := by
    intro hm
    rcases List.mem_append.1 hm with hm | hm
    · exact hpa_nohash hm
    · rcases hqt with ⟨hq0, _⟩ | hq1
      · rw [hq0] at hm
        exact List.not_mem_nil _ hm
      · rw [hq1] at hm
        rcases List.mem_cons.1 hm with he | hm
        · exact absurd he (by decide)
        · exact hQ_nohash hm
  have hfrag : fragSplit (sch ++ ':' :: '/' :: '/' :: ((nl2 ++ pa3) ++ qtail))
      = (pa3 ++ qtail, []) := by
    rcases fragSplit_cases (sch ++ ':' :: '/' :: '/' :: ((nl2 ++ pa3) ++ qtail)) with
      ⟨_, he⟩ | ⟨b, a, hbf, _⟩
    · rw [he, hafter]
    · rw [hafter] at hbf
      obtain ⟨hd, _⟩ := breakFirst_some '#' _ _ _ hbf
      exact absurd (by rw [hd]; exact List.mem_append_right _ (List.mem_cons_self _ _)) hnohash
  have hquery : querySplit (sch ++ ':' :: '/' :: '/' :: ((nl2 ++ pa3) ++ qtail))
      = (pa3, Q) := by
    unfold querySplit
    rw [hfrag]
    show (match breakFirst '?' (pa3 ++ qtail) with
      | some (l, r) => (l, r)
      | none => (pa3 ++ qtail, [])) = (pa3, Q)
    rcases hqt with ⟨hq0, hQ0⟩ | hq1
    · subst hq0
      subst hQ0
      rw [List.append_nil, breakFirst_eq_none '?' pa3 hpa_noq]
    · rw [hq1, breakFirst_append_self '?' pa3 Q hpa_noq]
  refine ⟨hsch, hnetloc, ?_, ?_, ?_⟩
  · rw [hquery]
  · rw [hquery]
  · rw [hfrag]

theorem serialized_splits_nonetloc (sch pa3 Q qtail : Chars)
    (hhead : ∃ c0 tl, sch = c0 :: tl ∧ c0.isAlpha = true)
    (hall : sch.all isSchemeChar = true) (hlow : lowerStr sch = sch)
    (htake : (pa3 ++ qtail).take 2 ≠ ['/', '/'])
    (hpa_nohash : '#' ∉ pa3) (hpa_noq : '?' ∉ pa3)
    (hQ_nohash : '#' ∉ Q)
    (hqt : (qtail = [] ∧ Q = []) ∨ qtail = '?' :: Q)
    ( hunsafe : ∀ c ∈ sch ++ ':' :: (pa3 ++ qtail), isUnsafeChar c = false) :
    schemeOf (sch ++ ':' :: (pa3 ++ qtail)) = sch ∧
    netlocOf (sch ++ ':' :: (pa3 ++ qtail)) = [] ∧
    (querySplit (sch ++ ':' :: (pa3 ++ qtail))).1 = pa3 ∧
    (querySplit (sch ++ ':' :: (pa3 ++ qtail))).2 = Q ∧
    (fragSplit (sch ++ ':' :: (pa3 ++ qtail))).2 = [] := by
  have hne : sch ≠ [] := by
    obtain ⟨c0, tl, he, _⟩ := hhead
    rw [he]
    exact List.cons_ne_nil _ _
  have hclean : removeUnsafeBytes (sch ++ ':' :: (pa3 ++ qtail)) = sch ++ ':' :: (pa3 ++ qtail) :=
    removeUnsafeBytes_eq_self _ hunsafe
  have hss : splitScheme (sch ++ ':' :: (pa3 ++ qtail)) = (sch, pa3 ++ qtail) := by
    rw [splitScheme_forward sch _ hne hhead hall, hlow]
  have hsch : schemeOf (sch ++ ':' :: (pa3 ++ qtail)) = sch := by
    unfold schemeOf
    rw [hclean, hss]
  have hrest : restOf (sch ++ ':' :: (pa3 ++ qtail)) = pa3 ++ qtail := by
    unfold restOf
    rw [hclean, hss]
  have hnetloc : netlocOf (sch ++ ':' :: (pa3 ++ qtail)) = [] := by
    unfold netlocOf
    rw [hrest, if_neg htake]
  have hafter : afterNetloc (sch ++ ':' :: (pa3 ++ qtail)) = pa3 ++ qtail := by
    unfold afterNetloc
    rw [hrest, if_neg htake]
  have hnohash : '#' ∉ pa3 ++ qtail := by
    intro hm
    rcases List.mem_append.1 hm with hm | hm
    · exact hpa_nohash hm
    · rcases hqt with ⟨hq0, _⟩ | hq1
      · rw [hq0] at hm
        exact List.not_mem_nil _ hm
      · rw [hq1] at hm
        rcases List.mem_cons.1 hm with he | hm
        · exact absurd he (by decide)
        · exact hQ_nohash hm
  have hfrag : fragSplit (sch ++ ':' :: (pa3 ++ qtail)) = (pa3 ++ qtail, []) := by
    rcases fragSplit_cases (sch ++ ':' :: (pa3 ++ qtail)) with ⟨_, he⟩ | ⟨b, a, hbf, _⟩
    · rw [he, hafter]
    · rw [hafter] at hbf
      obtain ⟨hd, _⟩ := breakFirst_some '#' _ _ _ hbf
      exact absurd (by rw [hd]; exact List.mem_append_right _ (List.mem_cons_self _ _)) hnohash
  have hquery : querySplit (sch ++ ':' :: (pa3 ++ qtail)) = (pa3, Q) := by
    unfold querySplit
    rw [hfrag]
    show (match breakFirst '?' (pa3 ++ qtail) with
      | some (l, r) => (l, r)
      | none => (pa3 ++ qtail, [])) = (pa3, Q)
    rcases hqt with ⟨hq0, hQ0⟩ | hq1
    · subst hq0
      subst hQ0
      rw [List.append_nil, breakFirst_eq_none '?' pa3 hpa_noq]
    · rw [hq1, breakFirst_append_self '?' pa3 Q hpa_noq]
  refine ⟨hsch, hnetloc, ?_, ?_, ?_⟩
  · rw [hquery]
  · rw [hquery]
  · rw [hfrag]

theorem urlparse_components (s0 : Chars) (sch nl2 pa Q fr : Chars)
    (hsch : schemeOf s0 = sch) (hnl : netlocOf s0 = nl2)
    (hpa : (querySplit s0).1 = pa) (hq : (querySplit s0).2 = Q)
    (hfr : (fragSplit s0).2 = fr)
    (hbr1 : '[' ∉ nl2) (hbr2 : ']' ∉ nl2)
    (hsemi : ';' ∉ pa) :
    urlparseCore s0 = .ok ⟨sch, nl2, pa, [], Q, fr⟩ := by
  have hsplit : urlsplitCore s0 = .ok ⟨sch, nl2, pa, Q, fr⟩ := by
    unfold urlsplitCore
    rw [hnl, hsch, hpa, hq, hfr]
    rw [if_neg (by
      intro hcon
      rcases hcon with ⟨h1, _⟩ | ⟨h1, _⟩
      · exact hbr1 h1
      · exact hbr2 h1)]
  unfold urlparseCore
  rw [hsplit]
  show (if String.mk sch ∈ usesParamsSchemes ∧ ';' ∈ pa
    then Except.ok (⟨sch, nl2, (splitparams pa).1, (splitparams pa).2, Q, fr⟩ : UrlparseResult)
    else Except.ok ⟨sch, nl2, pa, [], Q, fr⟩) = Except.ok ⟨sch, nl2, pa, [], Q, fr⟩
  rw [if_neg (fun hcon => hsemi hcon.2)]

theorem parse_components_noport (P : URLParser) (s : String) (sch nl2 pa Q fr : Chars)
    (hup : urlparseCore s.toList = .ok ⟨sch, nl2, pa, [], Q, fr⟩)
    (hhi : (hostinfo nl2).2 = none) :
    P.parse s = .ok (mkParsed ⟨sch, nl2, pa, [], Q, fr⟩ s none) := by
  unfold URLParser.parse
  rw [hup]
  show (match (hostinfo nl2).2 with
    | none => Except.ok (mkParsed ⟨sch, nl2, pa, [], Q, fr⟩ s none)
    | some ps =>
      match parsePortStr ps with
      | .error e => .error e
      | .ok n => Except.ok (mkParsed ⟨sch, nl2, pa, [], Q, fr⟩ s (some n)))
    = Except.ok (mkParsed ⟨sch, nl2, pa, [], Q, fr⟩ s none)
  rw [hhi]

theorem parse_components_port (P : URLParser) (s : String) (sch nl2 pa Q fr : Chars)
    (ps : Chars) (n : Nat)
    (hup : urlparseCore s.toList = .ok ⟨sch, nl2, pa, [], Q, fr⟩)
    (hhi : (hostinfo nl2).2 = some ps) (hps : parsePortStr ps = .ok n) :
    P.parse s = .ok (mkParsed ⟨sch, nl2, pa, [], Q, fr⟩ s (some n)) := by
  unfold URLParser.parse
  rw [hup]
  show (match (hostinfo nl2).2 with
    | none => Except.ok (mkParsed ⟨sch, nl2, pa, [], Q, fr⟩ s none)
    | some ps =>
      match parsePortStr ps with
      | .error e => .error e
      | .ok n => Except.ok (mkParsed ⟨sch, nl2, pa, [], Q, fr⟩ s (some n)))
    = Except.ok (mkParsed ⟨sch, nl2, pa, [], Q, fr⟩ s (some n))
  rw [hhi]
  show (match parsePortStr ps with
    | Except.error e => Except.error e
    | Except.ok n => Except.ok (mkParsed ⟨sch, nl2, pa, [], Q, fr⟩ s (some n)))
    = Except.ok (mkParsed ⟨sch, nl2, pa, [], Q, fr⟩ s (some n))
  rw [hps]

theorem parse_components_badport (P : URLParser) (s : String) (sch nl2 pa Q fr : Chars)
    (ps : Chars) (e : String)
    (hup : urlparseCore s.toList = .ok ⟨sch, nl2, pa, [], Q, fr⟩)
    (hhi : (hostinfo nl2).2 = some ps) (hps : parsePortStr ps = .error e) :
    P.parse s = .error e := by
  unfold URLParser.parse
  rw [hup]
  show (match (hostinfo nl2).2 with
    | none => Except.ok (mkParsed ⟨sch, nl2, pa, [], Q, fr⟩ s none)
    | some ps =>
      match parsePortStr ps with
      | .error e => .error e
      | .ok n => Except.ok (mkParsed ⟨sch, nl2, pa, [], Q, fr⟩ s (some n)))
    = Except.error e
  rw [hhi]
  show (match parsePortStr ps with
    | Except.error e => Except.error e
    | Except.ok n => Except.ok (mkParsed ⟨sch, nl2, pa, [], Q, fr⟩ s (some n)))
    = Except.error e
  rw [hps]

theorem breakLast_eq_none (c : Char) (s : Chars) (h : c ∉ s) : breakLast c s = none := by
  unfold breakLast
  rw [breakFirst_eq_none c s.reverse (fun hm => h (List.mem_reverse.1 hm))]

theorem hostinfo_forward_nocolon (h : Chars) (hna : '@' ∉ h) (hnc : ':' ∉ h)
    (hnb : '[' ∉ h) : hostinfo h = (h, none) := by
  unfold hostinfo
  rw [breakLast_eq_none '@' h hna]
  simp only
  rw [if_neg hnb, breakFirst_eq_none ':' h hnc]

theorem hostinfo_forward_colon (hh ps : Chars) (hna : '@' ∉ hh ++ ':' :: ps)
    (hnc : ':' ∉ hh) (hnb : '[' ∉ hh ++ ':' :: ps) (hpsne : ps ≠ []) :
    hostinfo (hh ++ ':' :: ps) = (hh, some ps) := by
  unfold hostinfo
  rw [breakLast_eq_none '@' _ hna]
  simp only
  rw [if_neg hnb, breakFirst_append_self ':' hh ps hnc]
  show (hh, if ps = [] then none else some ps) = (hh, some ps)
  rw [if_neg hpsne]

theorem mapPlus_chars (t : Chars) (c : Char)
    (hc : c ∈ t.map (fun d => if d = '+' then ' ' else d)) : c = ' ' ∨ c ∈ t := by
  rw [List.mem_map] at hc
  obtain ⟨d, hd, he⟩ := hc
  by_cases hdp : d = '+'
  · rw [if_pos hdp] at he
    exact Or.inl he.symm
  · rw [if_neg hdp] at he
    exact Or.inr (he ▸ hd)

theorem unquotePlus_no_percent (t : Chars) (h : '%' ∉ t) :
    unquotePlus t = t.map (fun c => if c = '+' then ' ' else c) := by
  unfold unquotePlus
  apply unquote_no_percent
  intro hm
  rcases mapPlus_chars t '%' hm with he | hmem
  · exact absurd he (by decide)
  · exact h hmem

theorem parseQslBody_chars (qs : Chars) (hq : '%' ∉ qs) (ps : List Chars)
    (hps : ∀ p ∈ ps, ∀ c ∈ p, c ∈ qs) :
    ∀ kv ∈ ps.foldr
      (fun nv acc =>
        if nv = [] then acc
        else
          match breakFirst '=' nv with
          | some (n, v) => (unquotePlus n, unquotePlus v) :: acc
          | none => (unquotePlus nv, []) :: acc)
      [],
      (∀ c ∈ kv.1, c = ' ' ∨ c ∈ qs) ∧ (∀ c ∈ kv.2, c = ' ' ∨ c ∈ qs) := by
  induction ps with
  | nil =>
    intro kv hkv
    exact absurd hkv (List.not_mem_nil kv)
  | cons p ps' ih =>
    intro kv hkv
    rw [List.foldr_cons] at hkv
    have hpsub : ∀ c ∈ p, c ∈ qs := hps p (List.mem_cons_self p ps')
    have hih := ih (fun x hx => hps x (List.mem_cons_of_mem p hx))
    by_cases hpe : p = []
    · rw [if_pos hpe] at hkv
      exact hih kv hkv
    · rw [if_neg hpe] at hkv
      have hnp : '%' ∉ p := fun hm => hq (hpsub '%' hm)
      cases hbf : breakFirst '=' p with
      | some nv =>
        obtain ⟨n, v⟩ := nv
        rw [hbf] at hkv
        obtain ⟨hd, _⟩ := breakFirst_some '=' p n v hbf
        have hnsub : ∀ c ∈ n, c ∈ qs := fun c hc => hpsub c (by
          rw [hd]; exact List.mem_append_left _ hc)
        have hvsub : ∀ c ∈ v, c ∈ qs := fun c hc => hpsub c (by
          rw [hd]
          simp only [List.mem_append, List.mem_cons]
          exact Or.inr (Or.inr hc))
        have hnnp : '%' ∉ n := fun hm => hq (hnsub '%' hm)
        have hvnp : '%' ∉ v := fun hm => hq (hvsub '%' hm)
        rcases List.mem_cons.1 hkv with rfl | hkv
        · constructor
          · intro c hc
            rw [unquotePlus_no_percent n hnnp] at hc
            rcases mapPlus_chars n c hc with he | hc
            · exact Or.inl he
            · exact Or.inr (hnsub c hc)
          · intro c hc
            rw [unquotePlus_no_percent v hvnp] at hc
            rcases mapPlus_chars v c hc with he | hc
            · exact Or.inl he
            · exact Or.inr (hvsub c hc)
        · exact hih kv hkv
      | none =>
        rw [hbf] at hkv
        rcases List.mem_cons.1 hkv with rfl | hkv
        · constructor
          · intro c hc
            rw [unquotePlus_no_percent p hnp] at hc
            rcases mapPlus_chars p c hc with he | hc
            · exact Or.inl he
            · exact Or.inr (hpsub c hc)
          · intro c hc
            exact absurd hc (List.not_mem_nil c)
        · exact hih kv hkv

theorem parseQsl_chars (qs : Chars) (hq : '%' ∉ qs) :
    ∀ kv ∈ parseQsl qs, (∀ c ∈ kv.1, c = ' ' ∨ c ∈ qs) ∧ (∀ c ∈ kv.2, c = ' ' ∨ c ∈ qs) :=
  parseQslBody_chars qs hq (splitAll '&' qs) (mem_of_mem_splitAll '&' qs)

theorem addPair_prop (Pk : Chars → Prop) (Pv : Chars → Prop) (k v : Chars)
    (acc : List (Chars × List Chars)) (hk : Pk k) (hv : Pv v)
    (hacc : ∀ kv ∈ acc, Pk kv.1 ∧ ∀ x ∈ kv.2, Pv x) :
    ∀ kv ∈ addPair k v acc, Pk kv.1 ∧ ∀ x ∈ kv.2, Pv x := by
  induction acc with
  | nil =>
    intro kv hkv
    rw [show addPair k v [] = [(k, [v])] from rfl, List.mem_singleton] at hkv
    subst hkv
    refine ⟨hk, ?_⟩
    intro x hx
    rw [List.mem_singleton] at hx
    subst hx
    exact hv
  | cons e rest ih =>
    obtain ⟨k', vs'⟩ := e
    intro kv hkv
    by_cases he : k' = k
    · subst he
      have hred : addPair k' v ((k', vs') :: rest) = (k', vs' ++ [v]) :: rest := by
        show (if k' = k' then (k', vs' ++ [v]) :: rest else (k', vs') :: addPair k' v rest) = _
        rw [if_pos rfl]
      rw [hred] at hkv
      rcases List.mem_cons.1 hkv with rfl | hkv
      · refine ⟨(hacc (k', vs') (List.mem_cons_self _ _)).1, ?_⟩
        intro x hx
        rcases List.mem_append.1 hx with hx | hx
        · exact (hacc (k', vs') (List.mem_cons_self _ _)).2 x hx
        · rw [List.mem_singleton] at hx
          subst hx
          exact hv
      · exact hacc kv (List.mem_cons_of_mem _ hkv)
    · have hred : addPair k v ((k', vs') :: rest) = (k', vs') :: addPair k v rest := by
        show (if k' = k then (k', vs' ++ [v]) :: rest else (k', vs') :: addPair k v rest) = _
        rw [if_neg he]
      rw [hred] at hkv
      rcases List.mem_cons.1 hkv with rfl | hkv
      · exact hacc (k', vs') (List.mem_cons_self _ _)
      · exact ih (fun x hx => hacc x (List.mem_cons_of_mem _ hx)) kv hkv

theorem foldl_addPair_prop (Pk : Chars → Prop) (Pv : Chars → Prop)
    (l : List (Chars × Chars)) (hl : ∀ kv ∈ l, Pk kv.1 ∧ Pv kv.2) :
    ∀ acc : List (Chars × List Chars), (∀ kv ∈ acc, Pk kv.1 ∧ ∀ x ∈ kv.2, Pv x) →
      ∀ kv ∈ List.foldl (fun a kv => addPair kv.1 kv.2 a) acc l,
        Pk kv.1 ∧ ∀ x ∈ kv.2, Pv x := by
  induction l with
  | nil => intro acc hacc; exact hacc
  | cons kv0 rest ih =>
    intro acc hacc
    rw [List.foldl_cons]
    exact ih (fun x hx => hl x (List.mem_cons_of_mem _ hx)) _
      (addPair_prop Pk Pv kv0.1 kv0.2 acc
        (hl kv0 (List.mem_cons_self _ _)).1 (hl kv0 (List.mem_cons_self _ _)).2 hacc)

theorem parseQs_chars (qs : Chars) (hq : '%' ∉ qs) :
    ∀ kv ∈ parseQs qs,
      (∀ c ∈ kv.1, c = ' ' ∨ c ∈ qs) ∧ ∀ v ∈ kv.2, ∀ c ∈ v, c = ' ' ∨ c ∈ qs := by
  have hres := foldl_addPair_prop (fun k => ∀ c ∈ k, c = ' ' ∨ c ∈ qs)
    (fun v => ∀ c ∈ v, c = ' ' ∨ c ∈ qs) (parseQsl qs) (parseQsl_chars qs hq) []
    (by intro kv hkv; exact absurd hkv (List.not_mem_nil kv))
  intro kv hkv
  obtain ⟨h1, h2⟩ := hres kv hkv
  exact ⟨h1, fun v hv c hc => h2 v hv c hc⟩

theorem mem_intercalate_sep (sep : Char) (ps : List Chars) (c : Char) :
    c ∈ List.intercalate [sep] ps → c = sep ∨ ∃ p ∈ ps, c ∈ p := by
  induction ps with
  | nil =>
    intro hc
    rw [show List.intercalate [sep] ([] : List Chars) = [] from by simp [List.intercalate]] at hc
    exact absurd hc (List.not_mem_nil c)
  | cons p ps' ih =>
    intro hc
    cases ps' with
    | nil =>
      rw [show List.intercalate [sep] [p] = p from by simp [List.intercalate]] at hc
      exact Or.inr ⟨p, List.mem_cons_self p [], hc⟩
    | cons q qs =>
      rw [intercalate_sep_cons₂] at hc
      rcases List.mem_append.1 hc with hc2 | hc2
      · exact Or.inr ⟨p, List.mem_cons_self _ _, hc2⟩
      · rcases List.mem_cons.1 hc2 with rfl | hc2
        · exact Or.inl rfl
        · rcases ih hc2 with he | ⟨p', hp', hcp⟩
          · exact Or.inl he
          · exact Or.inr ⟨p', List.mem_cons_of_mem p hp', hcp⟩

theorem urlencode_char_class (d : List (Chars × List Chars)) :
    ∀ c ∈ urlencode d, c = '&' ∨ c = '=' ∨ ∃ s', c ∈ quotePlus s' := by
  intro c hc
  unfold urlencode at hc
  rcases mem_intercalate_sep '&' _ c hc with he | ⟨p, hp, hcp⟩
  · exact Or.inl he
  · rw [List.mem_flatten] at hp
    obtain ⟨l1, hl1, hp⟩ := hp
    rw [List.mem_map] at hl1
    obtain ⟨kv, hkv, rfl⟩ := hl1
    rw [List.mem_map] at hp
    obtain ⟨v, hv, rfl⟩ := hp
    rcases List.mem_append.1 hcp with hc2 | hc2
    · exact Or.inr (Or.inr ⟨kv.1, hc2⟩)
    · rcases List.mem_cons.1 hc2 with rfl | hc2
      · exact Or.inr (Or.inl rfl)
      · exact Or.inr (Or.inr ⟨v, hc2⟩)

theorem urlencode_safe (d : List (Chars × List Chars)) :
    ∀ c ∈ urlencode d, c.toNat < 128 ∧ isUnsafeChar c = false ∧ c ≠ '#' := by
  intro c hc
  rcases urlencode_char_class d c hc with rfl | rfl | ⟨s', hs'⟩
  · exact ⟨by decide, by decide, by decide⟩
  · exact ⟨by decide, by decide, by decide⟩
  · have hcls := quotePlus_char_class s' c hs'
    refine ⟨by omega, ?_, ?_⟩
    · by_contra hcon
      rw [Bool.not_eq_false, isUnsafeChar_iff] at hcon
      omega
    · intro he
      rw [he] at hcls
      revert hcls
      decide

theorem intercalate_cons_ne_nil (sep : Char) (p : Chars) (t : List Chars) (hp : p ≠ []) :
    List.intercalate [sep] (p :: t) ≠ [] := by
  cases t with
  | nil =>
    rw [show List.intercalate [sep] [p] = p from by simp [List.intercalate]]
    exact hp
  | cons q qs =>
    rw [intercalate_sep_cons₂]
    intro hcon
    exact List.cons_ne_nil _ _ (List.append_eq_nil.1 hcon).2

theorem urlencode_ne_nil (d : List (Chars × List Chars)) (hne : d ≠ [])
    (hv : ∀ kv ∈ d, kv.2 ≠ []) : urlencode d ≠ [] := by
  obtain ⟨kv, rest, rfl⟩ := List.exists_cons_of_ne_nil hne
  obtain ⟨v, vs, hvs⟩ := List.exists_cons_of_ne_nil (hv kv (List.mem_cons_self _ _))
  unfold urlencode
  rw [List.map_cons, hvs, List.map_cons, List.flatten_cons, List.cons_append]
  exact intercalate_cons_ne_nil '&' _ _ (qsPiece_ne_nil kv.1 v)

/-! ### Field computations for removeTrackerParams / normalize / clean -/

theorem rtp_fields (P : URLParser) (p : ParsedURL) :
    (P.removeTrackerParams p).scheme = p.scheme ∧
    (P.removeTrackerParams p).netloc = p.netloc ∧
    (P.removeTrackerParams p).hostname = p.hostname ∧
    (P.removeTrackerParams p).port = p.port ∧
    (P.removeTrackerParams p).path = p.path ∧
    (P.removeTrackerParams p).params = p.params ∧
    (P.removeTrackerParams p).query = p.query ∧
    (P.removeTrackerParams p).fragment = p.fragment ∧
    (P.removeTrackerParams p).queryDict
      = p.queryDict.filter (fun kv => !(P.trackerParams.contains kv.1)) :=
  ⟨rfl, rfl, rfl, rfl, rfl, rfl, rfl, rfl, rfl⟩

theorem normalize_plain_fields (P : URLParser) (p : ParsedURL) :
    (P.normalize p defaultOptions).scheme = p.scheme ∧
    (P.normalize p defaultOptions).params = p.params ∧
    (P.normalize p defaultOptions).query = p.query ∧
    (P.normalize p defaultOptions).fragment = "" :=
  ⟨rfl, rfl, rfl, rfl⟩

theorem normalize_hostname (P : URLParser) (p : ParsedURL) :
    (P.normalize p defaultOptions).hostname
      = String.mk (wwwStrip (lowerStr p.hostname.toList)) := by
  show (if defaultOptions.removeWww = true ∧
      (String.mk (lowerStr p.hostname.toList)).toList.take 4 = "www.".toList
    then String.mk ((String.mk (lowerStr p.hostname.toList)).toList.drop 4)
    else String.mk (lowerStr p.hostname.toList)) = String.mk (wwwStrip (lowerStr p.hostname.toList))
  unfold wwwStrip
  by_cases h : (lowerStr p.hostname.toList).take 4 = ['w', 'w', 'w', '.']
  · rw [if_pos ⟨rfl, h⟩, if_pos h]
    rfl
  · rw [if_neg (fun hc => h hc.2), if_neg h]

theorem normalize_port (P : URLParser) (p : ParsedURL) :
    (P.normalize p defaultOptions).port
      = if (p.scheme = "http" ∧ p.port = some 80) ∨ (p.scheme = "https" ∧ p.port = some 443)
        then none else p.port := by
  show (if defaultOptions.removeDefaultPorts = true ∧
      ((p.scheme = "http" ∧ p.port = some 80) ∨ (p.scheme = "https" ∧ p.port = some 443))
    then none else p.port) = _
  by_cases h : (p.scheme = "http" ∧ p.port = some 80) ∨ (p.scheme = "https" ∧ p.port = some 443)
  · rw [if_pos ⟨rfl, h⟩, if_pos h]
  · rw [if_neg (fun hc => h hc.2), if_neg h]

theorem normalize_netloc (P : URLParser) (p : ParsedURL) :
    (P.normalize p defaultOptions).netloc
      = match (P.normalize p defaultOptions).port with
        | some n => if n ≠ 0
            then String.mk ((P.normalize p defaultOptions).hostname.toList ++ ':' :: natRepr n)
            else (P.normalize p defaultOptions).hostname
        | none => (P.normalize p defaultOptions).hostname := rfl

theorem normalize_path (P : URLParser) (p : ParsedURL) :
    (P.normalize p defaultOptions).path
      = String.mk (unquote
          (if p.path.toList.length > 1 ∧ p.path.toList.getLast? = some '/'
           then rstripChar '/' p.path.toList else p.path.toList)) := by
  show String.mk (unquote
      ((if defaultOptions.removeTrailingSlash = true ∧
          p.path.toList.length > 1 ∧ p.path.toList.getLast? = some '/'
        then String.mk (rstripChar '/' p.path.toList) else p.path)).toList) = _
  by_cases h : p.path.toList.length > 1 ∧ p.path.toList.getLast? = some '/'
  · rw [if_pos ⟨rfl, h⟩, if_pos h]
    rfl
  · rw [if_neg (fun hc => h hc.2), if_neg h]

theorem normalize_queryDict (P : URLParser) (p : ParsedURL) :
    (P.normalize p defaultOptions).queryDict
      = if p.queryDict ≠ [] then sortPairs p.queryDict else p.queryDict := by
  show (if defaultOptions.sortQueryParams = true ∧ p.queryDict ≠ []
    then sortPairs p.queryDict else p.queryDict) = _
  by_cases h : p.queryDict ≠ []
  · rw [if_pos ⟨rfl, h⟩, if_pos h]
  · rw [if_neg (fun hc => h hc.2), if_neg h]

theorem clean_ok_inv (P : URLParser) (url : String) (p : ParsedURL)
    (hp : P.parse url = .ok p) :
    P.getCanonicalUrl url
      = .ok (P.normalize (P.removeTrackerParams p) defaultOptions).strUrl := by
  unfold URLParser.getCanonicalUrl URLParser.clean
  rw [hp]
  rfl

theorem clean_badparse (P : URLParser) (url : String) (e : String)
    (hp : P.parse url = .error e) : P.getCanonicalUrl url = .error e := by
  unfold URLParser.getCanonicalUrl URLParser.clean
  rw [hp]

/-! ### Character transport along toLower, and netloc character facts -/

theorem isNetlocDelim_toLower (c : Char) (h : isNetlocDelim c = false) :
    isNetlocDelim c.toLower = false := by
  by_contra hcon
  rw [Bool.not_eq_false, isNetlocDelim_iff] at hcon
  have h2 : ¬isNetlocDelim c = true := by
    rw [h]
    exact Bool.false_ne_true
  rw [isNetlocDelim_iff] at h2
  rcases toLower_toNat_cases c with he | ⟨h1, h2', he⟩ <;> omega

theorem char_ne_of_code (a b : Char) (h : a.toNat ≠ b.toNat) : a ≠ b := by
  intro he
  exact h (congrArg Char.toNat he)

theorem mem_lowerStr_code (x : Char) (l : Chars) (hx : x ∈ lowerStr l) :
    ∃ d ∈ l, (x.toNat = d.toNat ∨ (65 ≤ d.toNat ∧ d.toNat ≤ 90 ∧ x.toNat = d.toNat + 32)) := by
  rw [lowerStr, List.mem_map] at hx
  obtain ⟨d, hd, rfl⟩ := hx
  exact ⟨d, hd, toLower_toNat_cases d⟩

theorem natRepr_char_facts (n : Nat) : ∀ c ∈ natRepr n,
    c.toNat < 128 ∧ isUnsafeChar c = false ∧ isNetlocDelim c = false ∧
      c ≠ ':' ∧ c ≠ '@' ∧ c ≠ '[' ∧ c ≠ ']' := by
  intro c hc
  have hr := natRepr_toNat_range n c hc
  refine ⟨by omega, ?_, ?_, ?_, ?_, ?_, ?_⟩
  · by_contra hcon
    rw [Bool.not_eq_false, isUnsafeChar_iff] at hcon
    omega
  · by_contra hcon
    rw [Bool.not_eq_false, isNetlocDelim_iff] at hcon
    omega
  · exact char_ne_of_code _ _ (by
      rw [show (':' : Char).toNat = 58 from rfl]
      omega)
  · exact char_ne_of_code _ _ (by
      rw [show ('@' : Char).toNat = 64 from rfl]
      omega)
  · exact char_ne_of_code _ _ (by
      rw [show ('[' : Char).toNat = 91 from rfl]
      omega)
  · exact char_ne_of_code _ _ (by
      rw [show (']' : Char).toNat = 93 from rfl]
      omega)

/-! ### queryDict bookkeeping: the String/Chars layer -/

theorem mkpair_toList2 (qd : List (String × List String)) :
    ((qd.map (fun kv => (kv.1.toList, kv.2.map String.toList))).map
      (fun kv => (String.mk kv.1, kv.2.map String.mk))) = qd := by
  rw [List.map_map]
  have hid : ∀ kv ∈ qd,
      ((fun kv => (String.mk kv.1, kv.2.map String.mk)) ∘
        fun kv => (kv.1.toList, kv.2.map String.toList)) kv = id kv := by
    intro kv _
    show (String.mk kv.1.toList, (kv.2.map String.toList).map String.mk) = kv
    rw [string_mk_toList, List.map_map]
    have : ∀ v ∈ kv.2, (String.mk ∘ String.toList) v = id v := fun v _ => string_mk_toList v
    rw [List.map_congr_left this, List.map_id]
  rw [List.map_congr_left hid, List.map_id]

theorem queryDict_keys_nodup (Q0 : Chars) :
    (((parseQs Q0).map (fun kv => (String.mk kv.1, kv.2.map String.mk))).map
      Prod.fst).Nodup := by
  rw [List.map_map]
  show (List.map (fun kv => String.mk kv.1) (parseQs Q0)).Nodup
  have heq : (fun kv : Chars × List Chars => String.mk kv.1)
      = String.mk ∘ (Prod.fst : Chars × List Chars → Chars) := rfl
  rw [heq, ← List.map_map]
  exact (parseQs_keys_nodup Q0).map (fun a b h => string_mk_inj a b h)

theorem filter_keys_nodup (l : List (String × List String)) (pr : String × List String → Bool)
    (h : (l.map Prod.fst).Nodup) : ((l.filter pr).map Prod.fst).Nodup :=
  List.Nodup.sublist ((List.filter_sublist l).map Prod.fst) h

theorem sortPairs_keys_nodup (l : List (String × List String))
    (h : (l.map Prod.fst).Nodup) : ((sortPairs l).map Prod.fst).Nodup :=
  (((sortPairs_perm l).map Prod.fst).nodup_iff).2 h

/-- The query-dict transformation performed by clean with both flags on:
tracker filter, then conditional key sort (proof-structuring shorthand
for the composition of removeTrackerParams and normalize). -/
def canonQD (P : URLParser) (qd : List (String × List String)) :
    List (String × List String) :=
  let qd1 := qd.filter (fun kv => !(P.trackerParams.contains kv.1))
  if qd1 ≠ [] then sortPairs qd1 else qd1

theorem strUrl_fields (p : ParsedURL) :
    p.strUrl = String.mk (urlunparse p.scheme.toList p.netloc.toList p.path.toList
      p.params.toList
      (if p.queryDict ≠ []
       then urlencode (p.queryDict.map (fun kv => (kv.1.toList, kv.2.map String.toList)))
       else p.query.toList)
      p.fragment.toList) := rfl

theorem second_pass (P : URLParser) (s : String) (sch NL2 PA2 Qf H2 : Chars)
    (portOpt : Option Nat)
    (hp : P.parse s = .ok (mkParsed ⟨sch, NL2, PA2, [], Qf, []⟩ s portOpt))
    (hsl : s.toList = urlunparse sch NL2 PA2 [] Qf [])
    (hH0 : (hostinfo NL2).1 = H2)
    (hH2low : lowerStr H2 = H2)
    (hH2www : H2.take 4 ≠ ['w', 'w', 'w', '.'])
    (hport : (portOpt = none ∧ NL2 = H2) ∨
      (∃ n, portOpt = some n ∧ n ≠ 0 ∧ NL2 = H2 ++ ':' :: natRepr n ∧
        ¬(String.mk sch = "http" ∧ n = 80) ∧ ¬(String.mk sch = "https" ∧ n = 443)))
    (hPA2 : ¬(PA2.length > 1 ∧ PA2.getLast? = some '/'))
    (hPA2np : '%' ∉ PA2)
    (hQstable :
      (if canonQD P ((parseQs Qf).map (fun kv => (String.mk kv.1, kv.2.map String.mk))) ≠ []
       then urlencode ((canonQD P ((parseQs Qf).map
            (fun kv => (String.mk kv.1, kv.2.map String.mk)))).map
          (fun kv => (kv.1.toList, kv.2.map String.toList)))
       else Qf) = Qf) :
    P.getCanonicalUrl s = .ok s := by
  have hhost2 : (P.normalize (P.removeTrackerParams
      (mkParsed ⟨sch, NL2, PA2, [], Qf, []⟩ s portOpt)) defaultOptions).hostname
      = String.mk H2 := by
    rw [normalize_hostname]
    have h1 : (P.removeTrackerParams
        (mkParsed ⟨sch, NL2, PA2, [], Qf, []⟩ s portOpt)).hostname.toList = H2 := by
      show lowerStr (hostinfo NL2).1 = H2
      rw [hH0, hH2low]
    rw [h1, hH2low]
    unfold wwwStrip
    rw [if_neg hH2www]
  have hport2 : (P.normalize (P.removeTrackerParams
      (mkParsed ⟨sch, NL2, PA2, [], Qf, []⟩ s portOpt)) defaultOptions).port = portOpt := by
    rw [normalize_port]
    rcases hport with ⟨hpo, _⟩ | ⟨n, hpo, hn0, hnl, hh, hhs⟩
    · rw [if_neg (by
        intro hcon
        rcases hcon with ⟨_, hx⟩ | ⟨_, hx⟩ <;>
          · have hx2 : portOpt = some _ := hx
            rw [hpo] at hx2
            exact Option.noConfusion hx2)]
      rfl
    · rw [if_neg (by
        intro hcon
        rcases hcon with ⟨hsc, hx⟩ | ⟨hsc, hx⟩
        · have hx2 : portOpt = some 80 := hx
          rw [hpo] at hx2
          injection hx2 with hx3
          exact hh ⟨hsc, hx3⟩
        · have hx2 : portOpt = some 443 := hx
          rw [hpo] at hx2
          injection hx2 with hx3
          exact hhs ⟨hsc, hx3⟩)]
      rfl
  have hnetloc2 : (P.normalize (P.removeTrackerParams
      (mkParsed ⟨sch, NL2, PA2, [], Qf, []⟩ s portOpt)) defaultOptions).netloc
      = String.mk NL2 := by
    rw [normalize_netloc, hport2, hhost2]
    rcases hport with ⟨hpo, hnl⟩ | ⟨n, hpo, hn0, hnl, _, _⟩
    · rw [hpo]
      show String.mk H2 = String.mk NL2
      rw [hnl]
    · rw [hpo]
      show (if n ≠ 0 then String.mk ((String.mk H2).toList ++ ':' :: natRepr n)
        else String.mk H2) = String.mk NL2
      rw [if_pos hn0, hnl]
      rfl
  have hpath2 : (P.normalize (P.removeTrackerParams
      (mkParsed ⟨sch, NL2, PA2, [], Qf, []⟩ s portOpt)) defaultOptions).path
      = String.mk PA2 := by
    rw [normalize_path]
    show String.mk (unquote (if PA2.length > 1 ∧ PA2.getLast? = some '/'
      then rstripChar '/' PA2 else PA2)) = String.mk PA2
    rw [if_neg hPA2, unquote_no_percent PA2 hPA2np]
  have hqd2 : (P.normalize (P.removeTrackerParams
      (mkParsed ⟨sch, NL2, PA2, [], Qf, []⟩ s portOpt)) defaultOptions).queryDict
      = canonQD P ((parseQs Qf).map (fun kv => (String.mk kv.1, kv.2.map String.mk))) := by
    rw [normalize_queryDict]
    rfl
  have hfinal : (P.normalize (P.removeTrackerParams
      (mkParsed ⟨sch, NL2, PA2, [], Qf, []⟩ s portOpt)) defaultOptions).strUrl = s := by
    rw [strUrl_fields, hnetloc2, hpath2, hqd2]
    show String.mk (urlunparse sch NL2 PA2 []
      (if canonQD P ((parseQs Qf).map (fun kv => (String.mk kv.1, kv.2.map String.mk))) ≠ []
       then urlencode ((canonQD P ((parseQs Qf).map
            (fun kv => (String.mk kv.1, kv.2.map String.mk)))).map
          (fun kv => (kv.1.toList, kv.2.map String.toList)))
       else Qf) []) = s
    rw [hQstable, ← hsl, string_mk_toList]
  rw [clean_ok_inv P s _ hp, hfinal]

theorem wwwStrip_subset (h : Chars) : ∀ c ∈ wwwStrip h, c ∈ h := by
  intro c hc
  unfold wwwStrip at hc
  split at hc
  · exact List.drop_subset 4 h hc
  · exact hc

theorem wwwStrip_lower_fixed (h : Chars) :
    lowerStr (wwwStrip (lowerStr h)) = wwwStrip (lowerStr h) := by
  unfold wwwStrip
  split
  · rw [← lowerStr_drop, lowerStr_idem, lowerStr_drop]
  · rw [lowerStr_idem]

theorem lowerStr_no_delim (l : Chars) (h : ∀ c ∈ l, isNetlocDelim c = false) :
    ∀ c ∈ lowerStr l, isNetlocDelim c = false := by
  intro c hc
  rw [lowerStr, List.mem_map] at hc
  obtain ⟨d, hd, rfl⟩ := hc
  exact isNetlocDelim_toLower d (h d hd)

theorem path_head_slash (url0 : Chars) (h2 : (restOf url0).take 2 = ['/', '/']) :
    (querySplit url0).1 = [] ∨ ∃ t, (querySplit url0).1 = '/' :: t := by
  have hpref : (querySplit url0).1 <+: afterNetloc url0 :=
    (( querySplit_fst_prefix url0).1).trans ( fragSplit_fst_prefix url0).1
  rcases afterNetloc_head_delim url0 h2 with ha | ⟨d, t, ha, hd⟩
  · rw [ha] at hpref
    exact Or.inl (List.prefix_nil.1 hpref)
  · cases hqp : (querySplit url0).1 with
    | nil => exact Or.inl rfl
    | cons c t' =>
      obtain ⟨t'', ht''⟩ := prefix_head _ _ hpref c t' hqp
      rw [ha] at ht''
      injection ht'' with hcd _
      subst hcd
      have hnq : d ≠ '?' := by
        intro he
        refine ( querySplit_fst_prefix url0).2 ?_
        rw [hqp, he]
        exact List.mem_cons_self _ _
      have hnh : d ≠ '#' := by
        intro he
        refine ( fragSplit_fst_prefix url0).2 (( querySplit_fst_prefix url0).1.subset ?_)
        rw [hqp, he]
        exact List.mem_cons_self _ _
      rw [isNetlocDelim_iff] at hd
      have hc47 : d.toNat = 47 := by
        have hq63 : d.toNat ≠ 63 := fun he => hnq ((char_eq_iff d '?').2 he)
        have hh35 : d.toNat ≠ 35 := fun he => hnh ((char_eq_iff d '#').2 he)
        omega
      refine Or.inr ⟨t', ?_⟩
      rw [(char_eq_iff d '/').2 hc47]

theorem take2_append_ne_slashes (pa qtail Q : Chars)
    (hpa : pa = [] ∨ pa.take 2 ≠ ['/', '/'])
    (hqt : (qtail = [] ∧ Q = []) ∨ qtail = '?' :: Q) :
    (pa ++ qtail).take 2 ≠ ['/', '/'] := by
  cases pa with
  | nil =>
    rcases hqt with ⟨hq0, _⟩ | hq1
    · subst hq0
      intro hcon
      exact List.noConfusion hcon
    · rw [List.nil_append, hq1]
      intro hcon
      injection hcon with h1 _
      exact absurd h1 (by decide)
  | cons a t =>
    cases t with
    | nil =>
      rcases hqt with ⟨hq0, _⟩ | hq1
      · subst hq0
        rw [List.append_nil]
        intro hcon
        injection hcon with _ h2
        exact List.noConfusion h2
      · rw [hq1]
        intro hcon
        injection hcon with _ h2
        injection h2 with h3 _
        exact absurd h3 (by decide)
    | cons b t' =>
      rcases hpa with hpa0 | hpa2
      · exact absurd hpa0 (List.cons_ne_nil _ _)
      · intro hcon
        apply hpa2
        rw [show ((a :: b :: t') ++ qtail).take 2 = [a, b] from rfl] at hcon
        rw [show (a :: b :: t').take 2 = [a, b] from rfl]
        exact hcon

theorem urlunparse_nil_params (sch nl pa Q fr : Chars) :
    urlunparse sch nl pa [] Q fr = urlunsplit sch nl pa Q fr := by
  unfold urlunparse
  rw [if_neg (fun h => h rfl)]

theorem take2_slashes_head (l : Chars) (h : l.take 2 = ['/', '/']) : ∃ t, l = '/' :: t := by
  cases l with
  | nil => exact absurd h (by decide)
  | cons a t =>
    have h' : a :: t.take 1 = ['/', '/'] := h
    injection h' with h1 _
    exact ⟨t, by rw [h1]⟩

theorem hostinfo_nil : hostinfo [] = ([], none) := rfl

theorem urlunparse_shape (sch nl pa Q : Chars) (hsch : sch ≠ [])
    (hpa : nl ≠ [] → (pa = [] ∨ ∃ t, pa = '/' :: t)) :
    ((nl ≠ [] ∨ (pa ≠ [] ∧ pa.take 2 = ['/', '/'])) ∧
      urlunparse sch nl pa [] Q []
        = sch ++ ':' :: '/' :: '/' :: ((nl ++ pa) ++ (if Q = [] then [] else '?' :: Q))) ∨
    (¬(nl ≠ [] ∨ (pa ≠ [] ∧ pa.take 2 = ['/', '/'])) ∧
      urlunparse sch nl pa [] Q []
        = sch ++ ':' :: (pa ++ (if Q = [] then [] else '?' :: Q))) := by
  rw [urlunparse_nil_params]
  simp only [urlunsplit]
  rw [if_neg (show ¬(([] : Chars) ≠ []) from fun h => h rfl)]
  by_cases hb : nl ≠ [] ∨ (pa ≠ [] ∧ pa.take 2 = ['/', '/'])
  · left
    refine ⟨hb, ?_⟩
    by_cases hQ : Q = []
    · rw [if_neg (fun h => h hQ), if_pos hQ, if_pos hsch, if_pos hb,
        if_neg (by
          intro hcon
          rcases hb with hnl | ⟨hne, ht2⟩
          · rcases hpa hnl with hpa0 | ⟨t, hpat⟩
            · exact hcon.1 hpa0
            · exact hcon.2 (by rw [hpat]; rfl)
          · obtain ⟨t, hpat⟩ := take2_slashes_head pa ht2
            exact hcon.2 (by rw [hpat]; rfl)), List.append_nil]
    · rw [if_pos hQ, if_neg hQ, if_pos hsch, if_pos hb,
        if_neg (by
          intro hcon
          rcases hb with hnl | ⟨hne, ht2⟩
          · rcases hpa hnl with hpa0 | ⟨t, hpat⟩
            · exact hcon.1 hpa0
            · exact hcon.2 (by rw [hpat]; rfl)
          · obtain ⟨t, hpat⟩ := take2_slashes_head pa ht2
            exact hcon.2 (by rw [hpat]; rfl))]
      simp only [List.append_assoc, List.cons_append]
  · right
    refine ⟨hb, ?_⟩
    by_cases hQ : Q = []
    · rw [if_neg (fun h => h hQ), if_pos hQ, if_pos hsch, if_neg hb, List.append_nil]
    · rw [if_pos hQ, if_neg hQ, if_pos hsch, if_neg hb]
      simp only [List.append_assoc, List.cons_append]

theorem C4_core (P : URLParser) (u : String) (sch NL pa0 Q0 F0 : Chars)
    (portOpt : Option Nat)
    (hschhead : ∃ c0 tl, sch = c0 :: tl ∧ c0.isAlpha = true)
    (hschall : sch.all isSchemeChar = true)
    (hschlow : lowerStr sch = sch)
    (hschsafe : ∀ c ∈ sch, isUnsafeChar c = false)
    (hNLnd : ∀ c ∈ NL, isNetlocDelim c = false)
    (hNLnb1 : '[' ∉ NL) (hNLnb2 : ']' ∉ NL)
    (hNLsafe : ∀ c ∈ NL, isUnsafeChar c = false)
    (hNLascii : ∀ c ∈ NL, c.toNat < 128)
    (hpa0noq : '?' ∉ pa0) (hpa0noh : '#' ∉ pa0) (hpa0np : '%' ∉ pa0)
    (hpa0nsemi : ';' ∉ pa0)
    (hpa0safe : ∀ c ∈ pa0, isUnsafeChar c = false)
    (hpa0head : NL ≠ [] → (pa0 = [] ∨ ∃ t, pa0 = '/' :: t))
    (hQ0noh : '#' ∉ Q0) (hQ0np : '%' ∉ Q0)
    (hQ0safe : ∀ c ∈ Q0, isUnsafeChar c = false)
    (hQ0ascii : ∀ c ∈ Q0, c.toNat < 128)
    (hWww : (wwwStrip (lowerStr (hostinfo NL).1)).take 4 ≠ ['w', 'w', 'w', '.'])
    (hport_src : portOpt ≠ none → (hostinfo NL).2 ≠ none)
    (hportrange : ∀ n, portOpt = some n → n ≤ 65535)
    (hpu : P.parse u = .ok (mkParsed ⟨sch, NL, pa0, [], Q0, F0⟩ u portOpt))
    (s : String) (hs : P.getCanonicalUrl u = .ok s) :
    P.getCanonicalUrl s = .ok s := by
  have hschne : sch ≠ [] := by
    obtain ⟨c0, tl, he, _⟩ := hschhead
    rw [he]
    exact List.cons_ne_nil _ _
  have hH0props := hostinfo_props NL hNLnb1
  have hH0nc : ':' ∉ (hostinfo NL).1 := hH0props.1
  have hH0na : '@' ∉ (hostinfo NL).1 := hH0props.2.1
  have hH0sub : ∀ c ∈ (hostinfo NL).1, c ∈ NL := hH0props.2.2.1
  set H0 : Chars := (hostinfo NL).1 with hH0_def
  set H2 : Chars := wwwStrip (lowerStr H0) with hH2_def
  have hH2sub0 : ∀ c ∈ H2, c ∈ lowerStr H0 := by
    rw [hH2_def]
    exact wwwStrip_subset _
  have hH2low : lowerStr H2 = H2 := by
    rw [hH2_def]
    exact wwwStrip_lower_fixed H0
  have hH2www : H2.take 4 ≠ ['w', 'w', 'w', '.'] := hWww
  have hH2nd : ∀ c ∈ H2, isNetlocDelim c = false := fun c hc =>
    lowerStr_no_delim H0 (fun d hd => hNLnd d (hH0sub d hd)) c (hH2sub0 c hc)
  have hH2nc : ':' ∉ H2 := fun hm =>
    not_mem_lowerStr ':' H0 (by decide) (by decide) hH0nc (hH2sub0 ':' hm)
  have hH2na : '@' ∉ H2 := fun hm =>
    not_mem_lowerStr '@' H0 (by decide) (by decide) hH0na (hH2sub0 '@' hm)
  have hH2nb1 : '[' ∉ H2 := fun hm =>
    not_mem_lowerStr '[' H0 (by decide) (by decide)
      (fun hm2 => hNLnb1 (hH0sub '[' hm2)) (hH2sub0 '[' hm)
  have hH2nb2 : ']' ∉ H2 := fun hm =>
    not_mem_lowerStr ']' H0 (by decide) (by decide)
      (fun hm2 => hNLnb2 (hH0sub ']' hm2)) (hH2sub0 ']' hm)
  have hH2safe : ∀ c ∈ H2, isUnsafeChar c = false := fun c hc =>
    lowerStr_not_unsafe H0 (fun d hd => hNLsafe d (hH0sub d hd)) c (hH2sub0 c hc)
  set PA2 : Chars :=
    if pa0.length > 1 ∧ pa0.getLast? = some '/' then rstripChar '/' pa0 else pa0
    with hPA2_def
  have hPA2pref : PA2 <+: pa0 := by
    rw [hPA2_def]
    split
    · exact rstripChar_prefix '/' pa0
    · exact List.prefix_refl pa0
  have hPA2np : '%' ∉ PA2 := fun hm => hpa0np (hPA2pref.subset hm)
  have hPA2noq : '?' ∉ PA2 := fun hm => hpa0noq (hPA2pref.subset hm)
  have hPA2noh : '#' ∉ PA2 := fun hm => hpa0noh (hPA2pref.subset hm)
  have hPA2nsemi : ';' ∉ PA2 := fun hm => hpa0nsemi (hPA2pref.subset hm)
  have hPA2safe : ∀ c ∈ PA2, isUnsafeChar c = false := fun c hc =>
    hpa0safe c (hPA2pref.subset hc)
  have hPA2last : ¬(PA2.length > 1 ∧ PA2.getLast? = some '/') := by
    rw [hPA2_def]
    split
    · rcases rstripChar_getLast '/' pa0 with he | ⟨d, t, he, hd⟩
      · rw [he]
        simp
      · rw [he]
        intro hcon
        rw [List.getLast?_concat] at hcon
        exact hd (Option.some.inj hcon.2)
    · rename_i hcnd
      exact hcnd
  have hPA2head : NL ≠ [] → (PA2 = [] ∨ ∃ t, PA2 = '/' :: t) := by
    intro hNLne
    rcases hpa0head hNLne with hp0 | ⟨t, hp0⟩
    · rw [hp0] at hPA2pref
      exact Or.inl (List.prefix_nil.1 hPA2pref)
    · cases hP2 : PA2 with
      | nil => exact Or.inl rfl
      | cons c t' =>
        obtain ⟨t'', ht''⟩ := prefix_head _ _ hPA2pref c t' hP2
        rw [hp0] at ht''
        injection ht'' with h1 _
        exact Or.inr ⟨t', by rw [h1]⟩
  set D : List (Chars × List Chars) := parseQs Q0 with hD_def
  set QD : List (String × List String) :=
    D.map (fun kv => (String.mk kv.1, kv.2.map String.mk)) with hQD_def
  set QD2 : List (String × List String) := canonQD P QD with hQD2_def
  have hQDnodup : (QD.map Prod.fst).Nodup := queryDict_keys_nodup Q0
  have hcanon_eq : QD2 = if QD.filter (fun kv => !(P.trackerParams.contains kv.1)) ≠ []
      then sortPairs (QD.filter (fun kv => !(P.trackerParams.contains kv.1)))
      else QD.filter (fun kv => !(P.trackerParams.contains kv.1)) := rfl
  have hQD2cases : QD2 = QD.filter (fun kv => !(P.trackerParams.contains kv.1)) ∨
      QD2 = sortPairs (QD.filter (fun kv => !(P.trackerParams.contains kv.1))) := by
    rw [hcanon_eq]
    by_cases hf : QD.filter (fun kv => !(P.trackerParams.contains kv.1)) ≠ []
    · rw [if_pos hf]
      exact Or.inr rfl
    · rw [if_neg hf]
      exact Or.inl rfl
  have hQD2mem : ∀ kv ∈ QD2, kv ∈ QD.filter (fun kv => !(P.trackerParams.contains kv.1)) := by
    rcases hQD2cases with he | he
    · rw [he]
      exact fun kv h => h
    · rw [he]
      intro kv h
      exact (sortPairs_perm _).mem_iff.1 h
  have hQD2memQD : ∀ kv ∈ QD2, kv ∈ QD := fun kv h => List.mem_of_mem_filter (hQD2mem kv h)
  have hQD2pred : ∀ kv ∈ QD2, (!(P.trackerParams.contains kv.1)) = true := by
    intro kv h
    exact (List.mem_filter.1 (hQD2mem kv h)).2
  have hQD2nodup : (QD2.map Prod.fst).Nodup := by
    rcases hQD2cases with he | he
    · rw [he]
      exact filter_keys_nodup QD _ hQDnodup
    · rw [he]
      exact sortPairs_keys_nodup _ (filter_keys_nodup QD _ hQDnodup)
  have hQD2vals : ∀ kv ∈ QD2, kv.2 ≠ [] := by
    intro kv h
    have hqd := hQD2memQD kv h
    rw [hQD_def, List.mem_map] at hqd
    obtain ⟨dkv, hdkv, rfl⟩ := hqd
    show dkv.2.map String.mk ≠ []
    intro hcon
    exact parseQs_values_ne_nil Q0 dkv hdkv (List.map_eq_nil_iff.1 hcon)
  have hQD2chars : ∀ kv ∈ QD2, (∀ c ∈ kv.1.toList, c.toNat < 128) ∧
      ∀ v ∈ kv.2, ∀ c ∈ v.toList, c.toNat < 128 := by
    intro kv h
    have hqd := hQD2memQD kv h
    rw [hQD_def, List.mem_map] at hqd
    obtain ⟨dkv, hdkv, rfl⟩ := hqd
    obtain ⟨hk, hv⟩ := parseQs_chars Q0 hQ0np dkv hdkv
    constructor
    · intro c hc
      rcases hk c hc with rfl | hcq
      · decide
      · exact hQ0ascii c hcq
    · intro v hvv c hc
      rw [List.mem_map] at hvv
      obtain ⟨w, hw, rfl⟩ := hvv
      rcases hv w hw c hc with rfl | hcq
      · decide
      · exact hQ0ascii c hcq
  have hQD2sort_id : sortPairs QD2 = QD2 := by
    by_cases hf : QD.filter (fun kv => !(P.trackerParams.contains kv.1)) ≠ []
    · have he : QD2 = sortPairs (QD.filter (fun kv => !(P.trackerParams.contains kv.1))) := by
        rw [hcanon_eq, if_pos hf]
      have hpw := sortPairs_pairwise (QD.filter (fun kv => !(P.trackerParams.contains kv.1)))
      have hnd : ((sortPairs (QD.filter (fun kv =>
          !(P.trackerParams.contains kv.1)))).map Prod.fst).Nodup := by
        rw [← he]
        exact hQD2nodup
      rw [he]
      exact sortPairs_eq_self_of_strict _ (pairwise_strict_of_nodup _ hpw hnd)
    · have hfe : QD.filter (fun kv => !(P.trackerParams.contains kv.1)) = [] := not_not.1 hf
      have he : QD2 = [] := by
        rw [hcanon_eq, if_neg hf, hfe]
      rw [he]
      rfl
  have hfilter_id : QD2.filter (fun kv => !(P.trackerParams.contains kv.1)) = QD2 :=
    List.filter_eq_self.2 hQD2pred
  set Qf : Chars := if QD2 ≠ []
    then urlencode (QD2.map (fun kv => (kv.1.toList, kv.2.map String.toList)))
    else Q0 with hQf_def
  have hQstable : (if canonQD P ((parseQs Qf).map
        (fun kv => (String.mk kv.1, kv.2.map String.mk))) ≠ []
      then urlencode ((canonQD P ((parseQs Qf).map
          (fun kv => (String.mk kv.1, kv.2.map String.mk)))).map
        (fun kv => (kv.1.toList, kv.2.map String.toList)))
      else Qf) = Qf := by
    by_cases hqd2ne : QD2 = []
    · have hQfQ0 : Qf = Q0 := by
        rw [hQf_def, if_neg (fun h => h hqd2ne)]
      rw [hQfQ0]
      have hce : canonQD P ((parseQs Q0).map
          (fun kv => (String.mk kv.1, kv.2.map String.mk))) = QD2 := rfl
      rw [hce, if_neg (fun h => h hqd2ne)]
    · have hQfenc : Qf = urlencode (QD2.map (fun kv => (kv.1.toList, kv.2.map String.toList))) := by
        rw [hQf_def, if_pos hqd2ne]
      have hpq : parseQs Qf = QD2.map (fun kv => (kv.1.toList, kv.2.map String.toList)) := by
        rw [hQfenc]
        apply parseQs_urlencode
        · rw [List.map_map]
          show (QD2.map (fun kv => kv.1.toList)).Nodup
          have hcm : (fun kv : String × List String => kv.1.toList)
              = String.toList ∘ Prod.fst := rfl
          rw [hcm, ← List.map_map]
          exact hQD2nodup.map (fun a b h => string_toList_inj a b h)
        · intro kv hkv
          rw [List.mem_map] at hkv
          obtain ⟨kv0, hkv0, rfl⟩ := hkv
          show kv0.2.map String.toList ≠ []
          intro hcon
          exact hQD2vals kv0 hkv0 (List.map_eq_nil_iff.1 hcon)
        · intro kv hkv
          rw [List.mem_map] at hkv
          obtain ⟨kv0, hkv0, rfl⟩ := hkv
          exact (hQD2chars kv0 hkv0).1
        · intro kv hkv
          rw [List.mem_map] at hkv
          obtain ⟨kv0, hkv0, rfl⟩ := hkv
          intro v hv c hc
          rw [List.mem_map] at hv
          obtain ⟨v0, hv0, rfl⟩ := hv
          exact (hQD2chars kv0 hkv0).2 v0 hv0 c hc
      rw [hpq, mkpair_toList2]
      have hcq : canonQD P QD2 = QD2 := by
        have h1 : canonQD P QD2 = if QD2.filter (fun kv => !(P.trackerParams.contains kv.1)) ≠ []
            then sortPairs (QD2.filter (fun kv => !(P.trackerParams.contains kv.1)))
            else QD2.filter (fun kv => !(P.trackerParams.contains kv.1)) := rfl
        rw [h1, hfilter_id, if_pos hqd2ne, hQD2sort_id]
      rw [hcq, if_pos hqd2ne, ← hQfenc]
  have hQfnoh : '#' ∉ Qf := by
    rw [hQf_def]
    split
    · intro hm
      exact (urlencode_safe _ '#' hm).2.2 rfl
    · exact hQ0noh
  have hQfsafe : ∀ c ∈ Qf, isUnsafeChar c = false := by
    rw [hQf_def]
    split
    · intro c hc
      exact (urlencode_safe _ c hc).2.1
    · exact hQ0safe
  have hhost2u : (P.normalize (P.removeTrackerParams
      (mkParsed ⟨sch, NL, pa0, [], Q0, F0⟩ u portOpt)) defaultOptions).hostname
      = String.mk H2 := by
    rw [normalize_hostname]
    have h1 : (P.removeTrackerParams
        (mkParsed ⟨sch, NL, pa0, [], Q0, F0⟩ u portOpt)).hostname.toList = lowerStr H0 := rfl
    rw [h1, lowerStr_idem, ← hH2_def]
  set NL2c : Chars := (P.normalize (P.removeTrackerParams
      (mkParsed ⟨sch, NL, pa0, [], Q0, F0⟩ u portOpt)) defaultOptions).netloc.toList
    with hNL2c_def
  have hNL2fact : (hostinfo NL2c = (H2, none) ∧ NL2c = H2) ∨
      (∃ n, hostinfo NL2c = (H2, some (natRepr n)) ∧ n ≠ 0 ∧ n ≤ 65535 ∧
        NL2c = H2 ++ ':' :: natRepr n ∧ portOpt = some n ∧
        ¬(String.mk sch = "http" ∧ n = 80) ∧ ¬(String.mk sch = "https" ∧ n = 443)) := by
    by_cases hC : (String.mk sch = "http" ∧ portOpt = some 80) ∨
        (String.mk sch = "https" ∧ portOpt = some 443)
    · have hp2 : (P.normalize (P.removeTrackerParams
          (mkParsed ⟨sch, NL, pa0, [], Q0, F0⟩ u portOpt)) defaultOptions).port = none := by
        rw [normalize_port]
        exact if_pos hC
      have hnl2 : NL2c = H2 := by
        rw [hNL2c_def, normalize_netloc, hp2, hhost2u]
        rfl
      exact Or.inl ⟨by rw [hnl2]; exact hostinfo_forward_nocolon H2 hH2na hH2nc hH2nb1, hnl2⟩
    · have hp2 : (P.normalize (P.removeTrackerParams
          (mkParsed ⟨sch, NL, pa0, [], Q0, F0⟩ u portOpt)) defaultOptions).port = portOpt := by
        rw [normalize_port]
        exact if_neg hC
      cases hpo : portOpt with
      | none =>
        rw [hpo] at hp2 hhost2u
        have hnl2 : NL2c = H2 := by
          rw [hNL2c_def, hpo, normalize_netloc, hp2, hhost2u]
          rfl
        exact Or.inl ⟨by rw [hnl2]; exact hostinfo_forward_nocolon H2 hH2na hH2nc hH2nb1, hnl2⟩
      | some n =>
        rw [hpo] at hp2 hhost2u
        by_cases hn : n = 0
        · have hnl2 : NL2c = H2 := by
            rw [hNL2c_def, hpo, normalize_netloc, hp2, hhost2u]
            show (if n ≠ 0 then String.mk ((String.mk H2).toList ++ ':' :: natRepr n)
              else String.mk H2).toList = H2
            rw [if_neg (fun h => h hn)]
            rfl
          exact Or.inl ⟨by rw [hnl2]; exact hostinfo_forward_nocolon H2 hH2na hH2nc hH2nb1,
            hnl2⟩
        · have hnl2 : NL2c = H2 ++ ':' :: natRepr n := by
            rw [hNL2c_def, hpo, normalize_netloc, hp2, hhost2u]
            show (if n ≠ 0 then String.mk ((String.mk H2).toList ++ ':' :: natRepr n)
              else String.mk H2).toList = H2 ++ ':' :: natRepr n
            rw [if_pos hn]
            rfl
          refine Or.inr ⟨n, ?_, hn, hportrange n hpo, hnl2, rfl, ?_, ?_⟩
          · rw [hnl2]
            refine hostinfo_forward_colon H2 (natRepr n) ?_ hH2nc ?_ (natRepr_ne_nil n)
            · intro hm
              rcases List.mem_append.1 hm with hm | hm
              · exact hH2na hm
              · rcases List.mem_cons.1 hm with he | hm
                · exact absurd he (by decide)
                · exact (natRepr_char_facts n _ hm).2.2.2.2.1 rfl
            · intro hm
              rcases List.mem_append.1 hm with hm | hm
              · exact hH2nb1 hm
              · rcases List.mem_cons.1 hm with he | hm
                · exact absurd he (by decide)
                · exact (natRepr_char_facts n _ hm).2.2.2.2.2.1 rfl
          · intro hcon
            exact hC (Or.inl ⟨hcon.1, by rw [hpo, hcon.2]⟩)
          · intro hcon
            exact hC (Or.inr ⟨hcon.1, by rw [hpo, hcon.2]⟩)
  have hpath2u : (P.normalize (P.removeTrackerParams
      (mkParsed ⟨sch, NL, pa0, [], Q0, F0⟩ u portOpt)) defaultOptions).path
      = String.mk PA2 := by
    rw [normalize_path]
    show String.mk (unquote (if pa0.length > 1 ∧ pa0.getLast? = some '/'
      then rstripChar '/' pa0 else pa0)) = String.mk PA2
    rw [← hPA2_def, unquote_no_percent PA2 hPA2np]
  have hqd2u : (P.normalize (P.removeTrackerParams
      (mkParsed ⟨sch, NL, pa0, [], Q0, F0⟩ u portOpt)) defaultOptions).queryDict = QD2 := by
    rw [normalize_queryDict]
    rfl
  have hstru : (P.normalize (P.removeTrackerParams
      (mkParsed ⟨sch, NL, pa0, [], Q0, F0⟩ u portOpt)) defaultOptions).strUrl
      = String.mk (urlunparse sch NL2c PA2 [] Qf []) := by
    rw [strUrl_fields, hpath2u, hqd2u]
    show String.mk (urlunparse sch NL2c (String.mk PA2).toList []
      (if QD2 ≠ []
       then urlencode (QD2.map (fun kv => (kv.1.toList, kv.2.map String.toList)))
       else Q0) []) = String.mk (urlunparse sch NL2c PA2 [] Qf [])
    rw [← hQf_def]
    rfl
  have hclean_u := clean_ok_inv P u _ hpu
  rw [hclean_u] at hs
  injection hs with hseq
  have hsl : s.toList = urlunparse sch NL2c PA2 [] Qf [] := by
    rw [← hseq, hstru]
    rfl
  have hpahead2 : NL2c ≠ [] → (PA2 = [] ∨ ∃ t, PA2 = '/' :: t) := by
    intro hnl2ne
    apply hPA2head
    intro hNLnil
    have hH0nil : H0 = [] := by
      rw [hH0_def, hNLnil, hostinfo_nil]
    have hH2nil : H2 = [] := by
      rw [hH2_def, hH0nil]
      rfl
    have hpo : portOpt = none := by
      by_contra hcon
      have h2 := hport_src hcon
      rw [hNLnil, hostinfo_nil] at h2
      exact h2 rfl
    apply hnl2ne
    rcases hNL2fact with ⟨_, he⟩ | ⟨n, _, _, _, _, hposome, _, _⟩
    · rw [he, hH2nil]
    · rw [hpo] at hposome
      exact Option.noConfusion hposome
  have hNL2nd : ∀ c ∈ NL2c, isNetlocDelim c = false := by
    rcases hNL2fact with ⟨_, he⟩ | ⟨n, _, _, _, he, _, _, _⟩
    · rw [he]
      exact hH2nd
    · rw [he]
      intro c hc
      rcases List.mem_append.1 hc with hc | hc
      · exact hH2nd c hc
      · rcases List.mem_cons.1 hc with rfl | hc
        · decide
        · exact (natRepr_char_facts n c hc).2.2.1
  have hNL2safe : ∀ c ∈ NL2c, isUnsafeChar c = false := by
    rcases hNL2fact with ⟨_, he⟩ | ⟨n, _, _, _, he, _, _, _⟩
    · rw [he]
      exact hH2safe
    · rw [he]
      intro c hc
      rcases List.mem_append.1 hc with hc | hc
      · exact hH2safe c hc
      · rcases List.mem_cons.1 hc with rfl | hc
        · decide
        · exact (natRepr_char_facts n c hc).2.1
  have hNL2nb1 : '[' ∉ NL2c := by
    rcases hNL2fact with ⟨_, he⟩ | ⟨n, _, _, _, he, _, _, _⟩
    · rw [he]
      exact hH2nb1
    · rw [he]
      intro hm
      rcases List.mem_append.1 hm with hm | hm
      · exact hH2nb1 hm
      · rcases List.mem_cons.1 hm with he2 | hm
        · exact absurd he2 (by decide)
        · exact (natRepr_char_facts n _ hm).2.2.2.2.2.1 rfl
  have hNL2nb2 : ']' ∉ NL2c := by
    rcases hNL2fact with ⟨_, he⟩ | ⟨n, _, _, _, he, _, _, _⟩
    · rw [he]
      exact hH2nb2
    · rw [he]
      intro hm
      rcases List.mem_append.1 hm with hm | hm
      · exact hH2nb2 hm
      · rcases List.mem_cons.1 hm with he2 | hm
        · exact absurd he2 (by decide)
        · exact (natRepr_char_facts n _ hm).2.2.2.2.2.2 rfl
  have hqt : ((if Qf = [] then ([] : Chars) else '?' :: Qf) = [] ∧ Qf = []) ∨
      (if Qf = [] then ([] : Chars) else '?' :: Qf) = '?' :: Qf := by
    by_cases hq : Qf = []
    · exact Or.inl ⟨by rw [if_pos hq], hq⟩
    · exact Or.inr (by rw [if_neg hq])
  rcases urlunparse_shape sch NL2c PA2 Qf hschne hpahead2 with ⟨hb1, hshape⟩ | ⟨hb1, hshape⟩
  · have hslS : s.toList = sch ++ ':' :: '/' :: '/' ::
        ((NL2c ++ PA2) ++ (if Qf = [] then [] else '?' :: Qf)) := hsl.trans hshape
    have hpahead3 : PA2 = [] ∨ ∃ t, PA2 = '/' :: t := by
      rcases hb1 with hnl | ⟨hne, ht2⟩
      · exact hpahead2 hnl
      · rcases take2_slashes_head PA2 ht2 with ⟨t, hpat⟩
        exact Or.inr ⟨t, hpat⟩
    have hunsafe_all : ∀ c ∈ sch ++ ':' :: '/' :: '/' ::
        ((NL2c ++ PA2) ++ (if Qf = [] then [] else '?' :: Qf)), isUnsafeChar c = false := by
      intro c hc
      rcases List.mem_append.1 hc with hc | hc
      · exact hschsafe c hc
      · rcases List.mem_cons.1 hc with rfl | hc
        · decide
        · rcases List.mem_cons.1 hc with rfl | hc
          · decide
          · rcases List.mem_cons.1 hc with rfl | hc
            · decide
            · rcases List.mem_append.1 hc with hc | hc
              · rcases List.mem_append.1 hc with hc | hc
                · exact hNL2safe c hc
                · exact hPA2safe c hc
              · rcases hqt with ⟨hq0, _⟩ | hq1
                · rw [hq0] at hc
                  exact absurd hc (List.not_mem_nil c)
                · rw [hq1] at hc
                  rcases List.mem_cons.1 hc with rfl | hc
                  · decide
                  · exact hQfsafe c hc
    obtain ⟨hsch_s, hnl_s, hpa_s, hq_s, hfr_s⟩ := serialized_splits sch NL2c PA2 Qf
      (if Qf = [] then [] else '?' :: Qf) hschhead hschall hschlow hNL2nd hpahead3
      hPA2noh hPA2noq hQfnoh hqt hunsafe_all
    have hup_s : urlparseCore s.toList = .ok ⟨sch, NL2c, PA2, [], Qf, []⟩ :=
      urlparse_components s.toList sch NL2c PA2 Qf []
        (by rw [hslS]; exact hsch_s) (by rw [hslS]; exact hnl_s)
        (by rw [hslS]; exact hpa_s) (by rw [hslS]; exact hq_s)
        (by rw [hslS]; exact hfr_s) hNL2nb1 hNL2nb2 hPA2nsemi
    rcases hNL2fact with ⟨hhi2, hnl2eq⟩ | ⟨n, hhi2, hn0, hnle, hnl2eq, _, hh80, hh443⟩
    · have hp_s := parse_components_noport P s sch NL2c PA2 Qf [] hup_s
        (congrArg Prod.snd hhi2)
      exact second_pass P s sch NL2c PA2 Qf H2 none hp_s hsl
        (congrArg Prod.fst hhi2) hH2low hH2www (Or.inl ⟨rfl, hnl2eq⟩)
        hPA2last hPA2np hQstable
    · have hp_s := parse_components_port P s sch NL2c PA2 Qf [] (natRepr n) n hup_s
        (congrArg Prod.snd hhi2) (parsePortStr_natRepr n hnle)
      exact second_pass P s sch NL2c PA2 Qf H2 (some n) hp_s hsl
        (congrArg Prod.fst hhi2) hH2low hH2www
        (Or.inr ⟨n, rfl, hn0, hnl2eq, hh80, hh443⟩) hPA2last hPA2np hQstable
  · have hnl2nil : NL2c = [] := by
      by_contra hc
      exact hb1 (Or.inl hc)
    have hslS : s.toList = sch ++ ':' :: (PA2 ++ (if Qf = [] then [] else '?' :: Qf)) :=
      hsl.trans hshape
    have hpa2' : PA2 = [] ∨ PA2.take 2 ≠ ['/', '/'] := by
      by_cases hp : PA2 = []
      · exact Or.inl hp
      · right
        intro ht
        exact hb1 (Or.inr ⟨hp, ht⟩)
    have htake := take2_append_ne_slashes PA2 (if Qf = [] then [] else '?' :: Qf) Qf hpa2' hqt
    have hunsafe_all : ∀ c ∈ sch ++ ':' :: (PA2 ++ (if Qf = [] then [] else '?' :: Qf)),
        isUnsafeChar c = false := by
      intro c hc
      rcases List.mem_append.1 hc with hc | hc
      · exact hschsafe c hc
      · rcases List.mem_cons.1 hc with rfl | hc
        · decide
        · rcases List.mem_append.1 hc with hc | hc
          · exact hPA2safe c hc
          · rcases hqt with ⟨hq0, _⟩ | hq1
            · rw [hq0] at hc
              exact absurd hc (List.not_mem_nil c)
            · rw [hq1] at hc
              rcases List.mem_cons.1 hc with rfl | hc
              · decide
              · exact hQfsafe c hc
    obtain ⟨hsch_s, hnl_s, hpa_s, hq_s, hfr_s⟩ := serialized_splits_nonetloc sch PA2 Qf
      (if Qf = [] then [] else '?' :: Qf) hschhead hschall hschlow htake
      hPA2noh hPA2noq hQfnoh hqt hunsafe_all
    have hup_s : urlparseCore s.toList = .ok ⟨sch, [], PA2, [], Qf, []⟩ :=
      urlparse_components s.toList sch [] PA2 Qf []
        (by rw [hslS]; exact hsch_s) (by rw [hslS]; exact hnl_s)
        (by rw [hslS]; exact hpa_s) (by rw [hslS]; exact hq_s)
        (by rw [hslS]; exact hfr_s) (List.not_mem_nil '[') (List.not_mem_nil ']') hPA2nsemi
    have hH2nil : H2 = [] := by
      rcases hNL2fact with ⟨_, he⟩ | ⟨n, _, _, _, he, _, _, _⟩
      · rw [← he, hnl2nil]
      · rw [hnl2nil] at he
        exact absurd he.symm (by
          intro hcon
          rcases List.append_eq_nil.1 hcon with ⟨_, h2⟩
          exact List.cons_ne_nil _ _ h2)
    have hp_s := parse_components_noport P s sch [] PA2 Qf [] hup_s
      (congrArg Prod.snd hostinfo_nil)
    have hsl2 : s.toList = urlunparse sch [] PA2 [] Qf [] := by
      rw [hnl2nil] at hsl
      exact hsl
    exact second_pass P s sch [] PA2 Qf H2 none hp_s hsl2
      (by rw [hostinfo_nil, hH2nil]) hH2low hH2www
      (Or.inl ⟨rfl, hH2nil.symm⟩) hPA2last hPA2np hQstable

/-! ### Claim C4: canonicalization idempotence -/

/-- Claim C4 (counterexample to the claim as stated): canonicalization
is not idempotent on every URL.  The www-strip of normalize removes one
"www." prefix per pass, so "http://www.www.example.com/" canonicalizes
to "http://www.example.com/", which canonicalizes again to the
different string "http://example.com/". -/
theorem C4_counterexample :
    URLParser.getCanonicalUrl ⟨[]⟩ "http://www.www.example.com/" =
        .ok "http://www.example.com/" ∧
      URLParser.getCanonicalUrl ⟨[]⟩ "http://www.example.com/" =
        .ok "http://example.com/" ∧
      ("http://example.com/" : String) ≠ "http://www.example.com/" :=
  ⟨rfl, rfl, by decide⟩

/-- Claim C4 (amended): canonicalization is idempotent on every ASCII
URL that contains no unsafe byte (tab, CR, LF), no percent sign, no
square bracket and no semicolon, that has an explicit scheme, and whose
lowercased then www-stripped hostname does not still start with "www."
(the www-strip removes a single prefix per pass): if getCanonicalUrl u
returns ok s, then getCanonicalUrl s returns ok s itself. -/
theorem C4_canonical_idempotent (P : URLParser) (u : String)
    (hA : ∀ c ∈ u.toList, c.toNat < 128)
    (hU : ∀ c ∈ u.toList, isUnsafeChar c = false)
    (hPc : '%' ∉ u.toList) (hLB : '[' ∉ u.toList) (hRB : ']' ∉ u.toList)
    (hSemi : ';' ∉ u.toList)
    (hSch : schemeOf u.toList ≠ [])
    (hWww : (wwwStrip (lowerStr (hostinfo (netlocOf u.toList)).1)).take 4 ≠
      ['w', 'w', 'w', '.'])
    (s : String) (hs : P.getCanonicalUrl u = .ok s) :
    P.getCanonicalUrl s = .ok s := by
  have hclean : removeUnsafeBytes u.toList = u.toList := removeUnsafeBytes_eq_self _ hU
  rcases splitScheme_cases u.toList with hss |
    ⟨raw, rest, _, hdec, _, hrawhead, hrawall, _, hss⟩
  · refine absurd ?_ hSch
    unfold schemeOf
    rw [hclean, hss]
  · have hschemeOf_eq : schemeOf u.toList = lowerStr raw := by
      unfold schemeOf
      rw [hclean, hss]
    have hrawsub : ∀ c ∈ raw, c ∈ u.toList := by
      intro c hc
      rw [hdec]
      exact List.mem_append_left _ hc
    have hschhead : ∃ c0 tl, lowerStr raw = c0 :: tl ∧ c0.isAlpha = true := by
      obtain ⟨c0, tl, he, ha⟩ := hrawhead
      exact ⟨c0.toLower, lowerStr tl, by rw [he]; rfl, isAlpha_toLower c0 ha⟩
    have hschall : (lowerStr raw).all isSchemeChar = true := lowerStr_all_scheme raw hrawall
    have hschlow : lowerStr (lowerStr raw) = lowerStr raw := lowerStr_idem raw
    have hschsafe : ∀ c ∈ lowerStr raw, isUnsafeChar c = false :=
      lowerStr_not_unsafe raw (fun c hc => hU c (hrawsub c hc))
    have hNLsub := netlocOf_subset u.toList
    have hNLnb1 : '[' ∉ netlocOf u.toList := fun hm => hLB (hNLsub _ hm)
    have hNLnb2 : ']' ∉ netlocOf u.toList := fun hm => hRB (hNLsub _ hm)
    have hNLnd : ∀ c ∈ netlocOf u.toList, isNetlocDelim c = false := by
      rcases netlocOf_cases u.toList with ⟨_, he⟩ | ⟨_, he⟩
      · intro c hc
        rw [he] at hc
        have h3 := mem_takeWhile_pred _ _ c hc
        simpa using h3
      · intro c hc
        rw [he] at hc
        exact absurd hc (List.not_mem_nil c)
    have hNLsafe : ∀ c ∈ netlocOf u.toList, isUnsafeChar c = false :=
      fun c hc => hU c (hNLsub c hc)
    have hNLascii : ∀ c ∈ netlocOf u.toList, c.toNat < 128 :=
      fun c hc => hA c (hNLsub c hc)
    have hpa0sub := path_subset_url u.toList
    have hpa0noq : '?' ∉ (querySplit u.toList).1 := ( querySplit_fst_prefix u.toList).2
    have hpa0noh : '#' ∉ (querySplit u.toList).1 := fun hm =>
      ( fragSplit_fst_prefix u.toList).2 (( querySplit_fst_prefix u.toList).1.subset hm)
    have hpa0np : '%' ∉ (querySplit u.toList).1 := fun hm => hPc (hpa0sub _ hm)
    have hpa0nsemi : ';' ∉ (querySplit u.toList).1 := fun hm => hSemi (hpa0sub _ hm)
    have hpa0safe : ∀ c ∈ (querySplit u.toList).1, isUnsafeChar c = false :=
      fun c hc => hU c (hpa0sub c hc)
    have hpa0head : netlocOf u.toList ≠ [] →
        ((querySplit u.toList).1 = [] ∨ ∃ t, (querySplit u.toList).1 = '/' :: t) := by
      intro hne
      rcases netlocOf_cases u.toList with ⟨h2, _⟩ | ⟨_, he⟩
      · exact path_head_slash u.toList h2
      · exact absurd he hne
    have hQ0sub := query_subset_url u.toList
    have hQ0noh : '#' ∉ (querySplit u.toList).2 := fun hm =>
      ( fragSplit_fst_prefix u.toList).2 (querySplit_snd_subset u.toList '#' hm)
    have hQ0np : '%' ∉ (querySplit u.toList).2 := fun hm => hPc (hQ0sub _ hm)
    have hQ0safe : ∀ c ∈ (querySplit u.toList).2, isUnsafeChar c = false :=
      fun c hc => hU c (hQ0sub c hc)
    have hQ0ascii : ∀ c ∈ (querySplit u.toList).2, c.toNat < 128 :=
      fun c hc => hA c (hQ0sub c hc)
    have hup_u : urlparseCore u.toList = .ok ⟨lowerStr raw, netlocOf u.toList,
        (querySplit u.toList).1, [], (querySplit u.toList).2, (fragSplit u.toList).2⟩ :=
      urlparse_components u.toList _ _ _ _ _ hschemeOf_eq rfl rfl rfl rfl hNLnb1 hNLnb2 hpa0nsemi
    cases hhi0 : (hostinfo (netlocOf u.toList)).2 with
    | none =>
      exact C4_core P u (lowerStr raw) (netlocOf u.toList) (querySplit u.toList).1
        (querySplit u.toList).2 (fragSplit u.toList).2 none
        hschhead hschall hschlow hschsafe hNLnd hNLnb1 hNLnb2 hNLsafe hNLascii
        hpa0noq hpa0noh hpa0np hpa0nsemi hpa0safe hpa0head
        hQ0noh hQ0np hQ0safe hQ0ascii hWww
        (fun hcon => absurd rfl hcon) (fun n hn => Option.noConfusion hn)
        (parse_components_noport P u _ _ _ _ _ hup_u hhi0) s hs
    | some ps0 =>
      cases hps0 : parsePortStr ps0 with
      | error e =>
        have hbad := clean_badparse P u e
          (parse_components_badport P u _ _ _ _ _ ps0 e hup_u hhi0 hps0)
        exact Except.noConfusion (hbad.symm.trans hs)
      | ok n =>
        refine C4_core P u (lowerStr raw) (netlocOf u.toList) (querySplit u.toList).1
          (querySplit u.toList).2 (fragSplit u.toList).2 (some n)
          hschhead hschall hschlow hschsafe hNLnd hNLnb1 hNLnb2 hNLsafe hNLascii
          hpa0noq hpa0noh hpa0np hpa0nsemi hpa0safe hpa0head
          hQ0noh hQ0np hQ0safe hQ0ascii hWww
          (fun _ => ?_) (fun m hm => ?_)
          (parse_components_port P u _ _ _ _ _ ps0 n hup_u hhi0 hps0) s hs
        · rw [hhi0]
          exact fun hc => Option.noConfusion hc
        · injection hm with hm2
          exact hm2 ▸ (parsePortStr_ok_inv ps0 n hps0).1

theorem C4_canonical_idempotent_witness :
    URLParser.getCanonicalUrl ⟨["utm_source"]⟩ "http://example.com/a?a=1&b=2" =
      .ok "http://example.com/a?a=1&b=2" :=
  C4_canonical_idempotent ⟨["utm_source"]⟩ "http://Example.com/a/?b=2&a=1&utm_source=x"
    (by decide) (by decide) (by decide) (by decide) (by decide) (by decide)
    (by decide) (by decide) "http://example.com/a?a=1&b=2" (by rfl)

end UrlOrg
